import Mathlib

/-!
# wsh: history ring, local variables and command parsing

A shallow embedding of `src/p3/MyCode/wsh.c`.

Conventions of the embedding.

* A `char **` array is a map from slot index to `Option String`: `none` is a
  NULL pointer or a slot that was never written.  Accesses are not bounds
  checked, as in C; every theorem that depends on an access being inside the
  allocated block carries the corresponding hypothesis (`size ≤ capacity`).
* `size`, `capacity`, `num_vars` and `num_args` are C `int`s that count
  elements.  They are natural numbers here: no path of the program stores a
  negative value in them (the one caller of `resize_history` rejects a negative
  argument before the call).
* `malloc`, `realloc` and `strdup` are assumed to succeed.
* Text written by `printf` is returned as a list of strings.
-/

namespace Wsh

/-! ## Constants (wsh.c, lines 10-13) -/

def MAX_ARGS : Nat := 256
def DEFAULT_HISTORY_SIZE : Nat := 5
def MAX_LOCAL_VARIABLES : Nat := 1024

/-! ## Pointer arrays -/

/-- An array of `char *`: slot `i` holds NULL (`none`) or a string. -/
abbrev Slots := Nat → Option String

/-- The assignment `a[i] = v`. -/
def write (a : Slots) (i : Nat) (v : Option String) : Slots :=
  fun j => if j = i then v else a j

/-- The call `memmove(a + dst, a + src, n * sizeof(char *))`: the `n` slots from
`dst` receive the former contents of the `n` slots from `src`; overlapping
ranges are handled as `memmove` does (all reads see the old contents). -/
def memmove (a : Slots) (dst src n : Nat) : Slots :=
  fun j => if dst ≤ j ∧ j < dst + n then a (src + (j - dst)) else a j

/-- The call `realloc(a, new_cap * sizeof(char *))` on a block of `old_cap`
slots: the contents are kept up to the lesser of the two sizes, the remaining
slots of the new block are not initialised. -/
def realloc (a : Slots) (old_cap new_cap : Nat) : Slots :=
  fun j => if j < min old_cap new_cap then a j else none

/-- The first `n` slots of an array, in index order. -/
def view (a : Slots) (n : Nat) : List (Option String) :=
  (List.range n).map a

/-! ## History (wsh.c, lines 16-20 and 84-162) -/

/-- The `HISTORY` struct. -/
structure HISTORY where
  commands : Slots
  capacity : Nat
  size : Nat

/-- Function `init_history`: a block of `DEFAULT_HISTORY_SIZE` NULL slots. -/
def init_history : HISTORY :=
  { commands := fun _ => none
    capacity := DEFAULT_HISTORY_SIZE
    size := 0 }

/-- Function `add_history`.  The `free` of the evicted string does not change
the pointer array; the slot is overwritten by the `memmove`. -/
def add_history (history : HISTORY) (cmd : String) : HISTORY :=
  if history.capacity = 0 then history
  else
    let size := if history.size ≥ history.capacity then history.size else history.size + 1
    let commands := memmove history.commands 1 0 (size - 1)
    { commands := write commands 0 (some cmd)
      capacity := history.capacity
      size := size }

/-- Function `resize_history`. -/
def resize_history (history : HISTORY) (new_capacity : Nat) : HISTORY :=
  let size := if history.size > new_capacity then new_capacity else history.size
  { commands := realloc history.commands history.capacity new_capacity
    capacity := new_capacity
    size := size }

/-- Function `display_history`: the arguments `(i + 1, commands[i])` of the
successive `printf("%d) %s", ...)` calls. -/
def display_history (history : HISTORY) : List (Nat × Option String) :=
  (List.range history.size).map (fun i => (i + 1, history.commands i))

/-- Function `get_history`: the text printed and the value stored in `*cmd`. -/
def get_history (history : HISTORY) (index : Int) : List String × Option String :=
  if index < 1 ∨ index > (history.size : Int) then
    (["Invalid history index\n"], none)
  else
    ([], history.commands (index - 1).toNat)

/-- The stored entries, newest first: slots `0 .. size - 1`. -/
def HISTORY.entries (history : HISTORY) : List (Option String) :=
  view history.commands history.size

/-- One call on the history, as issued by the shell. -/
inductive HistoryCall where
  | add (cmd : String)
  | resize (new_capacity : Nat)

/-- Apply one call. -/
def HistoryCall.apply (history : HISTORY) : HistoryCall → HISTORY
  | .add cmd => add_history history cmd
  | .resize k => resize_history history k

/-- Apply a sequence of calls, first to last. -/
def run_history (history : HISTORY) (calls : List HistoryCall) : HISTORY :=
  calls.foldl HistoryCall.apply history

/-! ## Local variables (wsh.c, lines 22-26 and 181-251) -/

/-- The `LOCALVARS` struct. -/
structure LOCALVARS where
  var_name : Slots
  var_value : Slots
  num_vars : Nat

/-- Function `init_local_vars`: two blocks of `MAX_LOCAL_VARIABLES` NULL slots. -/
def init_local_vars : LOCALVARS :=
  { var_name := fun _ => none
    var_value := fun _ => none
    num_vars := 0 }

/-- The search loop shared by `add_local_var`, `get_local_var` and
`remove_local_var`:
`for (; i < num_vars; i++) if (strcmp(var_name[i], name) == 0) ...`,
with `remaining = num_vars - i` iterations left.  The result is the index at
which the body of the `if` runs, if any. -/
def find_var_from (var_name : Slots) (name : String) (i : Nat) : Nat → Option Nat
  | 0 => none
  | remaining + 1 =>
    if var_name i = some name then some i
    else find_var_from var_name name (i + 1) remaining

/-- The search loop started at `i = 0`. -/
def find_var (local_vars : LOCALVARS) (name : String) : Option Nat :=
  find_var_from local_vars.var_name name 0 local_vars.num_vars

/-- Function `add_local_var`: the new store and the text printed. -/
def add_local_var (local_vars : LOCALVARS) (name value : String) :
    LOCALVARS × List String :=
  match find_var local_vars name with
  | some i =>
    ({ local_vars with var_value := write local_vars.var_value i (some value) }, [])
  | none =>
    if local_vars.num_vars ≥ MAX_LOCAL_VARIABLES then
      (local_vars, ["Error: too many local variables\n"])
    else
      ({ var_name := write local_vars.var_name local_vars.num_vars (some name)
         var_value := write local_vars.var_value local_vars.num_vars (some value)
         num_vars := local_vars.num_vars + 1 }, [])

/-- Function `get_local_var`: a copy of the value, or NULL. -/
def get_local_var (local_vars : LOCALVARS) (name : String) : Option String :=
  match find_var local_vars name with
  | some i => local_vars.var_value i
  | none => none

/-- Function `remove_local_var`. -/
def remove_local_var (local_vars : LOCALVARS) (name : String) : LOCALVARS :=
  match find_var local_vars name with
  | some i =>
    { var_name := memmove local_vars.var_name i (i + 1) (local_vars.num_vars - i - 1)
      var_value := memmove local_vars.var_value i (i + 1) (local_vars.num_vars - i - 1)
      num_vars := local_vars.num_vars - 1 }
  | none => local_vars

/-- Function `display_local_vars`: the arguments `(var_name[i], var_value[i])`
of the successive `printf("%s=%s\n", ...)` calls. -/
def display_local_vars (local_vars : LOCALVARS) : List (Option String × Option String) :=
  (List.range local_vars.num_vars).map
    (fun i => (local_vars.var_name i, local_vars.var_value i))

/-! ## Parsing (wsh.c, lines 272-322) -/

/-- The process environment as seen through `getenv`. -/
abbrev Getenv := String → Option String

/-- The delimiter string `" \t\n"` passed to `strsep` by `parse_single_command`. -/
def ARG_DELIMS : List Char := [' ', '\t', '\n']

/-- The C library function `strsep(&stringp, delim)`, on a string given as its
list of characters: the token returned and the new value of `stringp`.  The
token runs up to the first character of `delim` (which is overwritten with the
terminator); without such a character the token is the whole string and
`stringp` becomes NULL. -/
def strsep (stringp : Option (List Char)) (delim : List Char) :
    Option (List Char) × Option (List Char) :=
  match stringp with
  | none => (none, none)
  | some s =>
    match s.span (fun ch => decide (ch ∉ delim)) with
    | (token, []) => (some token, none)
    | (token, _ :: rest) => (some token, some rest)

/-- The result of `parse_single_command`: the array stored in `*args`, the
returned count and the text printed. -/
structure ARGS where
  args : Slots
  num_args : Nat
  out : List String

/-- The `while` loop of `parse_single_command` (lines 281-290).  Every
iteration but the last removes at least one character from `cmd_copy`, so
`fuel = strlen(cmd) + 1` iterations are enough. -/
def token_loop : Nat → Option (List Char) → Slots → Nat → ARGS
  | 0, _, args, num_args => { args := args, num_args := num_args, out := [] }
  | fuel + 1, cmd_copy, args, num_args =>
    match strsep cmd_copy ARG_DELIMS with
    | (none, _) => { args := args, num_args := num_args, out := [] }
    | (some token, cmd_copy) =>
      let args := if token.length > 0 then write args num_args (some (String.mk token)) else args
      let num_args := if token.length > 0 then num_args + 1 else num_args
      if num_args ≥ MAX_ARGS then
        { args := args, num_args := num_args, out := ["Error: too many arguments\n"] }
      else token_loop fuel cmd_copy args num_args

/-- The loop `for (int j = i; j < num_args - 1; j++) (*args)[j] = (*args)[j + 1];`
(lines 304-306), with `remaining = num_args - 1 - j` iterations left. -/
def shift_left (args : Slots) (j : Nat) : Nat → Slots
  | 0 => args
  | remaining + 1 => shift_left (write args j (args (j + 1))) (j + 1) remaining

/-- The test `(*args)[i][0] == '$'`.  A NULL slot is never reached by the loop
(every slot below `num_args` holds a string); it counts as not matching. -/
def starts_with_dollar : Option String → Bool
  | none => false
  | some s => s.data.head? = some '$'

/-- The pointer `(*args)[i] + 1`: the string after its first character. -/
def skip_first (s : String) : String := String.mk s.data.tail

/-- The substitution loop of `parse_single_command` (lines 293-318), with `i`
and `num_args` as loop state.  An iteration either advances `i` or removes one
argument, so `num_args - i` iterations are left and the initial `num_args` is
enough fuel. -/
def subst_loop (getenv : Getenv) (local_vars : LOCALVARS) :
    Nat → Slots → Nat → Nat → Slots × Nat
  | 0, args, num_args, _ => (args, num_args)
  | remaining + 1, args, num_args, i =>
    if i < num_args then
      if starts_with_dollar (args i) then
        let var_name := skip_first ((args i).getD "")
        let var_value := get_local_var local_vars var_name
        let var_value := if (getenv var_name).isSome then getenv var_name else var_value
        match var_value with
        | none =>
          let args := shift_left args i (num_args - 1 - i)
          let args := write args (num_args - 1) none
          subst_loop getenv local_vars remaining args (num_args - 1) i
        | some v =>
          subst_loop getenv local_vars remaining (write args i (some v)) num_args (i + 1)
      else subst_loop getenv local_vars remaining args num_args (i + 1)
    else (args, num_args)

/-- Function `parse_single_command`, reading the globals `local_vars` and the
process environment. -/
def parse_single_command (getenv : Getenv) (local_vars : LOCALVARS) (cmd : String) : ARGS :=
  let tokens := token_loop (cmd.data.length + 1) (some cmd.data) (fun _ => none) 0
  let result := subst_loop getenv local_vars tokens.num_args tokens.args tokens.num_args 0
  { args := result.1, num_args := result.2, out := tokens.out }

/-- The argument vector of a parse result: slots `0 .. num_args - 1`. -/
def ARGS.argv (r : ARGS) : List (Option String) := view r.args r.num_args

/-! ## The parsing rules in the words of the specification -/

/-- Specification of the tokens of a line (section 4.1): split on space, tab and
newline, discard empty tokens. -/
def spec_tokens (cmd : String) : List String :=
  ((cmd.data.splitOnP (fun ch => decide (ch ∈ ARG_DELIMS))).filter
    (fun t => !t.isEmpty)).map String.mk

/-- A token `$n` whose name `n` is bound neither in the environment nor in the
variable store. -/
def is_unbound (getenv : Getenv) (local_vars : LOCALVARS) (token : String) : Bool :=
  token.data.head? = some '$' &&
    ((getenv (String.mk token.data.tail)).isNone &&
      (get_local_var local_vars (String.mk token.data.tail)).isNone)

/-- An environment for the examples: `FOO=env1`, `A=$B`, `B=x`. -/
def example_getenv : Getenv := fun name =>
  if name = "FOO" then some "env1"
  else if name = "A" then some "$B"
  else if name = "B" then some "x"
  else none

/-- A variable store for the examples: after `local FOO=local1` and
`local BAR=local2`. -/
def example_local_vars : LOCALVARS :=
  (add_local_var (add_local_var init_local_vars "FOO" "local1").1 "BAR" "local2").1

/-- The array `a` after storing the strings of `l` in the slots from `n` on. -/
def store_from (a : Slots) (n : Nat) : List String → Slots
  | [] => a
  | t :: ts => store_from (write a n (some t)) (n + 1) ts

/-- Specification of the substitution rule for one token (section 4.2): a token
beginning with `$` has the `$` stripped to get a name; the environment is
checked first, then the variable store; if neither binds the name the token is
deleted (`none`).  Any other token is kept. -/
def spec_substitute (getenv : Getenv) (local_vars : LOCALVARS) (token : String) :
    Option String :=
  if token.data.head? = some '$' then
    match getenv (String.mk token.data.tail) with
    | some v => some v
    | none => get_local_var local_vars (String.mk token.data.tail)
  else some token

/-! ## Pipelines (wsh.c, lines 324-357) -/

/-- The delimiter string `"|"` passed to `strsep` by `parse_pipe_command`. -/
def PIPE_DELIMS : List Char := ['|']

/-- The result of `parse_pipe_command`: the array stored in `*commands`, the
returned count and the text printed. -/
structure STAGES where
  commands : Slots
  num_commands : Nat
  out : List String

/-- The `while` loop of `parse_pipe_command` (lines 333-342), with
`fuel = strlen(cmd) + 1` as for `token_loop`. -/
def pipe_loop : Nat → Option (List Char) → Slots → Nat → STAGES
  | 0, _, commands, num_commands =>
    { commands := commands, num_commands := num_commands, out := [] }
  | fuel + 1, cmd_copy, commands, num_commands =>
    match strsep cmd_copy PIPE_DELIMS with
    | (none, _) => { commands := commands, num_commands := num_commands, out := [] }
    | (some token, cmd_copy) =>
      let commands :=
        if token.length > 0 then write commands num_commands (some (String.mk token))
        else commands
      let num_commands := if token.length > 0 then num_commands + 1 else num_commands
      if num_commands ≥ MAX_ARGS then
        { commands := commands, num_commands := num_commands,
          out := ["Error: too many pipeline commands\n"] }
      else pipe_loop fuel cmd_copy commands num_commands

/-- Function `parse_pipe_command`. -/
def parse_pipe_command (cmd : String) : STAGES :=
  pipe_loop (cmd.data.length + 1) (some cmd.data) (fun _ => none) 0

/-- The stage strings of a split result: slots `0 .. num_commands - 1`. -/
def STAGES.stages (r : STAGES) : List (Option String) := view r.commands r.num_commands

/-- The loop of `check_pipe_command` over the characters of `cmd`. -/
def check_pipe_loop : List Char → Nat
  | [] => 0
  | ch :: rest => if ch = '|' then 1 else check_pipe_loop rest

/-- Function `check_pipe_command`: 1 if the line holds a `|`, else 0. -/
def check_pipe_command (cmd : String) : Nat := check_pipe_loop cmd.data

/-- Specification of the stages of a pipeline line (section 4.1): split solely
on the pipe character, discard empty segments, keep the order. -/
def spec_stages (cmd : String) : List String :=
  ((cmd.data.splitOnP (fun ch => decide (ch ∈ PIPE_DELIMS))).filter
    (fun t => !t.isEmpty)).map String.mk

/-! ## The shell process (wsh.c, lines 58-59, 164-175, 253-266 and 359-714)

The globals `history` and `local_vars`, the process environment and the text
written to standard output make up the state of the shell process.  Creating
processes is outside the embedding: `fork`, `pipe`, `execvp` and `wait` are
assumed to succeed from the point of view of the parent, whose memory they do
not change, and each launch is recorded as an effect.  What a child does after
`fork` is not part of this state. -/

/-- Function `free_history`. -/
def free_history (_history : HISTORY) : HISTORY :=
  { commands := fun _ => none
    capacity := 0
    size := 0 }

/-- Function `free_local_vars`. -/
def free_local_vars (_local_vars : LOCALVARS) : LOCALVARS :=
  { var_name := fun _ => none
    var_value := fun _ => none
    num_vars := 0 }

/-- Function `check_builtin_command`: 1 for a built-in name, else 0.  The C
function passes `arg0` to `strcmp`, which reads the string: on a NULL pointer
the call has no result (`none`). -/
def check_builtin_command (arg0 : Option String) : Option Nat :=
  match arg0 with
  | none => none
  | some name =>
    if name = "exit" ∨ name = "cd" ∨ name = "export" ∨ name = "local"
        ∨ name = "vars" ∨ name = "history" then some 1
    else some 0

/-- The C library function `strtok`, one call: the characters still to scan,
the delimiters; the token returned (NULL when only delimiters are left) and the
position saved for the next call `strtok(NULL, delim)`. -/
def strtok (s : List Char) (delim : List Char) : Option (List Char) × List Char :=
  match s.dropWhile (fun ch => decide (ch ∈ delim)) with
  | [] => (none, [])
  | ch :: rest =>
    match (ch :: rest).span (fun c => decide (c ∉ delim)) with
    | (token, []) => (some token, [])
    | (token, _ :: saved) => (some token, saved)

/-- The C library predicate `isspace` in the C locale. -/
def isspace (ch : Char) : Bool :=
  decide (ch.toNat = 32 ∨ (9 ≤ ch.toNat ∧ ch.toNat ≤ 13))

/-- The digit loop of `strtol` in base 10: the value of the leading digits. -/
def digits_loop : List Char → Nat → Nat
  | [], acc => acc
  | ch :: rest, acc =>
    if ch.isDigit then digits_loop rest (acc * 10 + (ch.toNat - 48)) else acc

/-- The C library function `strtol(s, NULL, 10)` with a 64-bit `long`: leading
white space, an optional sign, the leading digits; out-of-range values are
clamped. -/
def strtol (s : List Char) : Int :=
  match s.dropWhile isspace with
  | '-' :: rest => max (-(2 ^ 63 : Int)) (-(digits_loop rest 0 : Int))
  | '+' :: rest => min (2 ^ 63 - 1 : Int) (digits_loop rest 0 : Int)
  | rest => min (2 ^ 63 - 1 : Int) (digits_loop rest 0 : Int)

/-- The C library function `atoi`, as in glibc: `(int) strtol(s, NULL, 10)`
with a 32-bit `int`. -/
def atoi (s : String) : Int :=
  (strtol s.data + 2 ^ 31) % 2 ^ 32 - 2 ^ 31

/-- The library calls `setenv(name, value, 1)` on the environment. -/
def setenv (getenv : Getenv) (name value : String) : Getenv :=
  fun n => if n = name then some value else getenv n

/-- The library call `unsetenv(name)` on the environment. -/
def unsetenv (getenv : Getenv) (name : String) : Getenv :=
  fun n => if n = name then none else getenv n

/-- What the shell asked of the operating system, besides printing. -/
inductive Effect where
  | pipeline (stages : List (Option String))
  | external (argv : List (Option String))
  | chdir (dir : String)
  deriving DecidableEq

/-- The state of the shell process.  `chdir_ok` is the answer of the file
system to `chdir`; `exited` is the status passed to `exit`, once called;
`faulted` is set once the process has passed a NULL pointer to `strcmp`, after
which it no longer runs the code of the shell. -/
structure SHELL where
  history : HISTORY
  local_vars : LOCALVARS
  getenv : Getenv
  chdir_ok : String → Bool
  out : List String
  effects : List Effect
  exited : Option Nat
  faulted : Bool

/-- The state at the start of `main`, in an empty environment. -/
def init_shell : SHELL :=
  { history := init_history
    local_vars := init_local_vars
    getenv := fun _ => none
    chdir_ok := fun _ => true
    out := []
    effects := []
    exited := none
    faulted := false }

/-- A call of `printf` with the given text. -/
def printf (sh : SHELL) (text : String) : SHELL :=
  { sh with out := sh.out ++ [text] }

/-- A call `strcmp(NULL, ...)`: the process reads through the NULL pointer and
stops running the code of the shell. -/
def fault (sh : SHELL) : SHELL :=
  { sh with faulted := true }

/-- The prompt string `PROMPT`. -/
def PROMPT : String := "wsh> "

/-- Function `execute_pipeline`, as seen by the parent: the line is split, the
children are started on the stage strings and awaited. -/
def execute_pipeline (sh : SHELL) (pipecmd : String) : SHELL :=
  let parsed := parse_pipe_command pipecmd
  { sh with
    out := sh.out ++ parsed.out
    effects := sh.effects ++ [Effect.pipeline parsed.stages] }

/-- Function `execute_single_command`, as seen by the parent: the line is
parsed, one child is started on the argument vector and awaited. -/
def execute_single_command (sh : SHELL) (cmd : String) : SHELL :=
  let parsed := parse_single_command sh.getenv sh.local_vars cmd
  { sh with
    out := sh.out ++ parsed.out
    effects := sh.effects ++ [Effect.external parsed.argv] }

/-- The text of one `printf("%s=%s\n", ...)` of `display_local_vars`. -/
def format_var (entry : Option String × Option String) : String :=
  entry.1.getD "(null)" ++ "=" ++ entry.2.getD "(null)" ++ "\n"

/-- The text of one `printf("%d) %s", ...)` of `display_history`. -/
def format_history (entry : Nat × Option String) : String :=
  toString entry.1 ++ ") " ++ entry.2.getD "(null)"

/-- Function `execute_builtin`.  The function calls itself when `history <n>`
finds a stored line that is a built-in command; `fuel` bounds the depth of
these calls (one level is used by the call itself).  The first comparison
`strcmp(args[0], "exit")` reads `args[0]`: on a NULL pointer the process
faults. -/
def execute_builtin : Nat → SHELL → String → SHELL
  | 0, sh, _ => sh
  | fuel + 1, sh, cmd =>
    let parsed := parse_single_command sh.getenv sh.local_vars cmd
    let args := parsed.args
    let argc := parsed.num_args
    let sh := { sh with out := sh.out ++ parsed.out }
    if args 0 = none then fault sh
    else if args 0 = some "exit" then
      { sh with
        history := free_history sh.history
        local_vars := free_local_vars sh.local_vars
        exited := some 0 }
    else if args 0 = some "cd" then
      if argc > 2 then printf sh "Too many input arguments for cd\n"
      else if argc < 2 ∨ args 1 = none then printf sh "Usage: cd <directory>\n"
      else if sh.chdir_ok ((args 1).getD "") = false then printf sh "Error: chdir() fails\n"
      else { sh with effects := sh.effects ++ [Effect.chdir ((args 1).getD "")] }
    else if args 0 = some "export" then
      if argc < 2 ∨ args 1 = none ∨ argc > 2 then
        printf sh "Usage: export <variable>=<value>\n"
      else
        let first := strtok ((args 1).getD "").data ['=']
        let second := strtok first.2 ['=']
        match first.1, second.1 with
        | none, _ => printf sh "Error: invalid environment variable\n"
        | some name, none => { sh with getenv := unsetenv sh.getenv (String.mk name) }
        | some name, some value =>
          { sh with getenv := setenv sh.getenv (String.mk name) (String.mk value) }
    else if args 0 = some "local" then
      if argc < 2 ∨ args 1 = none ∨ argc > 2 then
        printf sh "Usage: local <variable>=<value>\n"
      else
        let first := strtok ((args 1).getD "").data ['=']
        let second := strtok first.2 ['=']
        match first.1, second.1 with
        | none, _ => printf sh "Error: invalid local variable\n"
        | some name, none =>
          { sh with local_vars := remove_local_var sh.local_vars (String.mk name) }
        | some name, some value =>
          let added := add_local_var sh.local_vars (String.mk name) (String.mk value)
          { sh with local_vars := added.1, out := sh.out ++ added.2 }
    else if args 0 = some "vars" then
      if argc > 1 then printf sh "Usage: vars\n"
      else { sh with out := sh.out ++ (display_local_vars sh.local_vars).map format_var }
    else if args 0 = some "history" then
      if argc = 1 then
        { sh with out := sh.out ++ (display_history sh.history).map format_history }
      else if argc = 2 then
        let index := atoi ((args 1).getD "")
        let found := get_history sh.history index
        let sh := { sh with out := sh.out ++ found.1 }
        match found.2 with
        | none => sh
        | some cmd =>
          let parsed := parse_single_command sh.getenv sh.local_vars cmd
          let sh := { sh with out := sh.out ++ parsed.out }
          if check_pipe_command cmd = 1 then execute_pipeline sh cmd
          else if check_builtin_command (parsed.args 0) = none then fault sh
          else if check_builtin_command (parsed.args 0) = some 1 then
            execute_builtin fuel sh cmd
          else execute_single_command sh cmd
      else if argc = 3 ∧ args 1 = some "set" then
        let history_number := atoi ((args 2).getD "")
        if history_number < 0 then printf sh "Invalid history size\n"
        else { sh with history := resize_history sh.history history_number.toNat }
      else printf sh "history usage error\n"
    else printf sh "Error: not a built-in command\n"

/-- The body of the `while` loop of `interactive_mode` (lines 624-655) for one
line read by `getline`. -/
def interactive_body (fuel : Nat) (sh : SHELL) (cmd : String) : SHELL :=
  if check_pipe_command cmd = 1 then
    let sh := execute_pipeline sh cmd
    printf { sh with history := add_history sh.history cmd } PROMPT
  else
    let parsed := parse_single_command sh.getenv sh.local_vars cmd
    let sh := { sh with out := sh.out ++ parsed.out }
    if parsed.num_args = 0 then printf sh PROMPT
    else if check_builtin_command (parsed.args 0) = none then fault sh
    else if check_builtin_command (parsed.args 0) = some 1 then
      let sh := execute_builtin fuel sh cmd
      if sh.exited.isSome ∨ sh.faulted = true then sh else printf sh PROMPT
    else
      let sh := execute_single_command sh cmd
      printf { sh with history := add_history sh.history cmd } PROMPT

/-- The body of the `while` loop of `batch_mode` (lines 678-705) for one line
read by `getline`. -/
def batch_body (fuel : Nat) (sh : SHELL) (cmd : String) : SHELL :=
  if check_pipe_command cmd = 1 then
    let sh := execute_pipeline sh cmd
    { sh with history := add_history sh.history cmd }
  else
    let parsed := parse_single_command sh.getenv sh.local_vars cmd
    let sh := { sh with out := sh.out ++ parsed.out }
    if parsed.num_args = 0 then sh
    else if check_builtin_command (parsed.args 0) = none then fault sh
    else if check_builtin_command (parsed.args 0) = some 1 then execute_builtin fuel sh cmd
    else
      let sh := execute_single_command sh cmd
      { sh with history := add_history sh.history cmd }

/-! ## Pipeline descriptors and child processes (wsh.c, lines 385-428, 593-602) -/

/-- The length `2 * (num_commands - 1)` of the array `pipe_fds`. -/
def pipe_fds_length (num_commands : Int) : Int := 2 * (num_commands - 1)

/-- The call `pipe(pipe_fds + i*2)` of the creation loop stores the read end of
pipe `i` at this index. -/
def pipe_read_end (i : Int) : Int := i * 2

/-- The call `pipe(pipe_fds + i*2)` of the creation loop stores the write end of
pipe `i` at this index (the second element written by `pipe`). -/
def pipe_write_end (i : Int) : Int := i * 2 + 1

/-- The index into `pipe_fds` that child `i` passes to `dup2(..., STDIN_FILENO)`
(lines 402-404), if it redirects its input. -/
def child_stdin_index (i : Int) : Option Int :=
  if i > 0 then some ((i - 1) * 2) else none

/-- The index into `pipe_fds` that child `i` passes to `dup2(..., STDOUT_FILENO)`
(lines 407-409), if it redirects its output. -/
def child_stdout_index (num_commands i : Int) : Option Int :=
  if i < num_commands - 1 then some (i * 2 + 1) else none

/-- How a forked child leaves the code of the shell: its image is replaced by
the program, it terminates with a status, or it returns to the caller of the
function that forked it and goes on running the shell's code on its copy of the
state. -/
inductive ChildOutcome where
  | replaced (argv : List (Option String))
  | terminated (status : Nat) (out : List String)
  | returned (sh : SHELL)

/-- The child branch of `execute_pipeline` (lines 399-428) for stage `i`, after
the descriptors are set up; `execvp_ok` tells whether `execvp` succeeds on an
argument vector. -/
def pipeline_child (sh : SHELL) (commands : Slots) (i : Nat)
    (execvp_ok : List (Option String) → Bool) : ChildOutcome :=
  let parsed := parse_single_command sh.getenv sh.local_vars ((commands i).getD "")
  let sh := { sh with out := sh.out ++ parsed.out }
  if execvp_ok parsed.argv then ChildOutcome.replaced parsed.argv
  else ChildOutcome.returned (printf sh "execvp: No such file or directory\n")

/-- The child branch of `execute_single_command` (lines 595-602), on the
argument vector parsed before the `fork`. -/
def single_command_child (sh : SHELL) (cmd : String)
    (execvp_ok : List (Option String) → Bool) : ChildOutcome :=
  let parsed := parse_single_command sh.getenv sh.local_vars cmd
  let sh := { sh with out := sh.out ++ parsed.out }
  if execvp_ok parsed.argv then ChildOutcome.replaced parsed.argv
  else ChildOutcome.terminated 1 (sh.out ++ ["execvp: No such file or directory\n"])

/-- A line of 256 one-letter tokens, each followed by a space, for the
examples. -/
def line_of_256_tokens : String :=
  String.mk (List.flatten (List.replicate 256 ['a', ' ']))

/-- The history `new` is a cut of the history `old`: its entries are the first
`k` entries of `old` for some `k` (nothing was recorded), and it is within its
capacity. -/
def is_cut_of (new old : HISTORY) : Prop :=
  (∃ k, new.entries = old.entries.take k) ∧ new.size ≤ new.capacity

/-- A shell state for the examples: the batch loop has run `ls` and then
`ls | wc`, so the history holds these two lines (newest first). -/
def example_shell : SHELL :=
  batch_body 1 (batch_body 1 init_shell "ls\n") "ls | wc\n"

/-! ## Sequences of calls on the variable store -/

/-- One call on the variable store, as issued by the `local` built-in. -/
inductive LocalVarCall where
  | add (name value : String)
  | remove (name : String)

/-- Apply one call (the text printed by `add_local_var` is dropped). -/
def LocalVarCall.apply (local_vars : LOCALVARS) : LocalVarCall → LOCALVARS
  | .add name value => (add_local_var local_vars name value).1
  | .remove name => remove_local_var local_vars name

/-- Apply a sequence of calls, first to last. -/
def run_local_vars (local_vars : LOCALVARS) (calls : List LocalVarCall) : LOCALVARS :=
  calls.foldl LocalVarCall.apply local_vars

/-- A store for the examples that is at capacity: 1024 variables named `a`,
`aa`, `aaa`, ... with the value `v`. -/
def full_local_vars : LOCALVARS :=
  { var_name := fun i => some (String.mk (List.replicate (i + 1) 'a'))
    var_value := fun _ => some "v"
    num_vars := 1024 }

/-- A store for the examples that no sequence of calls from `init_local_vars`
produces: the name `x` is held twice. -/
def duplicate_local_vars : LOCALVARS :=
  { var_name := fun i => if i < 2 then some "x" else none
    var_value := fun i => if i = 0 then some "1" else if i = 1 then some "2" else none
    num_vars := 2 }

end Wsh

/-!
# MADCounter: the word store

A shallow embedding of the AVL tree of `src/p1/MyCode/MADCounter.c` (lines 9-16
and 339-523).  A `WORD *` is a tree: the nodes are heap cells reachable from one
parent only.  The C `int` fields are unbounded integers here (a count overflows
only after 2^31 words).  Strings are compared by `strcmp` character by
character.
-/

namespace MADCounter

/-- The struct `WORD` seen through a pointer: `null` is the NULL pointer. -/
inductive WORD where
  | null
  | node (contents : String) (numChars frequency initialPosition height : Int)
      (left right : WORD)
  deriving DecidableEq

/-- The C library function `strcmp` on the characters of two strings: negative,
zero or positive as the first string is less than, equal to or greater than the
second in the order of their first differing character (a proper prefix is
less). -/
def strcmp_chars : List Char → List Char → Int
  | [], [] => 0
  | [], _ :: _ => -1
  | _ :: _, [] => 1
  | a :: as, b :: bs =>
    if a.toNat < b.toNat then -1
    else if b.toNat < a.toNat then 1
    else strcmp_chars as bs

/-- The C library function `strcmp`. -/
def strcmp (s1 s2 : String) : Int := strcmp_chars s1.data s2.data

/-- Function `max`. -/
def max (a b : Int) : Int := if a > b then a else b

/-- Function `height`. -/
def height (N : WORD) : Int :=
  match N with
  | WORD.null => 0
  | WORD.node _ _ _ _ h _ _ => h

/-- Function `newNode`. -/
def newNode (word : String) (position : Int) : WORD :=
  WORD.node word word.length 1 position 1 WORD.null WORD.null

/-- Function `rightRotate`.  The C function dereferences `y` and `y->left`; on
other arguments, which `insert` never passes, the argument is returned. -/
def rightRotate (y : WORD) : WORD :=
  match y with
  | WORD.node yc yn yf yp _ (WORD.node xc xn xf xp _ xl T2) yr =>
    let y := WORD.node yc yn yf yp (max (height T2) (height yr) + 1) T2 yr
    WORD.node xc xn xf xp (max (height xl) (height y) + 1) xl y
  | _ => y

/-- Function `leftRotate`.  The C function dereferences `x` and `x->right`; on
other arguments, which `insert` never passes, the argument is returned. -/
def leftRotate (x : WORD) : WORD :=
  match x with
  | WORD.node xc xn xf xp _ xl (WORD.node yc yn yf yp _ T2 yr) =>
    let x := WORD.node xc xn xf xp (max (height xl) (height T2) + 1) xl T2
    WORD.node yc yn yf yp (max (height x) (height yr) + 1) x yr
  | _ => x

/-- Function `getBalance`. -/
def getBalance (N : WORD) : Int :=
  match N with
  | WORD.null => 0
  | WORD.node _ _ _ _ _ l r => height l - height r

/-- The field access `N->contents`; the empty string stands for the access
through NULL, which the guards `balance > 1` and `balance < -1` exclude. -/
def contents (N : WORD) : String :=
  match N with
  | WORD.null => ""
  | WORD.node c _ _ _ _ _ _ => c

/-- Steps 2 and 3 of `insert` (lines 422-452), run on the node after one of its
children was replaced by the result of the recursive call: the height is
updated and the four rotation cases are tried in the order of the code. -/
def rebalance (node : WORD) (word : String) : WORD :=
  match node with
  | WORD.null => WORD.null
  | WORD.node c n f p _ l r =>
    let node := WORD.node c n f p (1 + max (height l) (height r)) l r
    let balance := getBalance node
    if balance > 1 ∧ strcmp word (contents l) < 0 then rightRotate node
    else if balance < -1 ∧ strcmp word (contents r) > 0 then leftRotate node
    else if balance > 1 ∧ strcmp word (contents l) > 0 then
      rightRotate (WORD.node c n f p (1 + max (height l) (height r)) (leftRotate l) r)
    else if balance < -1 ∧ strcmp word (contents r) < 0 then
      leftRotate (WORD.node c n f p (1 + max (height l) (height r)) l (rightRotate r))
    else node

/-- Function `insert`: the new root of the subtree and the new value of
`*uniqueWords`. -/
def insert (node : WORD) (word : String) (position : Int) (uniqueWords : Int) :
    WORD × Int :=
  match node with
  | WORD.null => (newNode word position, uniqueWords + 1)
  | WORD.node c n f p h l r =>
    if strcmp word c < 0 then
      let result := insert l word position uniqueWords
      (rebalance (WORD.node c n f p h result.1 r) word, result.2)
    else if strcmp word c > 0 then
      let result := insert r word position uniqueWords
      (rebalance (WORD.node c n f p h l result.1) word, result.2)
    else (WORD.node c n (f + 1) p h l r, uniqueWords)

/-- Function `inOrder`: the arguments `(contents, frequency, initialPosition)`
of the successive `printf` calls. -/
def inOrder (root : WORD) : List (String × Int × Int) :=
  match root with
  | WORD.null => []
  | WORD.node c _ f p _ l r => inOrder l ++ (c, f, p) :: inOrder r

/-- The state of the loop of `trackWords`: `root`, `position`, `uniqueWords`. -/
structure TRACK where
  root : WORD
  position : Int
  uniqueWords : Int

/-- The body of the `while` loop of `trackWords` (lines 505-508) for one word
read by `fscanf`. -/
def track_word (state : TRACK) (word : String) : TRACK :=
  let result := insert state.root word state.position state.uniqueWords
  { root := result.1, position := state.position + 1, uniqueWords := result.2 }

/-- The loop of `trackWords` over the words of the input, from the empty tree
with both counters 0. -/
def trackWords (words : List String) : TRACK :=
  words.foldl track_word { root := WORD.null, position := 0, uniqueWords := 0 }

/-- The words of a tree in in-order. -/
def words_of (root : WORD) : List String := (inOrder root).map (fun e => e.1)

/-- Strictly ascending under `strcmp`: every element compares less than every
later one. -/
def ascending (words : List String) : Prop :=
  words.Pairwise (fun a b => strcmp a b < 0)

/-- Every node's height field is 1 + the larger of its children's heights (0 for
the empty tree) and every balance factor is -1, 0 or 1. -/
def is_avl : WORD → Bool
  | WORD.null => true
  | WORD.node _ _ _ _ h l r =>
    is_avl l && is_avl r && decide (h = 1 + Max.max (height l) (height r)) &&
      decide (-1 ≤ height l - height r) && decide (height l - height r ≤ 1)

/-- Insertion of a word at a position into a listing sorted by word: a word
already listed has its frequency incremented, a new one is put at its place
with frequency 1. -/
def upsert (listing : List (String × Int × Int)) (word : String) (position : Int) :
    List (String × Int × Int) :=
  match listing with
  | [] => [(word, 1, position)]
  | (c, f, p) :: rest =>
    if strcmp word c < 0 then (word, 1, position) :: (c, f, p) :: rest
    else if strcmp word c > 0 then (c, f, p) :: upsert rest word position
    else (c, f + 1, p) :: rest

/-- The subtree grew on the side the word went to: a new leaf, or a node whose
left child is one higher than the right and the word is less than the node's,
or the mirror image. -/
def grew (t : WORD) (word : String) : Prop :=
  match t with
  | WORD.null => False
  | WORD.node c _ _ _ _ l r =>
    (l = WORD.null ∧ r = WORD.null) ∨
    (strcmp word c < 0 ∧ height l = height r + 1) ∨
    (strcmp word c > 0 ∧ height r = height l + 1)

end MADCounter

namespace Wsh

/-! ## Facts about pointer arrays -/

theorem view_length (a : Slots) (n : Nat) : (view a n).length = n := by
  simp [view]

theorem view_succ (a : Slots) (n : Nat) : view a (n + 1) = view a n ++ [a n] := by
  simp [view, List.range_succ]

theorem view_congr {a b : Slots} {n : Nat} (h : ∀ i, i < n → a i = b i) :
    view a n = view b n := by
  unfold view
  apply List.map_congr_left
  intro i hi
  exact h i (List.mem_range.mp hi)

theorem view_shift (a : Slots) (n : Nat) :
    view a (n + 1) = a 0 :: view (fun j => a (j + 1)) n := by
  induction n with
  | zero => simp [view, List.range_succ]
  | succ k ih => rw [view_succ, ih, view_succ]; simp

theorem view_take (a : Slots) (n k : Nat) : (view a n).take k = view a (min k n) := by
  induction n with
  | zero => simp [view]
  | succ m ih =>
    rw [view_succ]
    by_cases hk : k ≤ m
    · rw [List.take_append_of_le_length (by simpa [view_length] using hk), ih]
      congr 1
      omega
    · have h1 : min k (m + 1) = m + 1 := by omega
      rw [h1, List.take_of_length_le (by simp [view_length]; omega), view_succ]

theorem view_write_memmove (a : Slots) (v : Option String) (n : Nat) :
    view (write (memmove a 1 0 n) 0 v) (n + 1) = v :: view a n := by
  rw [view_shift]
  simp only [write, if_true]
  congr 1
  apply view_congr
  intro i hi
  simp [memmove]
  omega

/-! ## Facts about the history -/

theorem add_history_disabled (h : HISTORY) (cmd : String) (hc : h.capacity = 0) :
    add_history h cmd = h := by
  simp [add_history, hc]

theorem add_history_full (h : HISTORY) (cmd : String) (hc : h.capacity ≠ 0)
    (hfull : h.capacity ≤ h.size) :
    add_history h cmd =
      { commands := write (memmove h.commands 1 0 (h.size - 1)) 0 (some cmd)
        capacity := h.capacity
        size := h.size } := by
  simp [add_history, hc, hfull]

theorem add_history_room (h : HISTORY) (cmd : String) (hc : h.capacity ≠ 0)
    (hroom : h.size < h.capacity) :
    add_history h cmd =
      { commands := write (memmove h.commands 1 0 h.size) 0 (some cmd)
        capacity := h.capacity
        size := h.size + 1 } := by
  have : ¬ h.capacity ≤ h.size := by omega
  simp [add_history, hc, this]

theorem add_history_capacity (h : HISTORY) (cmd : String) :
    (add_history h cmd).capacity = h.capacity := by
  unfold add_history
  split <;> rfl

theorem add_history_entries (h : HISTORY) (cmd : String) (hc : h.capacity ≠ 0)
    (hs : h.size ≤ h.capacity) :
    (add_history h cmd).entries = (some cmd :: h.entries).take h.capacity := by
  unfold HISTORY.entries
  by_cases hfull : h.capacity ≤ h.size
  · rw [add_history_full h cmd hc hfull]
    obtain ⟨c, hc'⟩ : ∃ c, h.size = c + 1 := ⟨h.size - 1, by omega⟩
    have hcap : h.capacity = c + 1 := by omega
    simp only [hc', hcap, Nat.add_sub_cancel]
    rw [view_write_memmove, List.take_succ_cons, view_take]
    have : min c (c + 1) = c := by omega
    rw [this]
  · rw [add_history_room h cmd hc (by omega)]
    simp only
    rw [view_write_memmove, List.take_of_length_le (by simp [view_length]; omega)]

theorem add_history_size (h : HISTORY) (cmd : String) (hc : h.capacity ≠ 0) :
    (add_history h cmd).size = if h.capacity ≤ h.size then h.size else h.size + 1 := by
  by_cases hfull : h.capacity ≤ h.size
  · rw [add_history_full h cmd hc hfull]; simp [hfull]
  · rw [add_history_room h cmd hc (by omega)]; simp [hfull]

theorem add_history_size_le (h : HISTORY) (cmd : String) (hs : h.size ≤ h.capacity) :
    (add_history h cmd).size ≤ (add_history h cmd).capacity := by
  by_cases hc : h.capacity = 0
  · rw [add_history_disabled h cmd hc]; exact hs
  · rw [add_history_capacity, add_history_size h cmd hc]
    split <;> omega

theorem resize_history_size_le (h : HISTORY) (k : Nat) :
    (resize_history h k).size ≤ (resize_history h k).capacity := by
  simp only [resize_history]
  split <;> omega

theorem resize_history_entries (h : HISTORY) (k : Nat) (hs : h.size ≤ h.capacity) :
    (resize_history h k).entries = h.entries.take k := by
  unfold HISTORY.entries
  rw [view_take]
  simp only [resize_history]
  have hmin : (if h.size > k then k else h.size) = min k h.size := by
    split <;> omega
  rw [hmin]
  apply view_congr
  intro i hi
  have : i < min h.capacity k := by omega
  simp [realloc, this]

theorem take_append_take {α : Type} (A B : List α) (c : Nat) :
    (A ++ B.take c).take c = (A ++ B).take c := by
  rw [List.take_append_eq_append_take, List.take_append_eq_append_take, List.take_take]
  congr 2
  omega

theorem foldl_add_history_capacity (lines : List String) (h : HISTORY) :
    (lines.foldl add_history h).capacity = h.capacity := by
  induction lines generalizing h with
  | nil => rfl
  | cons l ls ih => rw [List.foldl_cons, ih, add_history_capacity]

theorem foldl_add_history_size_le (lines : List String) (h : HISTORY)
    (hs : h.size ≤ h.capacity) :
    (lines.foldl add_history h).size ≤ h.capacity := by
  induction lines generalizing h with
  | nil => exact hs
  | cons l ls ih =>
    rw [List.foldl_cons]
    have := ih (add_history h l) (add_history_size_le h l hs)
    rwa [add_history_capacity] at this

theorem foldl_add_history_entries (lines : List String) (h : HISTORY)
    (hc : h.capacity ≠ 0) (hs : h.size ≤ h.capacity) :
    (lines.foldl add_history h).entries =
      (lines.reverse.map some ++ h.entries).take h.capacity := by
  induction lines generalizing h with
  | nil =>
    simp only [List.foldl_nil, List.reverse_nil, List.map_nil, List.nil_append]
    rw [List.take_of_length_le]
    simpa [HISTORY.entries, view_length] using hs
  | cons l ls ih =>
    rw [List.foldl_cons, ih (add_history h l) (by rwa [add_history_capacity])
      (add_history_size_le h l hs), add_history_capacity, add_history_entries h l hc hs,
      take_append_take]
    simp

theorem foldl_add_history_disabled (lines : List String) (h : HISTORY)
    (hc : h.capacity = 0) : lines.foldl add_history h = h := by
  induction lines with
  | nil => rfl
  | cons l ls ih => rw [List.foldl_cons, add_history_disabled h l hc, ih]

theorem display_history_eq (h : HISTORY) :
    display_history h = List.zip (List.range' 1 h.size) h.entries := by
  unfold display_history HISTORY.entries view
  apply List.ext_getElem
  · simp
  · intro i h1 h2
    simp [List.getElem_range']
    omega

/-! ## Claims about the history -/

theorem run_history_size_le (calls : List HistoryCall) (h : HISTORY)
    (hs : h.size ≤ h.capacity) :
    (run_history h calls).size ≤ (run_history h calls).capacity := by
  unfold run_history
  induction calls generalizing h with
  | nil => exact hs
  | cons c cs ih =>
    rw [List.foldl_cons]
    apply ih
    cases c with
    | add cmd => exact add_history_size_le h cmd hs
    | resize k => exact resize_history_size_le h k

/-- C1: starting from `init_history` (size 0, capacity 5), after every finite
sequence of `add_history` and `resize_history` calls (new capacities are
non-negative), `0 ≤ size ≤ capacity` holds. -/
theorem history_size_le_capacity (calls : List HistoryCall) :
    init_history.size = 0 ∧ init_history.capacity = 5 ∧
    0 ≤ (run_history init_history calls).size ∧
    (run_history init_history calls).size ≤ (run_history init_history calls).capacity :=
  ⟨rfl, rfl, Nat.zero_le _, run_history_size_le calls init_history (by decide)⟩

theorem get_history_one_after_add_aux (h : HISTORY) (cmd : String) (hc0 : h.capacity ≠ 0) :
    get_history (add_history h cmd) 1 = ([], some cmd) := by
  have hsz : 1 ≤ (add_history h cmd).size := by
    rw [add_history_size h cmd hc0]
    split <;> omega
  have hcmd : (add_history h cmd).commands 0 = some cmd := by
    simp [add_history, hc0, write]
  have hidx : ¬ ((1 : Int) < 1 ∨ (1 : Int) > ((add_history h cmd).size : Int)) := by
    omega
  simp only [get_history, hidx, if_false]
  simpa using hcmd

/-- C2: for every history with capacity at least 1 and `size ≤ capacity`, and
every line, `get_history(1)` after `add_history(line)` stores exactly that line
in `*cmd` and reports no error. -/
theorem get_history_one_after_add (h : HISTORY) (cmd : String)
    (hc : 1 ≤ h.capacity) (_hs : h.size ≤ h.capacity) :
    get_history (add_history h cmd) 1 = ([], some cmd) :=
  get_history_one_after_add_aux h cmd (by omega)

theorem get_history_one_after_add_witness :
    1 ≤ init_history.capacity ∧ init_history.size ≤ init_history.capacity ∧
    get_history (add_history init_history "ls -l\n") 1 = ([], some "ls -l\n") :=
  ⟨by decide, by decide,
    get_history_one_after_add init_history "ls -l\n" (by decide) (by decide)⟩

theorem foldl_add_history_from_empty (h : HISTORY) (c : Nat) (lines : List String)
    (hc : 1 ≤ c) (hcap : h.capacity = c) (hsize : h.size = 0) :
    (lines.foldl add_history h).entries = (lines.reverse.take c).map some ∧
    (lines.foldl add_history h).size = min lines.length c := by
  have hent : (lines.foldl add_history h).entries = (lines.reverse.take c).map some := by
    rw [foldl_add_history_entries lines h (by omega) (by omega), hcap]
    have : h.entries = [] := by simp [HISTORY.entries, view, hsize]
    rw [this, List.append_nil, List.map_take]
  refine ⟨hent, ?_⟩
  have := congrArg List.length hent
  rw [Nat.min_comm]
  simpa [HISTORY.entries, view_length] using this

/-- C3: for every capacity `c ≥ 1` and every list of lines recorded in order
with `add_history` into an empty history of capacity `c`, the history then holds
exactly the last `min n c` lines, newest first, each once; size is `min n c`
and the capacity is still `c`. -/
theorem add_history_keeps_last (h : HISTORY) (c : Nat) (lines : List String)
    (hc : 1 ≤ c) (hcap : h.capacity = c) (hsize : h.size = 0) :
    (lines.foldl add_history h).entries = (lines.reverse.take c).map some ∧
    (lines.foldl add_history h).size = min lines.length c ∧
    (lines.foldl add_history h).capacity = c :=
  ⟨(foldl_add_history_from_empty h c lines hc hcap hsize).1,
    (foldl_add_history_from_empty h c lines hc hcap hsize).2,
    by rw [foldl_add_history_capacity, hcap]⟩

theorem add_history_keeps_last_witness :
    1 ≤ 5 ∧ init_history.capacity = 5 ∧ init_history.size = 0 ∧
    (["c1\n", "c2\n", "c3\n", "c4\n", "c5\n", "c6\n", "c7\n"].foldl add_history
        init_history).entries
      = [some "c7\n", some "c6\n", some "c5\n", some "c4\n", some "c3\n"] :=
  ⟨by decide, rfl, rfl,
    (add_history_keeps_last init_history 5
      ["c1\n", "c2\n", "c3\n", "c4\n", "c5\n", "c6\n", "c7\n"] (by decide) rfl rfl).1⟩

/-- C4, as stated, fails: with capacity 5 and seven commands recorded,
`display_history` prints the most recently run command with index 1 and the
oldest retained one with index 5, so index 5 is not the most recently run
command and index 1 is not the oldest retained one. -/
theorem display_history_not_oldest_first :
    display_history
        (["c1\n", "c2\n", "c3\n", "c4\n", "c5\n", "c6\n", "c7\n"].foldl add_history
          init_history)
      = [(1, some "c7\n"), (2, some "c6\n"), (3, some "c5\n"), (4, some "c4\n"),
          (5, some "c3\n")] ∧
    (5, some "c7\n") ∉ display_history
        (["c1\n", "c2\n", "c3\n", "c4\n", "c5\n", "c6\n", "c7\n"].foldl add_history
          init_history) ∧
    (1, some "c3\n") ∉ display_history
        (["c1\n", "c2\n", "c3\n", "c4\n", "c5\n", "c6\n", "c7\n"].foldl add_history
          init_history) := by
  refine ⟨by decide, by decide, by decide⟩

theorem display_history_at (h : HISTORY) (i : Nat) (hi : i < h.size) :
    (display_history h)[i]? = some (i + 1, h.commands i) := by
  simp [display_history, List.getElem?_range hi]

theorem entries_at (h : HISTORY) (i : Nat) (hi : i < h.size) :
    h.entries[i]? = some (h.commands i) := by
  simp [HISTORY.entries, view, List.getElem?_range hi]

theorem recorded_slot (h : HISTORY) (c : Nat) (lines : List String)
    (hc : 1 ≤ c) (hcap : h.capacity = c) (hsize : h.size = 0) (i : Nat)
    (hi : i < (lines.foldl add_history h).size) :
    (lines.foldl add_history h).commands i = lines[lines.length - 1 - i]? := by
  obtain ⟨hent, hsz⟩ := foldl_add_history_from_empty h c lines hc hcap hsize
  have h1 := entries_at _ i hi
  rw [hent, List.getElem?_map, List.getElem?_take_of_lt (by omega),
    List.getElem?_reverse (by omega)] at h1
  have hlt : lines.length - 1 - i < lines.length := by omega
  rw [List.getElem?_eq_getElem hlt] at h1 ⊢
  simpa using h1.symm

/-- C4, amended: `display_history` lists the retained entries newest-to-oldest
with 1-based indices.  After recording a non-empty list of lines into an empty
history of capacity `c ≥ 1`, the listing pairs the indices `1 .. size` with the
retained lines from the most recent backwards: the line printed with index 1 is
the most recently recorded one and the line printed with index `size` is the
oldest retained one. -/
theorem display_history_newest_first (h : HISTORY) (c : Nat) (lines : List String)
    (hc : 1 ≤ c) (hcap : h.capacity = c) (hsize : h.size = 0) (hne : lines ≠ []) :
    display_history (lines.foldl add_history h)
      = List.zip (List.range' 1 (min lines.length c)) ((lines.reverse.take c).map some) ∧
    (display_history (lines.foldl add_history h))[0]? = some (1, lines.getLast?) ∧
    (display_history (lines.foldl add_history h))[min lines.length c - 1]?
      = some (min lines.length c, lines[lines.length - min lines.length c]?) := by
  obtain ⟨hent, hsz⟩ := foldl_add_history_from_empty h c lines hc hcap hsize
  have hlen : 1 ≤ lines.length := by
    cases lines with
    | nil => exact absurd rfl hne
    | cons a l => simp
  have hpos : 0 < (lines.foldl add_history h).size := by omega
  have hlast : min lines.length c - 1 < (lines.foldl add_history h).size := by omega
  refine ⟨by rw [display_history_eq, hent, hsz], ?_, ?_⟩
  · rw [display_history_at _ 0 hpos, recorded_slot h c lines hc hcap hsize 0 hpos,
      List.getLast?_eq_getElem?]
    simp
  · rw [display_history_at _ _ hlast, recorded_slot h c lines hc hcap hsize _ hlast]
    have e1 : min lines.length c - 1 + 1 = min lines.length c := by omega
    have e2 : lines.length - 1 - (min lines.length c - 1)
        = lines.length - min lines.length c := by omega
    rw [e1, e2]

theorem display_history_newest_first_witness :
    1 ≤ 5 ∧ init_history.capacity = 5 ∧ init_history.size = 0 ∧
    (display_history (["c1\n", "c2\n", "c3\n", "c4\n", "c5\n", "c6\n", "c7\n"].foldl
        add_history init_history))[0]? = some (1, some "c7\n") ∧
    (display_history (["c1\n", "c2\n", "c3\n", "c4\n", "c5\n", "c6\n", "c7\n"].foldl
        add_history init_history))[4]? = some (5, some "c3\n") :=
  ⟨by decide, rfl, rfl,
    (display_history_newest_first init_history 5
      ["c1\n", "c2\n", "c3\n", "c4\n", "c5\n", "c6\n", "c7\n"] (by decide) rfl rfl
      (by decide)).2.1,
    (display_history_newest_first init_history 5
      ["c1\n", "c2\n", "c3\n", "c4\n", "c5\n", "c6\n", "c7\n"] (by decide) rfl rfl
      (by decide)).2.2⟩

/-- C5: for every history with `size ≤ capacity` and every `k ≥ 0`,
`resize_history(k)` yields capacity `k`, size `min size k`, and entries equal to
the first `k` of the old newest-first entries (the `min size k` most recent, in
unchanged order); for `k < size` exactly `k` entries are retained and for
`k ≥ size` the entries are unchanged. -/
theorem resize_history_spec (h : HISTORY) (k : Nat) (hs : h.size ≤ h.capacity) :
    (resize_history h k).capacity = k ∧
    (resize_history h k).size = min h.size k ∧
    (resize_history h k).entries = h.entries.take (min h.size k) ∧
    (k < h.size → (resize_history h k).entries = h.entries.take k ∧
      (resize_history h k).entries.length = k) ∧
    (h.size ≤ k → (resize_history h k).entries = h.entries) := by
  have hent := resize_history_entries h k hs
  have hlen : h.entries.length = h.size := by simp [HISTORY.entries, view_length]
  have hsz : (resize_history h k).size = min h.size k := by
    simp only [resize_history]
    split <;> omega
  refine ⟨rfl, hsz, ?_, ?_, ?_⟩
  · rw [hent]
    by_cases hk : k < h.size
    · rw [Nat.min_eq_right (by omega)]
    · rw [Nat.min_eq_left (by omega), List.take_of_length_le (by omega),
        List.take_of_length_le (by omega)]
  · intro hk
    refine ⟨hent, ?_⟩
    rw [hent, List.length_take, hlen]
    omega
  · intro hk
    rw [hent, List.take_of_length_le (by omega)]

theorem resize_history_spec_witness :
    (["a\n", "b\n", "c\n"].foldl add_history init_history).size
      ≤ (["a\n", "b\n", "c\n"].foldl add_history init_history).capacity ∧
    (resize_history (["a\n", "b\n", "c\n"].foldl add_history init_history) 2).entries
      = (["a\n", "b\n", "c\n"].foldl add_history init_history).entries.take
          (min (["a\n", "b\n", "c\n"].foldl add_history init_history).size 2) ∧
    (["a\n", "b\n", "c\n"].foldl add_history init_history).entries.take 2
      = [some "c\n", some "b\n"] :=
  ⟨by decide,
    (resize_history_spec (["a\n", "b\n", "c\n"].foldl add_history init_history) 2
      (by decide)).2.2.1,
    by decide⟩

/-- C6: after `resize_history(0)` the history is empty; every later sequence of
`add_history` calls leaves that state as it is (size 0, capacity 0); after a
later `resize_history(k)` with `k ≥ 1`, `add_history(line)` gives size 1 and
`get_history(1)` yields `line`. -/
theorem resize_zero_disables_recording (h : HISTORY) (lines : List String) (k : Nat)
    (line : String) (hk : 1 ≤ k) :
    (resize_history h 0).size = 0 ∧
    (resize_history h 0).entries = [] ∧
    lines.foldl add_history (resize_history h 0) = resize_history h 0 ∧
    (lines.foldl add_history (resize_history h 0)).size = 0 ∧
    (lines.foldl add_history (resize_history h 0)).capacity = 0 ∧
    (add_history (resize_history (lines.foldl add_history (resize_history h 0)) k) line).size
      = 1 ∧
    get_history
        (add_history (resize_history (lines.foldl add_history (resize_history h 0)) k) line) 1
      = ([], some line) := by
  have h0 : (resize_history h 0).size = 0 := by
    simp only [resize_history]
    split <;> omega
  have hfold := foldl_add_history_disabled lines (resize_history h 0) rfl
  have hk0 : (resize_history (resize_history h 0) k).capacity ≠ 0 := by
    show k ≠ 0
    omega
  have hsz : (resize_history (resize_history h 0) k).size = 0 := by
    simp only [resize_history]
    split <;> split <;> omega
  refine ⟨h0, by simp [HISTORY.entries, view, h0], hfold, by rw [hfold, h0],
    by rw [hfold]; rfl, ?_, ?_⟩
  · rw [hfold, add_history_size _ _ hk0, hsz]
    have : ¬ (resize_history (resize_history h 0) k).capacity ≤ 0 := by omega
    simp [this]
  · rw [hfold]
    exact get_history_one_after_add_aux _ line hk0

theorem resize_zero_disables_recording_witness :
    1 ≤ 3 ∧
    get_history
        (add_history (resize_history (["x\n", "y\n"].foldl add_history
          (resize_history (["a\n", "b\n"].foldl add_history init_history) 0)) 3) "z\n") 1
      = ([], some "z\n") :=
  ⟨by decide,
    (resize_zero_disables_recording (["a\n", "b\n"].foldl add_history init_history)
      ["x\n", "y\n"] 3 "z\n" (by decide)).2.2.2.2.2.2⟩

/-! ## Facts about the variable store -/

theorem view_getElem (a : Slots) (n i : Nat) (h : i < (view a n).length) :
    (view a n)[i] = a i := by
  simp [view]

theorem view_nodup_inj {a : Slots} {n i j : Nat} (hd : (view a n).Nodup)
    (hi : i < n) (hj : j < n) (h : a i = a j) : i = j := by
  have hi' : i < (view a n).length := by rwa [view_length]
  have hj' : j < (view a n).length := by rwa [view_length]
  exact (@List.Nodup.getElem_inj_iff _ _ hd i hi' j hj').1
    (by rw [view_getElem, view_getElem]; exact h)

theorem find_var_from_some {a : Slots} {name : String} {n i j : Nat}
    (h : find_var_from a name i n = some j) :
    i ≤ j ∧ j < i + n ∧ a j = some name ∧ ∀ k, i ≤ k → k < j → a k ≠ some name := by
  induction n generalizing i with
  | zero => simp [find_var_from] at h
  | succ m ih =>
    unfold find_var_from at h
    by_cases hm : a i = some name
    · rw [if_pos hm] at h
      cases h
      exact ⟨le_refl _, by omega, hm, fun k h1 h2 => by omega⟩
    · rw [if_neg hm] at h
      obtain ⟨h1, h2, h3, h4⟩ := ih h
      refine ⟨by omega, by omega, h3, fun k hk1 hk2 => ?_⟩
      by_cases hki : k = i
      · rw [hki]; exact hm
      · exact h4 k (by omega) hk2

theorem find_var_from_none {a : Slots} {name : String} {n i : Nat}
    (h : find_var_from a name i n = none) :
    ∀ k, i ≤ k → k < i + n → a k ≠ some name := by
  induction n generalizing i with
  | zero => intro k h1 h2; omega
  | succ m ih =>
    unfold find_var_from at h
    by_cases hm : a i = some name
    · rw [if_pos hm] at h; cases h
    · rw [if_neg hm] at h
      intro k hk1 hk2
      by_cases hki : k = i
      · rw [hki]; exact hm
      · exact ih h k (by omega) (by omega)

theorem find_var_from_first {a : Slots} {name : String} {n i j : Nat}
    (hij : i ≤ j) (hjn : j < i + n) (hj : a j = some name)
    (hbefore : ∀ k, i ≤ k → k < j → a k ≠ some name) :
    find_var_from a name i n = some j := by
  cases hres : find_var_from a name i n with
  | none => exact absurd hj (find_var_from_none hres j hij hjn)
  | some j' =>
    obtain ⟨h1, h2, h3, h4⟩ := find_var_from_some hres
    have : j' = j := by
      rcases Nat.lt_trichotomy j' j with hlt | heq | hgt
      · exact absurd h3 (hbefore j' h1 hlt)
      · exact heq
      · exact absurd hj (h4 j hij hgt)
    rw [this]

theorem find_var_unbound {lv : LOCALVARS} {name : String}
    (h : ∀ i, i < lv.num_vars → lv.var_name i ≠ some name) : find_var lv name = none := by
  cases hres : find_var lv name with
  | none => rfl
  | some j =>
    obtain ⟨-, h2, h3, -⟩ := find_var_from_some hres
    exact absurd h3 (h j (by omega))

theorem find_var_bound {lv : LOCALVARS} {name : String} {i : Nat}
    (hd : (view lv.var_name lv.num_vars).Nodup) (hi : i < lv.num_vars)
    (hname : lv.var_name i = some name) : find_var lv name = some i := by
  apply find_var_from_first (Nat.zero_le _) (by omega) hname
  intro k _ hk hkn
  have := view_nodup_inj hd (by omega : k < lv.num_vars) hi (hkn.trans hname.symm)
  omega

/-! ## Claims about the variable store -/

/-- C10: `add_local_var` is an upsert.  For every store with pairwise distinct
names: if `name` is bound at position `i`, the store keeps its length and its
names, the value at `i` becomes the new value and all other values are
unchanged; if `name` is not bound and the store holds fewer than 1024 entries,
the pair is appended at the end and all earlier entries are unchanged.  In both
cases nothing is printed and `get_local_var(name)` returns the new value. -/
theorem add_local_var_upsert (lv : LOCALVARS) (name value : String)
    (hd : (view lv.var_name lv.num_vars).Nodup) :
    (∀ i, i < lv.num_vars → lv.var_name i = some name →
      (add_local_var lv name value).2 = [] ∧
      (add_local_var lv name value).1.num_vars = lv.num_vars ∧
      (add_local_var lv name value).1.var_name = lv.var_name ∧
      (add_local_var lv name value).1.var_value i = some value ∧
      (∀ j, j ≠ i → (add_local_var lv name value).1.var_value j = lv.var_value j) ∧
      get_local_var (add_local_var lv name value).1 name = some value) ∧
    ((∀ i, i < lv.num_vars → lv.var_name i ≠ some name) → lv.num_vars < 1024 →
      (add_local_var lv name value).2 = [] ∧
      (add_local_var lv name value).1.num_vars = lv.num_vars + 1 ∧
      (add_local_var lv name value).1.var_name lv.num_vars = some name ∧
      (add_local_var lv name value).1.var_value lv.num_vars = some value ∧
      (∀ j, j ≠ lv.num_vars →
        (add_local_var lv name value).1.var_name j = lv.var_name j ∧
        (add_local_var lv name value).1.var_value j = lv.var_value j) ∧
      get_local_var (add_local_var lv name value).1 name = some value) := by
  constructor
  · intro i hi hname
    have hfind := find_var_bound hd hi hname
    have hadd : add_local_var lv name value
        = ({ lv with var_value := write lv.var_value i (some value) }, []) := by
      simp [add_local_var, hfind]
    have hfind' : find_var { lv with var_value := write lv.var_value i (some value) } name
        = some i := hfind
    rw [hadd]
    refine ⟨rfl, rfl, rfl, by simp [write], fun j hj => by simp [write, hj], ?_⟩
    simp [get_local_var, hfind', write]
  · intro hun hlt
    have hfind := find_var_unbound hun
    have hge : ¬ lv.num_vars ≥ MAX_LOCAL_VARIABLES := by
      simp only [MAX_LOCAL_VARIABLES]; omega
    have hadd : add_local_var lv name value
        = ({ var_name := write lv.var_name lv.num_vars (some name)
             var_value := write lv.var_value lv.num_vars (some value)
             num_vars := lv.num_vars + 1 }, []) := by
      simp only [add_local_var, hfind, hge, if_false]
    have hfind' : find_var { var_name := write lv.var_name lv.num_vars (some name)
                             var_value := write lv.var_value lv.num_vars (some value)
                             num_vars := lv.num_vars + 1 } name = some lv.num_vars := by
      apply find_var_from_first (Nat.zero_le _) (by simp) (by simp [write])
      intro k _ hk
      have hk' : k < lv.num_vars := hk
      have hne : k ≠ lv.num_vars := by omega
      simpa [write, hne] using hun k hk'
    rw [hadd]
    refine ⟨rfl, rfl, by simp [write], by simp [write],
      fun j hj => by simp [write, hj], ?_⟩
    simp [get_local_var, hfind', write]

theorem add_local_var_upsert_witness :
    (view (add_local_var init_local_vars "X" "1").1.var_name
      (add_local_var init_local_vars "X" "1").1.num_vars).Nodup ∧
    get_local_var (add_local_var (add_local_var init_local_vars "X" "1").1 "X" "2").1 "X"
      = some "2" ∧
    get_local_var (add_local_var (add_local_var init_local_vars "X" "1").1 "Y" "3").1 "Y"
      = some "3" :=
  ⟨by decide,
    ((add_local_var_upsert (add_local_var init_local_vars "X" "1").1 "X" "2"
      (by decide)).1 0 (by decide) (by decide)).2.2.2.2.2,
    ((add_local_var_upsert (add_local_var init_local_vars "X" "1").1 "Y" "3"
      (by decide)).2 (by decide) (by decide)).2.2.2.2.2⟩

/-! ## Facts about the tokenizer -/

theorem splitOnP_span (s : List Char) (delim : List Char) :
    s.splitOnP (fun ch => decide (ch ∈ delim)) =
      match s.span (fun ch => decide (ch ∉ delim)) with
      | (token, []) => [token]
      | (token, _ :: rest) => token :: rest.splitOnP (fun ch => decide (ch ∈ delim)) := by
  rw [List.span_eq_take_drop]
  have hsplit := List.takeWhile_append_dropWhile (fun ch => decide (ch ∉ delim)) s
  have htake : ∀ x ∈ s.takeWhile (fun ch => decide (ch ∉ delim)),
      ¬ (fun ch => decide (ch ∈ delim)) x = true := by
    intro x hx
    have := List.mem_takeWhile_imp hx
    simpa using this
  cases hdrop : s.dropWhile (fun ch => decide (ch ∉ delim)) with
  | nil =>
    rw [hdrop, List.append_nil] at hsplit
    simp only
    rw [hsplit] at htake ⊢
    exact List.splitOnP_eq_single _ _ htake
  | cons d rest =>
    simp only
    have hd : (fun ch => decide (ch ∈ delim)) d = true := by
      have := List.head_dropWhile_not (fun ch => decide (ch ∉ delim)) s
        (by rw [hdrop]; simp)
      simp only [hdrop, List.head_cons] at this
      simpa using this
    rw [hdrop] at hsplit
    conv_lhs => rw [← hsplit]
    exact List.splitOnP_first _ _ htake d hd rest

theorem span_length (s : List Char) (q : Char → Bool) (token rest : List Char) (d : Char)
    (h : s.span q = (token, d :: rest)) : rest.length < s.length := by
  rw [List.span_eq_take_drop] at h
  have h1 := List.takeWhile_append_dropWhile q s
  have h2 := congrArg List.length h1
  simp only [Prod.mk.injEq] at h
  rw [h.1, h.2] at h2
  simp at h2
  omega

theorem token_loop_none (fuel : Nat) (a : Slots) (n : Nat) :
    token_loop fuel none a n = { args := a, num_args := n, out := [] } := by
  cases fuel <;> simp [token_loop, strsep]

theorem view_store_from (a : Slots) (n : Nat) (l : List String) :
    view (store_from a n l) (n + l.length) = view a n ++ l.map some := by
  induction l generalizing a n with
  | nil => simp [store_from]
  | cons t ts ih =>
    simp only [store_from, List.length_cons, List.map_cons]
    have e : n + (ts.length + 1) = (n + 1) + ts.length := by omega
    rw [e, ih, view_succ]
    simp only [write, if_true, List.append_assoc, List.singleton_append]
    congr 1
    apply view_congr
    intro i hi
    have : i ≠ n := by omega
    simp [write, this]

/-- The tokenizer loop stores the specified tokens: with enough fuel and fewer
than `MAX_ARGS` tokens in all, the loop ends normally with the non-empty runs
of the rest of the line stored after the `n` tokens already there. -/
theorem token_loop_spec (fuel : Nat) (s : List Char) (a : Slots) (n : Nat)
    (hfuel : s.length < fuel)
    (hlt : n + ((s.splitOnP (fun ch => decide (ch ∈ ARG_DELIMS))).filter
      (fun t => !t.isEmpty)).length < MAX_ARGS) :
    token_loop fuel (some s) a n =
      { args := store_from a n
          (((s.splitOnP (fun ch => decide (ch ∈ ARG_DELIMS))).filter
            (fun t => !t.isEmpty)).map String.mk)
        num_args := n + ((s.splitOnP (fun ch => decide (ch ∈ ARG_DELIMS))).filter
            (fun t => !t.isEmpty)).length
        out := [] } := by
  induction fuel generalizing s a n with
  | zero => omega
  | succ f ih =>
    have hsp := splitOnP_span s ARG_DELIMS
    unfold token_loop
    simp only [strsep]
    cases hspan : s.span (fun ch => decide (ch ∉ ARG_DELIMS)) with
    | mk token rest =>
      rw [hspan] at hsp
      cases rest with
      | nil =>
        rw [hsp] at hlt ⊢
        by_cases htok : token = []
        · subst htok
          have hn : ¬ n ≥ MAX_ARGS := by
            simp at hlt; omega
          simp [hn, token_loop_none, store_from]
        · have hpos : token.length > 0 := List.length_pos.mpr htok
          have hn : ¬ n + 1 ≥ MAX_ARGS := by
            simp [htok] at hlt; omega
          simp [htok, hpos, hn, token_loop_none, store_from]
      | cons d rest =>
        rw [hsp] at hlt ⊢
        have hlen := span_length s _ token rest d hspan
        by_cases htok : token = []
        · subst htok
          rw [List.filter_cons_of_neg (by simp)] at hlt ⊢
          have hn : ¬ n ≥ MAX_ARGS := by omega
          simp only [List.length_nil, gt_iff_lt, lt_self_iff_false, if_false, hn]
          exact ih rest a n (by omega) hlt
        · have hpos : token.length > 0 := List.length_pos.mpr htok
          rw [List.filter_cons_of_pos (by simpa using htok)] at hlt ⊢
          simp only [List.length_cons] at hlt ⊢
          have hn : ¬ n + 1 ≥ MAX_ARGS := by omega
          simp only [hpos, if_true, hn, if_false, List.map_cons, store_from]
          rw [ih rest _ (n + 1) (by omega) (by omega)]
          congr 1
          omega

/-! ## Facts about the substitution loop -/

theorem shift_left_apply (a : Slots) (j k x : Nat) :
    shift_left a j k x = if j ≤ x ∧ x < j + k then a (x + 1) else a x := by
  induction k generalizing a j with
  | zero =>
    have : ¬ (j ≤ x ∧ x < j) := by omega
    simp [shift_left, this]
  | succ m ih =>
    simp only [shift_left]
    rw [ih]
    by_cases h1 : j + 1 ≤ x ∧ x < j + 1 + m
    · have h2 : j ≤ x ∧ x < j + (m + 1) := by omega
      have h3 : x + 1 ≠ j := by omega
      simp [h1, h2, write, h3]
    · by_cases h4 : x = j
      · subst h4
        have h2 : x ≤ x ∧ x < x + (m + 1) := by omega
        simp [h1, h2, write]
      · have h2 : ¬ (j ≤ x ∧ x < j + (m + 1)) := by omega
        simp [h1, h2, write, h4]

theorem view_eq_iff (a : Slots) (n : Nat) (l : List (Option String)) :
    view a n = l ↔ l.length = n ∧ ∀ i, i < n → l[i]? = some (a i) := by
  constructor
  · intro h
    subst h
    refine ⟨view_length a n, fun i hi => ?_⟩
    simp [view, List.getElem?_range hi]
  · rintro ⟨hlen, h⟩
    apply List.ext_getElem?
    intro i
    by_cases hi : i < n
    · rw [h i hi]
      simp [view, List.getElem?_range hi]
    · rw [List.getElem?_eq_none (by rw [view_length]; omega),
        List.getElem?_eq_none (by omega)]

theorem view_write (a : Slots) (n i : Nat) (y : Option String) :
    view (write a i y) n = (view a n).set i y := by
  rw [view_eq_iff]
  refine ⟨by simp [view_length], fun k hk => ?_⟩
  rw [List.getElem?_set]
  have h1 := ((view_eq_iff a n (view a n)).1 rfl).2 k hk
  by_cases hik : i = k
  · subst hik
    simp [write, view_length, hk]
  · have : k ≠ i := fun h => hik h.symm
    simp [hik, write, this, h1]

theorem view_delete (a : Slots) (n i : Nat) (hi : i < n) :
    view (write (shift_left a i (n - 1 - i)) (n - 1) none) (n - 1)
      = (view a n).eraseIdx i := by
  rw [view_eq_iff]
  refine ⟨by rw [List.length_eraseIdx, view_length]; simp [hi], fun k hk => ?_⟩
  have hne : k ≠ n - 1 := by omega
  simp only [write, hne, if_false, shift_left_apply]
  rw [List.getElem?_eraseIdx]
  by_cases hki : k < i
  · have h1 := ((view_eq_iff a n (view a n)).1 rfl).2 k (by omega)
    have h2 : ¬ (i ≤ k ∧ k < i + (n - 1 - i)) := by omega
    simp [hki, h1, h2]
  · have h1 := ((view_eq_iff a n (view a n)).1 rfl).2 (k + 1) (by omega)
    have h2 : i ≤ k ∧ k < i + (n - 1 - i) := by omega
    simp [hki, h1, h2]

theorem view_at (a : Slots) (n : Nat) (pre post : List (Option String)) (x : Option String)
    (h : view a n = pre ++ x :: post) : a pre.length = x ∧ pre.length < n := by
  have hlen : (pre ++ x :: post).length = n := by rw [← h, view_length]
  have hlt : pre.length < n := by
    rw [← hlen]; simp
  have h1 := ((view_eq_iff a n (view a n)).1 rfl).2 pre.length hlt
  rw [h, List.getElem?_append_right (le_refl _)] at h1
  simp at h1
  exact ⟨h1.symm, hlt⟩

theorem starts_with_dollar_some (t : String) :
    starts_with_dollar (some t) = true ↔ t.data.head? = some '$' := by
  simp [starts_with_dollar]

/-- The substitution loop maps every remaining token once, in order: kept,
replaced by its value, or removed. -/
theorem subst_loop_spec (getenv : Getenv) (lv : LOCALVARS) (rest done : List String)
    (args : Slots) (num_args : Nat)
    (hview : view args num_args = (done ++ rest).map some) :
    view (subst_loop getenv lv rest.length args num_args done.length).1
        (subst_loop getenv lv rest.length args num_args done.length).2
      = (done ++ rest.filterMap (spec_substitute getenv lv)).map some := by
  induction rest generalizing done args num_args with
  | nil => simpa [subst_loop] using hview
  | cons t ts ih =>
    have hview' : view args num_args = done.map some ++ some t :: ts.map some := by
      rw [hview]; simp
    obtain ⟨hat, hlt⟩ := view_at args num_args _ _ _ hview'
    rw [List.length_map] at hat hlt
    simp only [List.length_cons, subst_loop, hlt, if_true, hat, Option.getD_some]
    by_cases hdollar : t.data.head? = some '$'
    · have hsd : starts_with_dollar (some t) = true := (starts_with_dollar_some t).2 hdollar
      simp only [hsd, if_true, skip_first]
      have hval : (if (getenv (String.mk t.data.tail)).isSome = true
            then getenv (String.mk t.data.tail)
            else get_local_var lv (String.mk t.data.tail))
          = spec_substitute getenv lv t := by
        simp only [spec_substitute, hdollar, if_true]
        cases getenv (String.mk t.data.tail) <;> simp
      rw [hval]
      cases hspec : spec_substitute getenv lv t with
      | none =>
        simp only
        have hdel : view (write (shift_left args done.length (num_args - 1 - done.length))
              (num_args - 1) none) (num_args - 1) = (done ++ ts).map some := by
          rw [view_delete args num_args done.length hlt, hview',
            List.eraseIdx_append_of_length_le (by simp)]
          simp
        have := ih done _ _ hdel
        rw [this, List.filterMap_cons, hspec]
      | some v =>
        simp only
        have hset : view (write args done.length (some v)) num_args
            = ((done ++ [v]) ++ ts).map some := by
          rw [view_write, hview']
          simp
        have := ih (done ++ [v]) _ _ hset
        rw [List.length_append, List.length_singleton] at this
        rw [this, List.filterMap_cons, hspec]
        simp
    · have hsd : starts_with_dollar (some t) = false := by
        cases hb : starts_with_dollar (some t) with
        | false => rfl
        | true => exact absurd ((starts_with_dollar_some t).1 hb) hdollar
      simp only [hsd, Bool.false_eq_true, if_false]
      have hkeep : view args num_args = ((done ++ [t]) ++ ts).map some := by
        rw [hview]; simp
      have := ih (done ++ [t]) _ _ hkeep
      rw [List.length_append, List.length_singleton] at this
      have hspec : spec_substitute getenv lv t = some t := by
        simp [spec_substitute, hdollar]
      rw [this, List.filterMap_cons, hspec]
      simp

/-! ## Claims about parsing -/

/-- The result of `parse_single_command` on a line with fewer than `MAX_ARGS`
tokens: every token of the line mapped once by the substitution rule. -/
theorem parse_single_command_eq (getenv : Getenv) (lv : LOCALVARS) (cmd : String)
    (hlen : (spec_tokens cmd).length < 256) :
    (parse_single_command getenv lv cmd).argv
      = ((spec_tokens cmd).filterMap (spec_substitute getenv lv)).map some ∧
    (parse_single_command getenv lv cmd).out = [] := by
  have hlen' : 0 + ((cmd.data.splitOnP (fun ch => decide (ch ∈ ARG_DELIMS))).filter
      (fun t => !t.isEmpty)).length < MAX_ARGS := by
    simpa [spec_tokens, MAX_ARGS] using hlen
  have htok := token_loop_spec (cmd.data.length + 1) cmd.data (fun _ => none) 0
    (by omega) hlen'
  have hnum : 0 + ((cmd.data.splitOnP (fun ch => decide (ch ∈ ARG_DELIMS))).filter
      (fun t => !t.isEmpty)).length = (spec_tokens cmd).length := by
    simp [spec_tokens]
  have hview : view (store_from (fun _ => none) 0 (spec_tokens cmd)) (spec_tokens cmd).length
      = (([] : List String) ++ spec_tokens cmd).map some := by
    have := view_store_from (fun _ => none) 0 (spec_tokens cmd)
    rw [Nat.zero_add] at this
    rw [this]
    simp [view]
  have hloop := subst_loop_spec getenv lv (spec_tokens cmd) [] _ _ hview
  simp only [parse_single_command, ARGS.argv, htok, hnum]
  exact ⟨by simpa [spec_tokens] using hloop, trivial⟩

theorem spec_substitute_dollar (getenv : Getenv) (lv : LOCALVARS) (n : String) :
    spec_substitute getenv lv ("$" ++ n)
      = match getenv n with
        | some v => some v
        | none => get_local_var lv n := by
  have hdata : ("$" ++ n).data = '$' :: n.data := rfl
  simp only [spec_substitute, hdata, List.head?_cons, if_true, List.tail_cons]

/-- The tokenizer loop on any line: it stores the first `MAX_ARGS - n` non-empty
runs of the rest of the line after the `n` tokens already there, and no
more. -/
theorem token_loop_take (fuel : Nat) (s : List Char) (a : Slots) (n : Nat)
    (hfuel : s.length < fuel) (hn : n < MAX_ARGS) :
    (token_loop fuel (some s) a n).args
      = store_from a n ((((s.splitOnP (fun ch => decide (ch ∈ ARG_DELIMS))).filter
          (fun t => !t.isEmpty)).map String.mk).take (MAX_ARGS - n)) ∧
    (token_loop fuel (some s) a n).num_args
      = n + ((((s.splitOnP (fun ch => decide (ch ∈ ARG_DELIMS))).filter
          (fun t => !t.isEmpty)).map String.mk).take (MAX_ARGS - n)).length := by
  induction fuel generalizing s a n with
  | zero => omega
  | succ f ih =>
    have hsp := splitOnP_span s ARG_DELIMS
    unfold token_loop
    simp only [strsep]
    cases hspan : s.span (fun ch => decide (ch ∉ ARG_DELIMS)) with
    | mk token rest =>
      rw [hspan] at hsp
      have hpos0 : MAX_ARGS - n = (MAX_ARGS - n - 1) + 1 := by omega
      cases rest with
      | nil =>
        rw [hsp]
        by_cases htok : token = []
        · subst htok
          have hn0 : ¬ n ≥ MAX_ARGS := by omega
          simp [hn0, token_loop_none, store_from]
        · have hpos : token.length > 0 := List.length_pos.mpr htok
          rw [List.filter_cons_of_pos (by simpa using htok), List.filter_nil, List.map_cons,
            List.map_nil, hpos0, List.take_succ_cons, List.take_nil]
          simp only [hpos, if_true]
          by_cases hn1 : n + 1 ≥ MAX_ARGS
          · rw [if_pos hn1]
            simp [store_from]
          · rw [if_neg hn1, token_loop_none]
            simp [store_from]
      | cons d rest =>
        rw [hsp]
        have hlen := span_length s _ token rest d hspan
        by_cases htok : token = []
        · subst htok
          rw [List.filter_cons_of_neg (by simp)]
          have hn0 : ¬ n ≥ MAX_ARGS := by omega
          simp only [List.length_nil, gt_iff_lt, lt_self_iff_false, if_false, hn0]
          exact ih rest a n (by omega) hn
        · have hpos : token.length > 0 := List.length_pos.mpr htok
          rw [List.filter_cons_of_pos (by simpa using htok), List.map_cons, hpos0,
            List.take_succ_cons]
          simp only [hpos, if_true, store_from, List.length_cons]
          by_cases hn1 : n + 1 ≥ MAX_ARGS
          · rw [if_pos hn1]
            have hz : MAX_ARGS - n - 1 = 0 := by omega
            rw [hz, List.take_zero]
            simp [store_from]
          · rw [if_neg hn1]
            have ih' := ih rest (write a n (some (String.mk token))) (n + 1) (by omega)
              (by omega)
            have e : MAX_ARGS - (n + 1) = MAX_ARGS - n - 1 := by omega
            rw [e] at ih'
            refine ⟨ih'.1, ?_⟩
            rw [ih'.2]
            omega

/-- The result of `parse_single_command` on any line: the substitution rule
applied to the first 256 tokens of the line. -/
theorem parse_single_command_take (getenv : Getenv) (lv : LOCALVARS) (cmd : String) :
    (parse_single_command getenv lv cmd).argv
      = (((spec_tokens cmd).take 256).filterMap (spec_substitute getenv lv)).map some := by
  have htok := token_loop_take (cmd.data.length + 1) cmd.data (fun _ => none) 0
    (by omega) (by decide)
  have hT : (((cmd.data.splitOnP (fun ch => decide (ch ∈ ARG_DELIMS))).filter
      (fun t => !t.isEmpty)).map String.mk).take (MAX_ARGS - 0)
      = (spec_tokens cmd).take 256 := rfl
  rw [hT, Nat.zero_add] at htok
  have hview : view (store_from (fun _ => none) 0 ((spec_tokens cmd).take 256))
      ((spec_tokens cmd).take 256).length
      = (([] : List String) ++ (spec_tokens cmd).take 256).map some := by
    have := view_store_from (fun _ => none) 0 ((spec_tokens cmd).take 256)
    rw [Nat.zero_add] at this
    rw [this]
    simp [view]
  have hloop := subst_loop_spec getenv lv ((spec_tokens cmd).take 256) [] _ _ hview
  simp only [parse_single_command, ARGS.argv, htok.1, htok.2]
  simpa using hloop

set_option maxRecDepth 100000 in
theorem spec_tokens_of_257_tokens :
    spec_tokens (line_of_256_tokens ++ "$FOO\n") = List.replicate 256 "a" ++ ["$FOO"] := by
  decide

set_option maxRecDepth 100000 in
theorem parse_line_of_257_tokens :
    (parse_single_command example_getenv example_local_vars
      (line_of_256_tokens ++ "$FOO\n")).argv = List.replicate 256 (some "a") := by
  decide

/-- C7, as stated, fails for a token after the 256th: on the line of 256 tokens
`a` followed by `$FOO`, with `FOO=env1` in the environment, the result of
`parse_single_command` is the 256 tokens `a`; the token `$FOO` has no output
token and the environment value is nowhere in the result. -/
theorem substitution_not_after_256_tokens :
    spec_tokens (line_of_256_tokens ++ "$FOO\n") = List.replicate 256 "a" ++ ["$FOO"] ∧
    example_getenv "FOO" = some "env1" ∧
    (parse_single_command example_getenv example_local_vars
      (line_of_256_tokens ++ "$FOO\n")).argv = List.replicate 256 (some "a") ∧
    some "env1" ∉ (parse_single_command example_getenv example_local_vars
      (line_of_256_tokens ++ "$FOO\n")).argv := by
  refine ⟨spec_tokens_of_257_tokens, by decide, parse_line_of_257_tokens, ?_⟩
  rw [parse_line_of_257_tokens]
  intro h
  exact absurd (List.eq_of_mem_replicate h) (by decide)

/-- C7 (amended): substitution precedence in `parse_single_command`.  For every
line and every token `$n` among its first 256 tokens (the tokens the parser
takes up): if the environment binds `n`, the output token at that place is the
environment value, whether or not the variable store binds `n`; if the
environment does not bind `n` and the store does, the output token is the
store's value. -/
theorem substitution_precedence (getenv : Getenv) (lv : LOCALVARS) (cmd : String)
    (pre post : List String) (n v : String)
    (htok : (spec_tokens cmd).take 256 = pre ++ ("$" ++ n) :: post) :
    (getenv n = some v →
      (parse_single_command getenv lv cmd).argv
        = (pre.filterMap (spec_substitute getenv lv) ++
            v :: post.filterMap (spec_substitute getenv lv)).map some) ∧
    (getenv n = none → get_local_var lv n = some v →
      (parse_single_command getenv lv cmd).argv
        = (pre.filterMap (spec_substitute getenv lv) ++
            v :: post.filterMap (spec_substitute getenv lv)).map some) := by
  have h := parse_single_command_take getenv lv cmd
  rw [htok, List.filterMap_append, List.filterMap_cons, spec_substitute_dollar] at h
  constructor
  · intro henv
    rw [h, henv]
  · intro henv hloc
    rw [h, henv, hloc]

theorem substitution_precedence_witness :
    (spec_tokens "echo $FOO\n").take 256 = ["echo"] ++ ("$" ++ "FOO") :: [] ∧
    example_getenv "FOO" = some "env1" ∧
    get_local_var example_local_vars "FOO" = some "local1" ∧
    (parse_single_command example_getenv example_local_vars "echo $FOO\n").argv
      = [some "echo", some "env1"] ∧
    example_getenv "BAR" = none ∧
    get_local_var example_local_vars "BAR" = some "local2" ∧
    (parse_single_command example_getenv example_local_vars "$BAR\n").argv
      = [some "local2"] :=
  ⟨by decide, by decide, by decide,
    ((substitution_precedence example_getenv example_local_vars "echo $FOO\n"
      ["echo"] [] "FOO" "env1" (by decide)).1 (by decide)).trans (by decide),
    by decide, by decide,
    ((substitution_precedence example_getenv example_local_vars "$BAR\n"
      [] [] "BAR" "local2" (by decide)).2 (by decide) (by decide)).trans
      (by decide)⟩

theorem map_some_filterMap {α β : Type} (f : α → Option β) (l : List α) :
    (l.filterMap f).map some = (l.filter (fun t => (f t).isSome)).map f := by
  induction l with
  | nil => rfl
  | cons a l ih =>
    rw [List.filterMap_cons]
    cases h : f a with
    | none => simp [h, ih]
    | some b => simp [h, ih]

theorem length_filterMap_add_countP {α β : Type} (f : α → Option β) (l : List α) :
    (l.filterMap f).length + l.countP (fun t => (f t).isNone) = l.length := by
  induction l with
  | nil => rfl
  | cons a l ih =>
    rw [List.filterMap_cons, List.countP_cons]
    cases h : f a with
    | none => simp [h]; omega
    | some b => simp [h]; omega

theorem is_unbound_eq (getenv : Getenv) (lv : LOCALVARS) (t : String) :
    is_unbound getenv lv t = (spec_substitute getenv lv t).isNone := by
  unfold is_unbound spec_substitute
  by_cases hd : t.data.head? = some '$'
  · cases henv : getenv (String.mk t.data.tail) <;> simp [hd]
  · simp [hd]

/-- C8: unbound-variable removal.  For every line with fewer than 256 tokens,
`parse_single_command` deletes exactly the tokens `$n` whose name is bound
neither in the environment nor in the variable store: the result is one element
shorter for each such token, and the other tokens (each after its own
substitution) appear in their original relative order.  When no `$` token of
the line is bound, the result is the list of the other tokens themselves. -/
theorem unbound_tokens_removed (getenv : Getenv) (lv : LOCALVARS) (cmd : String)
    (hlen : (spec_tokens cmd).length < 256) :
    (parse_single_command getenv lv cmd).argv
      = ((spec_tokens cmd).filter (fun t => !is_unbound getenv lv t)).map
          (spec_substitute getenv lv) ∧
    (parse_single_command getenv lv cmd).argv.length
        + (spec_tokens cmd).countP (is_unbound getenv lv)
      = (spec_tokens cmd).length ∧
    ((∀ t ∈ spec_tokens cmd, t.data.head? = some '$' → is_unbound getenv lv t = true) →
      (parse_single_command getenv lv cmd).argv
        = ((spec_tokens cmd).filter (fun t => !is_unbound getenv lv t)).map some) := by
  have h := (parse_single_command_eq getenv lv cmd hlen).1
  have hpred : (fun t => !is_unbound getenv lv t)
      = (fun t => (spec_substitute getenv lv t).isSome) := by
    funext t
    rw [is_unbound_eq]
    cases spec_substitute getenv lv t <;> rfl
  have hpred' : is_unbound getenv lv = (fun t => (spec_substitute getenv lv t).isNone) := by
    funext t
    exact is_unbound_eq getenv lv t
  have h1 : (parse_single_command getenv lv cmd).argv
      = ((spec_tokens cmd).filter (fun t => !is_unbound getenv lv t)).map
          (spec_substitute getenv lv) := by
    rw [h, map_some_filterMap, hpred]
  refine ⟨h1, ?_, ?_⟩
  · rw [h, List.length_map, hpred']
    exact length_filterMap_add_countP _ _
  · intro hall
    rw [h1]
    apply List.map_congr_left
    intro t ht
    rw [List.mem_filter] at ht
    have hnot : ¬ t.data.head? = some '$' := by
      intro hd
      have := hall t ht.1 hd
      simp [this] at ht
    simp [spec_substitute, hnot]

theorem unbound_tokens_removed_witness :
    (spec_tokens "echo $BAZ $Q a $BAZ\tb $Q\n").length < 256 ∧
    spec_tokens "echo $BAZ $Q a $BAZ\tb $Q\n"
      = ["echo", "$BAZ", "$Q", "a", "$BAZ", "b", "$Q"] ∧
    (parse_single_command example_getenv example_local_vars
        "echo $BAZ $Q a $BAZ\tb $Q\n").argv
      = [some "echo", some "a", some "b"] :=
  ⟨by decide, by decide,
    ((unbound_tokens_removed example_getenv example_local_vars
      "echo $BAZ $Q a $BAZ\tb $Q\n" (by decide)).1).trans (by decide)⟩

/-- C9: at most one substitution per token, no recursion.  For every line with
fewer than 256 tokens, every environment and every variable store, the vector
returned by `parse_single_command` is the token list of the line with each
token mapped once, in order: a token not beginning with `$` is kept, a token
`$n` becomes the environment value of `n` if bound, else the store's value if
bound, else is dropped; substituted values are not mapped again.  The returned
count is the length of that vector and nothing is printed. -/
theorem one_substitution_per_token (getenv : Getenv) (lv : LOCALVARS) (cmd : String)
    (hlen : (spec_tokens cmd).length < 256) :
    (parse_single_command getenv lv cmd).argv
      = ((spec_tokens cmd).filterMap (spec_substitute getenv lv)).map some ∧
    (parse_single_command getenv lv cmd).num_args
      = ((spec_tokens cmd).filterMap (spec_substitute getenv lv)).length ∧
    (parse_single_command getenv lv cmd).out = [] := by
  obtain ⟨h1, h2⟩ := parse_single_command_eq getenv lv cmd hlen
  refine ⟨h1, ?_, h2⟩
  have := congrArg List.length h1
  simpa [ARGS.argv, view_length] using this

theorem one_substitution_per_token_witness :
    (spec_tokens "echo $A $B $A\n").length < 256 ∧
    example_getenv "A" = some "$B" ∧ example_getenv "B" = some "x" ∧
    (parse_single_command example_getenv example_local_vars "echo $A $B $A\n").argv
      = [some "echo", some "$B", some "x", some "$B"] :=
  ⟨by decide, by decide, by decide,
    ((one_substitution_per_token example_getenv example_local_vars "echo $A $B $A\n"
      (by decide)).1).trans (by decide)⟩

/-! ## More facts about the variable store -/

theorem range_map_eraseIdx {α : Type} (f : Nat → α) (n i : Nat) (hi : i < n) :
    ((List.range n).map f).eraseIdx i
      = (List.range (n - 1)).map (fun k => if k < i then f k else f (k + 1)) := by
  apply List.ext_getElem?
  intro k
  rw [List.getElem?_eraseIdx]
  by_cases hk : k < n - 1
  · have h1 : k < n := by omega
    have h2 : k + 1 < n := by omega
    by_cases hki : k < i
    · simp [hki, List.getElem?_range hk, List.getElem?_range h1]
    · simp [hki, List.getElem?_range hk, List.getElem?_range h2]
  · have h1 : ((List.range (n - 1)).map
        (fun k => if k < i then f k else f (k + 1)))[k]? = none := by
      rw [List.getElem?_eq_none]; simp; omega
    rw [h1]
    by_cases hki : k < i
    · omega
    · simp only [hki, if_false]
      rw [List.getElem?_eq_none]; simp; omega

theorem memmove_left_apply (a : Slots) (n i k : Nat) (hk : k < n - 1) :
    memmove a i (i + 1) (n - i - 1) k = if k < i then a k else a (k + 1) := by
  unfold memmove
  by_cases hki : k < i
  · have : ¬ (i ≤ k ∧ k < i + (n - i - 1)) := by omega
    simp [hki, this]
  · have h1 : i ≤ k ∧ k < i + (n - i - 1) := by omega
    have h2 : i + 1 + (k - i) = k + 1 := by omega
    simp [hki, h1, h2]

theorem view_memmove_left (a : Slots) (n i : Nat) (hi : i < n) :
    view (memmove a i (i + 1) (n - i - 1)) (n - 1) = (view a n).eraseIdx i := by
  unfold view
  rw [range_map_eraseIdx a n i hi]
  apply List.map_congr_left
  intro k hk
  exact memmove_left_apply a n i k (List.mem_range.mp hk)

theorem remove_local_var_found (lv : LOCALVARS) (name : String) (i : Nat)
    (h : find_var lv name = some i) :
    remove_local_var lv name =
      { var_name := memmove lv.var_name i (i + 1) (lv.num_vars - i - 1)
        var_value := memmove lv.var_value i (i + 1) (lv.num_vars - i - 1)
        num_vars := lv.num_vars - 1 } := by
  simp [remove_local_var, h]

theorem remove_local_var_absent (lv : LOCALVARS) (name : String)
    (h : find_var lv name = none) : remove_local_var lv name = lv := by
  simp [remove_local_var, h]

theorem find_var_lt {lv : LOCALVARS} {name : String} {i : Nat}
    (h : find_var lv name = some i) : i < lv.num_vars ∧ lv.var_name i = some name := by
  obtain ⟨-, h2, h3, -⟩ := find_var_from_some h
  exact ⟨by omega, h3⟩

theorem add_local_var_found (lv : LOCALVARS) (name value : String) (i : Nat)
    (h : find_var lv name = some i) :
    add_local_var lv name value
      = ({ lv with var_value := write lv.var_value i (some value) }, []) := by
  simp [add_local_var, h]

theorem add_local_var_names_nodup (lv : LOCALVARS) (name value : String)
    (hd : (view lv.var_name lv.num_vars).Nodup) (hn : lv.num_vars ≤ 1024) :
    (view (add_local_var lv name value).1.var_name
        (add_local_var lv name value).1.num_vars).Nodup ∧
    (add_local_var lv name value).1.num_vars ≤ 1024 := by
  cases hfind : find_var lv name with
  | some i =>
    rw [add_local_var_found lv name value i hfind]
    exact ⟨hd, hn⟩
  | none =>
    by_cases hge : lv.num_vars ≥ MAX_LOCAL_VARIABLES
    · have : add_local_var lv name value = (lv, ["Error: too many local variables\n"]) := by
        simp only [add_local_var, hfind, hge, if_true]
      rw [this]
      exact ⟨hd, hn⟩
    · have : add_local_var lv name value
          = ({ var_name := write lv.var_name lv.num_vars (some name)
               var_value := write lv.var_value lv.num_vars (some value)
               num_vars := lv.num_vars + 1 }, []) := by
        simp only [add_local_var, hfind, hge, if_false]
      rw [this]
      simp only [MAX_LOCAL_VARIABLES] at hge
      refine ⟨?_, by simp only; omega⟩
      simp only
      rw [view_succ]
      have hold : view (write lv.var_name lv.num_vars (some name)) lv.num_vars
          = view lv.var_name lv.num_vars := by
        apply view_congr
        intro k hk
        have : k ≠ lv.num_vars := by omega
        simp [write, this]
      rw [hold]
      have hnew : write lv.var_name lv.num_vars (some name) lv.num_vars = some name := by
        simp [write]
      rw [hnew, List.nodup_append]
      refine ⟨hd, List.nodup_singleton _, ?_⟩
      intro x hx hx'
      rw [List.mem_singleton] at hx'
      subst hx'
      simp only [view, List.mem_map, List.mem_range] at hx
      obtain ⟨k, hk, hkn⟩ := hx
      exact find_var_from_none hfind k (Nat.zero_le _) (by omega) hkn

theorem remove_local_var_names_nodup (lv : LOCALVARS) (name : String)
    (hd : (view lv.var_name lv.num_vars).Nodup) (hn : lv.num_vars ≤ 1024) :
    (view (remove_local_var lv name).var_name (remove_local_var lv name).num_vars).Nodup ∧
    (remove_local_var lv name).num_vars ≤ 1024 := by
  cases hfind : find_var lv name with
  | none =>
    rw [remove_local_var_absent lv name hfind]
    exact ⟨hd, hn⟩
  | some i =>
    rw [remove_local_var_found lv name i hfind]
    obtain ⟨hi, -⟩ := find_var_lt hfind
    refine ⟨?_, by simp only; omega⟩
    simp only
    rw [view_memmove_left _ _ _ hi]
    exact List.Nodup.eraseIdx i hd

theorem run_local_vars_nodup (calls : List LocalVarCall) (lv : LOCALVARS)
    (hd : (view lv.var_name lv.num_vars).Nodup) (hn : lv.num_vars ≤ 1024) :
    (view (run_local_vars lv calls).var_name (run_local_vars lv calls).num_vars).Nodup ∧
    (run_local_vars lv calls).num_vars ≤ 1024 := by
  unfold run_local_vars
  induction calls generalizing lv with
  | nil => exact ⟨hd, hn⟩
  | cons c cs ih =>
    rw [List.foldl_cons]
    cases c with
    | add name value =>
      obtain ⟨h1, h2⟩ := add_local_var_names_nodup lv name value hd hn
      exact ih _ h1 h2
    | remove name =>
      obtain ⟨h1, h2⟩ := remove_local_var_names_nodup lv name hd hn
      exact ih _ h1 h2

/-- C11: name uniqueness.  Starting from the empty store of `init_local_vars`,
after every finite sequence of `add_local_var` and `remove_local_var` calls no
two entries of the store have the same name, and the number of entries does not
exceed 1024. -/
theorem local_var_names_unique (calls : List LocalVarCall) :
    init_local_vars.num_vars = 0 ∧
    (view (run_local_vars init_local_vars calls).var_name
      (run_local_vars init_local_vars calls).num_vars).Nodup ∧
    (∀ i j, i < (run_local_vars init_local_vars calls).num_vars →
      j < (run_local_vars init_local_vars calls).num_vars →
      (run_local_vars init_local_vars calls).var_name i
        = (run_local_vars init_local_vars calls).var_name j → i = j) ∧
    (run_local_vars init_local_vars calls).num_vars ≤ 1024 := by
  have h := run_local_vars_nodup calls init_local_vars
    (by simp [init_local_vars, view]) (by simp [init_local_vars])
  exact ⟨rfl, h.1, fun i j hi hj hij => view_nodup_inj h.1 hi hj hij, h.2⟩

theorem display_local_vars_remove (lv : LOCALVARS) (i : Nat) (hi : i < lv.num_vars) :
    display_local_vars
        { var_name := memmove lv.var_name i (i + 1) (lv.num_vars - i - 1)
          var_value := memmove lv.var_value i (i + 1) (lv.num_vars - i - 1)
          num_vars := lv.num_vars - 1 }
      = (display_local_vars lv).eraseIdx i := by
  unfold display_local_vars
  rw [range_map_eraseIdx _ _ _ hi]
  apply List.map_congr_left
  intro k hk
  have hk' := List.mem_range.mp hk
  simp only at hk' ⊢
  rw [memmove_left_apply _ _ _ _ hk', memmove_left_apply _ _ _ _ hk']
  split <;> rfl

/-- C12: `remove_local_var` on a store with pairwise distinct names.  If `name`
is bound (at position `i`), then afterwards `get_local_var(name)` is absent, the
count is one less, and the listing of the store is the old listing with entry
`i` taken out: all other (name, value) pairs remain, in their original order and
without a gap.  If `name` is not bound the store is unchanged. -/
theorem remove_local_var_spec (lv : LOCALVARS) (name : String)
    (hd : (view lv.var_name lv.num_vars).Nodup) :
    (∀ i, i < lv.num_vars → lv.var_name i = some name →
      get_local_var (remove_local_var lv name) name = none ∧
      (remove_local_var lv name).num_vars + 1 = lv.num_vars ∧
      display_local_vars (remove_local_var lv name)
        = (display_local_vars lv).eraseIdx i ∧
      (∀ value, (some name, value) ∉ display_local_vars (remove_local_var lv name))) ∧
    ((∀ i, i < lv.num_vars → lv.var_name i ≠ some name) →
      remove_local_var lv name = lv) := by
  constructor
  · intro i hi hname
    have hfind := find_var_bound hd hi hname
    rw [remove_local_var_found lv name i hfind]
    have hgone : ∀ k, k < lv.num_vars - 1 →
        memmove lv.var_name i (i + 1) (lv.num_vars - i - 1) k ≠ some name := by
      intro k hk hkn
      rw [memmove_left_apply _ _ _ _ hk] at hkn
      by_cases hki : k < i
      · rw [if_pos hki] at hkn
        have := view_nodup_inj hd (by omega : k < lv.num_vars) hi (hkn.trans hname.symm)
        omega
      · rw [if_neg hki] at hkn
        have := view_nodup_inj hd (by omega : k + 1 < lv.num_vars) hi
          (hkn.trans hname.symm)
        omega
    refine ⟨?_, by simp only; omega, display_local_vars_remove lv i hi, ?_⟩
    · have : find_var { var_name := memmove lv.var_name i (i + 1) (lv.num_vars - i - 1)
                        var_value := memmove lv.var_value i (i + 1) (lv.num_vars - i - 1)
                        num_vars := lv.num_vars - 1 } name = none :=
        find_var_unbound hgone
      simp [get_local_var, this]
    · intro value hmem
      simp only [display_local_vars, List.mem_map, List.mem_range, Prod.mk.injEq] at hmem
      obtain ⟨k, hk, hkn, -⟩ := hmem
      exact hgone k hk hkn
  · intro hun
    exact remove_local_var_absent lv name (find_var_unbound hun)

theorem remove_local_var_spec_witness :
    (view (add_local_var init_local_vars "X" "1").1.var_name
      (add_local_var init_local_vars "X" "1").1.num_vars).Nodup ∧
    display_local_vars (add_local_var init_local_vars "X" "1").1
      = [(some "X", some "1")] ∧
    display_local_vars (remove_local_var (add_local_var init_local_vars "X" "1").1 "X")
      = [] :=
  ⟨by decide, by decide,
    (((remove_local_var_spec (add_local_var init_local_vars "X" "1").1 "X"
      (by decide)).1 0 (by decide) (by decide)).2.2.1).trans (by decide)⟩

theorem find_var_exists {lv : LOCALVARS} {name : String} {i : Nat}
    (hi : i < lv.num_vars) (hname : lv.var_name i = some name) :
    ∃ j, j ≤ i ∧ find_var lv name = some j := by
  cases hres : find_var lv name with
  | none => exact absurd hname (find_var_from_none hres i (Nat.zero_le _) (by omega))
  | some j =>
    obtain ⟨-, -, -, h4⟩ := find_var_from_some hres
    refine ⟨j, ?_, rfl⟩
    by_contra hlt
    exact h4 i (Nat.zero_le _) (by omega) hname

/-- C13: the capacity error is atomic.  When the store holds 1024 entries and
`name` is not bound, `add_local_var` reports the error and returns the store as
it was (names, values and count); when the store holds 1024 entries and `name`
is bound, `add_local_var` still replaces its value (at the first entry of that
name), prints nothing and keeps names and count. -/
theorem add_local_var_at_capacity (lv : LOCALVARS) (name value : String)
    (hfull : lv.num_vars = 1024) :
    ((∀ i, i < lv.num_vars → lv.var_name i ≠ some name) →
      add_local_var lv name value = (lv, ["Error: too many local variables\n"])) ∧
    (∀ i, i < lv.num_vars → lv.var_name i = some name →
      (add_local_var lv name value).2 = [] ∧
      (add_local_var lv name value).1.num_vars = lv.num_vars ∧
      (add_local_var lv name value).1.var_name = lv.var_name ∧
      get_local_var (add_local_var lv name value).1 name = some value ∧
      ∃ j, j ≤ i ∧ lv.var_name j = some name ∧
        (add_local_var lv name value).1.var_value = write lv.var_value j (some value)) := by
  constructor
  · intro hun
    have hge : lv.num_vars ≥ MAX_LOCAL_VARIABLES := by
      simp only [MAX_LOCAL_VARIABLES]; omega
    simp only [add_local_var, find_var_unbound hun, hge, if_true]
  · intro i hi hname
    obtain ⟨j, hji, hfind⟩ := find_var_exists hi hname
    have hfind' : find_var { lv with var_value := write lv.var_value j (some value) } name
        = some j := hfind
    rw [add_local_var_found lv name value j hfind]
    refine ⟨rfl, rfl, rfl, ?_, j, hji, (find_var_lt hfind).2, rfl⟩
    simp [get_local_var, hfind', write]

theorem full_local_vars_unbound (i : Nat) :
    full_local_vars.var_name i ≠ some "b" := by
  intro h
  have h1 := congrArg String.data (Option.some.inj h)
  have h2 : ("b" : String).data = ['b'] := rfl
  rw [h2] at h1
  simp [List.replicate_succ] at h1

theorem add_local_var_at_capacity_witness :
    full_local_vars.num_vars = 1024 ∧
    add_local_var full_local_vars "b" "1"
      = (full_local_vars, ["Error: too many local variables\n"]) ∧
    get_local_var (add_local_var full_local_vars "a" "2").1 "a" = some "2" :=
  ⟨rfl,
    (add_local_var_at_capacity full_local_vars "b" "1" rfl).1
      (fun i _ => full_local_vars_unbound i),
    ((add_local_var_at_capacity full_local_vars "a" "2" rfl).2 0 (by decide) rfl).2.2.2.1⟩

/-! ## More claims about the history -/

/-- C18: single-step record semantics.  For every history with
`size ≤ capacity` and every line: with capacity 0, `add_history` returns the
state as it was; otherwise the new newest-first entries are the line followed
by the old entries, cut to `capacity` elements, the capacity is unchanged, below
capacity the size grows by one and no entry is discarded, and at capacity the
size stays and exactly the oldest entry is discarded. -/
theorem add_history_step (h : HISTORY) (line : String) (hs : h.size ≤ h.capacity) :
    (h.capacity = 0 → add_history h line = h) ∧
    (h.capacity ≠ 0 →
      (add_history h line).entries = (some line :: h.entries).take h.capacity ∧
      (add_history h line).capacity = h.capacity ∧
      (h.size < h.capacity →
        (add_history h line).size = h.size + 1 ∧
        (add_history h line).entries = some line :: h.entries) ∧
      (h.size = h.capacity →
        (add_history h line).size = h.size ∧
        (add_history h line).entries = some line :: h.entries.dropLast)) := by
  have hlen : h.entries.length = h.size := by simp [HISTORY.entries, view_length]
  refine ⟨add_history_disabled h line, fun hc => ?_⟩
  have hent := add_history_entries h line hc hs
  have hsize := add_history_size h line hc
  refine ⟨hent, add_history_capacity h line, fun hlt => ?_, fun heq => ?_⟩
  · have : ¬ h.capacity ≤ h.size := by omega
    rw [if_neg this] at hsize
    refine ⟨hsize, ?_⟩
    rw [hent, List.take_of_length_le (by simp; omega)]
  · have : h.capacity ≤ h.size := by omega
    rw [if_pos this] at hsize
    refine ⟨hsize, ?_⟩
    obtain ⟨c, hc'⟩ : ∃ c, h.capacity = c + 1 := ⟨h.capacity - 1, by omega⟩
    rw [hent, hc', List.take_succ_cons, List.dropLast_eq_take, hlen, heq, hc']
    rfl

theorem add_history_step_witness :
    (["a\n", "b\n"].foldl add_history (resize_history init_history 2)).size
      ≤ (["a\n", "b\n"].foldl add_history (resize_history init_history 2)).capacity ∧
    (add_history (["a\n", "b\n"].foldl add_history (resize_history init_history 2))
        "c\n").entries
      = [some "c\n", some "b\n"] :=
  ⟨by decide,
    (((add_history_step (["a\n", "b\n"].foldl add_history (resize_history init_history 2))
      "c\n" (by decide)).2 (by decide)).2.2.2 (by decide)).2.trans (by decide)⟩

theorem run_history_stored (calls : List HistoryCall) (h : HISTORY)
    (hs : h.size ≤ h.capacity) (hall : ∀ e ∈ h.entries, e ≠ none) :
    ∀ e ∈ (run_history h calls).entries, e ≠ none := by
  unfold run_history
  induction calls generalizing h with
  | nil => exact hall
  | cons c cs ih =>
    rw [List.foldl_cons]
    cases c with
    | add cmd =>
      apply ih _ (add_history_size_le h cmd hs)
      by_cases hc : h.capacity = 0
      · show ∀ e ∈ (add_history h cmd).entries, e ≠ none
        rw [add_history_disabled h cmd hc]; exact hall
      · show ∀ e ∈ (add_history h cmd).entries, e ≠ none
        rw [add_history_entries h cmd hc hs]
        intro e he
        have := List.mem_of_mem_take he
        rcases List.mem_cons.mp this with h1 | h1
        · rw [h1]; simp
        · exact hall e h1
    | resize k =>
      apply ih _ (resize_history_size_le h k)
      show ∀ e ∈ (resize_history h k).entries, e ≠ none
      rw [resize_history_entries h k hs]
      intro e he
      exact hall e (List.mem_of_mem_take he)

theorem get_history_out_of_range (h : HISTORY) (index : Int)
    (hi : index < 1 ∨ index > (h.size : Int)) :
    get_history h index = (["Invalid history index\n"], none) := by
  simp [get_history, hi]

theorem get_history_in_range (h : HISTORY) (index : Int)
    (hi : ¬ (index < 1 ∨ index > (h.size : Int))) :
    get_history h index = ([], h.commands (index - 1).toNat) := by
  simp only [get_history, hi, if_false]

/-- C19: `get_history` fails exactly on out-of-range indices.  For every
history whose stored entries (slots below `size`) are strings and every integer
index: if `index < 1` or `index > size` the call prints `Invalid history index`
and yields NULL; otherwise it prints nothing and yields a line; so the result is
NULL if and only if the index is out of range.  (The call takes the history
read-only: the embedding of `get_history` has no history result because the C
function never writes through its `history` argument.) -/
theorem get_history_fails_iff (h : HISTORY) (index : Int)
    (hstored : ∀ i, i < h.size → h.commands i ≠ none) :
    ((index < 1 ∨ index > (h.size : Int)) →
      get_history h index = (["Invalid history index\n"], none)) ∧
    (¬ (index < 1 ∨ index > (h.size : Int)) →
      ∃ line, get_history h index = ([], some line)) ∧
    ((get_history h index).2 = none ↔ (index < 1 ∨ index > (h.size : Int))) ∧
    ((get_history h index).1 = ["Invalid history index\n"] ↔
      (index < 1 ∨ index > (h.size : Int))) := by
  have hin : ¬ (index < 1 ∨ index > (h.size : Int)) →
      ∃ line, get_history h index = ([], some line) := by
    intro hi
    rw [get_history_in_range h index hi]
    have hlt : (index - 1).toNat < h.size := by omega
    cases hslot : h.commands (index - 1).toNat with
    | none => exact absurd hslot (hstored _ hlt)
    | some line => exact ⟨line, rfl⟩
  refine ⟨get_history_out_of_range h index, hin, ?_, ?_⟩
  · constructor
    · intro hnone
      by_contra hi
      obtain ⟨line, hline⟩ := hin hi
      rw [hline] at hnone
      cases hnone
    · intro hi
      rw [get_history_out_of_range h index hi]
  · constructor
    · intro hmsg
      by_contra hi
      obtain ⟨line, hline⟩ := hin hi
      rw [hline] at hmsg
      cases hmsg
    · intro hi
      rw [get_history_out_of_range h index hi]

theorem get_history_fails_iff_witness :
    (∀ i, i < (["a\n", "b\n"].foldl add_history init_history).size →
      (["a\n", "b\n"].foldl add_history init_history).commands i ≠ none) ∧
    get_history (["a\n", "b\n"].foldl add_history init_history) 3
      = (["Invalid history index\n"], none) ∧
    get_history (["a\n", "b\n"].foldl add_history init_history) 0
      = (["Invalid history index\n"], none) ∧
    get_history (["a\n", "b\n"].foldl add_history init_history) 2 = ([], some "a\n") :=
  ⟨by decide,
    (get_history_fails_iff (["a\n", "b\n"].foldl add_history init_history) 3
      (by decide)).1 (by decide),
    (get_history_fails_iff (["a\n", "b\n"].foldl add_history init_history) 0
      (by decide)).1 (by decide),
    by decide⟩

/-- C20, as stated, fails: in a history of size 3 holding `c3`, `c2`, `c1`
(newest first), `get_history(1)` yields `c3`, the entry of slot 0, while slot
`s - i = 2` holds `c1`. -/
theorem get_history_not_slot_size_minus_index :
    (["c1\n", "c2\n", "c3\n"].foldl add_history init_history).size = 3 ∧
    get_history (["c1\n", "c2\n", "c3\n"].foldl add_history init_history) 1
      = ([], some "c3\n") ∧
    (["c1\n", "c2\n", "c3\n"].foldl add_history init_history).commands (3 - 1)
      = some "c1\n" ∧
    (get_history (["c1\n", "c2\n", "c3\n"].foldl add_history init_history) 1).2
      ≠ (["c1\n", "c2\n", "c3\n"].foldl add_history init_history).commands (3 - 1) := by
  refine ⟨by decide, by decide, by decide, by decide⟩

/-- C20, amended: for every history of size `s` and every valid index `i` with
`1 ≤ i ≤ s`, `get_history(i)` prints nothing and returns the entry stored in
internal newest-first slot `i - 1`, that is element `i - 1` of the newest-first
entry sequence. -/
theorem get_history_slot (h : HISTORY) (i : Nat) (h1 : 1 ≤ i) (h2 : i ≤ h.size) :
    get_history h (i : Int) = ([], h.commands (i - 1)) ∧
    h.entries[i - 1]? = some (get_history h (i : Int)).2 := by
  have hi : ¬ ((i : Int) < 1 ∨ (i : Int) > (h.size : Int)) := by omega
  have hidx : ((i : Int) - 1).toNat = i - 1 := by omega
  have hget : get_history h (i : Int) = ([], h.commands (i - 1)) := by
    rw [get_history_in_range h _ hi, hidx]
  refine ⟨hget, ?_⟩
  rw [hget, entries_at h (i - 1) (by omega)]

theorem get_history_slot_witness :
    1 ≤ 1 ∧ 1 ≤ (["c1\n", "c2\n", "c3\n"].foldl add_history init_history).size ∧
    get_history (["c1\n", "c2\n", "c3\n"].foldl add_history init_history) ((1 : Nat) : Int)
      = ([], (["c1\n", "c2\n", "c3\n"].foldl add_history init_history).commands (1 - 1)) ∧
    (["c1\n", "c2\n", "c3\n"].foldl add_history init_history).commands (1 - 1)
      = some "c3\n" :=
  ⟨by decide, by decide,
    (get_history_slot (["c1\n", "c2\n", "c3\n"].foldl add_history init_history) 1
      (by decide) (by decide)).1,
    by decide⟩

/-! ## Tokenization and pipeline splitting -/

theorem splitOnP_mem (p : Char → Bool) (s : List Char) :
    ∀ t ∈ s.splitOnP p, ∀ c ∈ t, p c = false ∧ c ∈ s := by
  induction s with
  | nil =>
    intro t ht c hc
    simp at ht
    subst ht
    simp at hc
  | cons x xs ih =>
    intro t ht c hc
    rw [List.splitOnP_cons] at ht
    by_cases hx : p x = true
    · rw [if_pos hx] at ht
      rcases List.mem_cons.mp ht with h1 | h1
      · subst h1; simp at hc
      · obtain ⟨h2, h3⟩ := ih t h1 c hc
        exact ⟨h2, List.mem_cons_of_mem _ h3⟩
    · rw [if_neg hx] at ht
      cases hsp : xs.splitOnP p with
      | nil => exact absurd hsp (List.splitOnP_ne_nil p xs)
      | cons hd tl =>
        rw [hsp, List.modifyHead_cons] at ht
        rcases List.mem_cons.mp ht with h1 | h1
        · subst h1
          rcases List.mem_cons.mp hc with h2 | h2
          · subst h2
            exact ⟨by simpa using hx, List.mem_cons_self _ _⟩
          · obtain ⟨h3, h4⟩ := ih hd (by rw [hsp]; exact List.mem_cons_self _ _) c h2
            exact ⟨h3, List.mem_cons_of_mem _ h4⟩
        · obtain ⟨h3, h4⟩ := ih t (by rw [hsp]; exact List.mem_cons_of_mem _ h1) c hc
          exact ⟨h3, List.mem_cons_of_mem _ h4⟩

theorem spec_tokens_mem (cmd t : String) (ht : t ∈ spec_tokens cmd) :
    t ≠ "" ∧ ∀ c ∈ t.data, c ∉ ARG_DELIMS ∧ c ∈ cmd.data := by
  simp only [spec_tokens, List.mem_map, List.mem_filter] at ht
  obtain ⟨piece, ⟨hmem, hne⟩, rfl⟩ := ht
  constructor
  · intro h
    have := congrArg String.data h
    simp only at this
    rw [this] at hne
    simp at hne
  · intro c hc
    obtain ⟨h1, h2⟩ := splitOnP_mem _ cmd.data piece hmem c hc
    exact ⟨by simpa using h1, h2⟩

theorem spec_stages_mem (cmd t : String) (ht : t ∈ spec_stages cmd) :
    t ≠ "" ∧ ∀ c ∈ t.data, c ≠ '|' ∧ c ∈ cmd.data := by
  simp only [spec_stages, List.mem_map, List.mem_filter] at ht
  obtain ⟨piece, ⟨hmem, hne⟩, rfl⟩ := ht
  constructor
  · intro h
    have := congrArg String.data h
    simp only at this
    rw [this] at hne
    simp at hne
  · intro c hc
    obtain ⟨h1, h2⟩ := splitOnP_mem _ cmd.data piece hmem c hc
    exact ⟨by simpa [PIPE_DELIMS] using h1, h2⟩

theorem filterMap_eq_self {α : Type} (f : α → Option α) (l : List α)
    (h : ∀ t ∈ l, f t = some t) : l.filterMap f = l := by
  induction l with
  | nil => rfl
  | cons a l ih =>
    rw [List.filterMap_cons, h a (List.mem_cons_self _ _),
      ih (fun t ht => h t (List.mem_cons_of_mem _ ht))]

/-- C16: tokenization.  For every line with fewer than 256 tokens none of which
begins with `$`, `parse_single_command` returns exactly the non-empty segments
of the line between delimiters (space, tab, newline), in left-to-right order,
and the returned count is their number.  The segments are the pieces obtained
by cutting the line at every delimiter: no piece holds a delimiter, and the
pieces interleaved with the delimiters of the line give the line back, so the
non-empty pieces are the maximal runs of other characters.  Every returned
token is non-empty and holds no space, tab or newline. -/
theorem parse_single_command_tokens (getenv : Getenv) (lv : LOCALVARS) (cmd : String)
    (hlen : (spec_tokens cmd).length < 256)
    (hplain : ∀ t ∈ spec_tokens cmd, t.data.head? ≠ some '$') :
    (parse_single_command getenv lv cmd).argv = (spec_tokens cmd).map some ∧
    (parse_single_command getenv lv cmd).num_args = (spec_tokens cmd).length ∧
    (∀ t ∈ spec_tokens cmd, t ≠ "" ∧ ∀ c ∈ t.data, c ≠ ' ' ∧ c ≠ '\t' ∧ c ≠ '\n') ∧
    (∀ piece ∈ cmd.data.splitOnP (fun ch => decide (ch ∈ ARG_DELIMS)),
      ∀ c ∈ piece, c ∉ ARG_DELIMS) ∧
    List.flatten (List.zipWith (fun x y => x ++ y)
        (cmd.data.splitOnP (fun ch => decide (ch ∈ ARG_DELIMS)))
        ((cmd.data.filter (fun ch => decide (ch ∈ ARG_DELIMS))).map (fun x => [x]) ++ [[]]))
      = cmd.data := by
  have h := (parse_single_command_eq getenv lv cmd hlen).1
  have hid : (spec_tokens cmd).filterMap (spec_substitute getenv lv) = spec_tokens cmd := by
    apply filterMap_eq_self
    intro t ht
    simp [spec_substitute, hplain t ht]
  rw [hid] at h
  refine ⟨h, ?_, ?_, ?_, List.splitOnP_spec _ cmd.data⟩
  · have := congrArg List.length h
    simpa [ARGS.argv, view_length] using this
  · intro t ht
    obtain ⟨h1, h2⟩ := spec_tokens_mem cmd t ht
    refine ⟨h1, fun c hc => ?_⟩
    have := (h2 c hc).1
    simpa [ARG_DELIMS] using this
  · intro piece hp c hc
    have := (splitOnP_mem _ cmd.data piece hp c hc).1
    simpa using this

theorem parse_single_command_tokens_witness :
    (spec_tokens "  ls\t-l  /tmp \n").length < 256 ∧
    (∀ t ∈ spec_tokens "  ls\t-l  /tmp \n", t.data.head? ≠ some '$') ∧
    (parse_single_command example_getenv example_local_vars "  ls\t-l  /tmp \n").argv
      = [some "ls", some "-l", some "/tmp"] ∧
    (parse_single_command example_getenv example_local_vars "  ls\t-l  /tmp \n").num_args
      = 3 :=
  ⟨by decide, by decide,
    ((parse_single_command_tokens example_getenv example_local_vars "  ls\t-l  /tmp \n"
      (by decide) (by decide)).1).trans (by decide),
    ((parse_single_command_tokens example_getenv example_local_vars "  ls\t-l  /tmp \n"
      (by decide) (by decide)).2.1).trans (by decide)⟩

theorem pipe_loop_none (fuel : Nat) (a : Slots) (n : Nat) :
    pipe_loop fuel none a n = { commands := a, num_commands := n, out := [] } := by
  cases fuel <;> simp [pipe_loop, strsep]

/-- The splitting loop stores the specified stages: with enough fuel and fewer
than `MAX_ARGS` stages in all, the loop ends normally with the non-empty
segments of the rest of the line stored after the `n` stages already there. -/
theorem pipe_loop_spec (fuel : Nat) (s : List Char) (a : Slots) (n : Nat)
    (hfuel : s.length < fuel)
    (hlt : n + ((s.splitOnP (fun ch => decide (ch ∈ PIPE_DELIMS))).filter
      (fun t => !t.isEmpty)).length < MAX_ARGS) :
    pipe_loop fuel (some s) a n =
      { commands := store_from a n
          (((s.splitOnP (fun ch => decide (ch ∈ PIPE_DELIMS))).filter
            (fun t => !t.isEmpty)).map String.mk)
        num_commands := n + ((s.splitOnP (fun ch => decide (ch ∈ PIPE_DELIMS))).filter
            (fun t => !t.isEmpty)).length
        out := [] } := by
  induction fuel generalizing s a n with
  | zero => omega
  | succ f ih =>
    have hsp := splitOnP_span s PIPE_DELIMS
    unfold pipe_loop
    simp only [strsep]
    cases hspan : s.span (fun ch => decide (ch ∉ PIPE_DELIMS)) with
    | mk token rest =>
      rw [hspan] at hsp
      cases rest with
      | nil =>
        rw [hsp] at hlt ⊢
        by_cases htok : token = []
        · subst htok
          have hn : ¬ n ≥ MAX_ARGS := by
            simp at hlt; omega
          simp [hn, pipe_loop_none, store_from]
        · have hpos : token.length > 0 := List.length_pos.mpr htok
          have hn : ¬ n + 1 ≥ MAX_ARGS := by
            simp [htok] at hlt; omega
          simp [htok, hpos, hn, pipe_loop_none, store_from]
      | cons d rest =>
        rw [hsp] at hlt ⊢
        have hlen := span_length s _ token rest d hspan
        by_cases htok : token = []
        · subst htok
          rw [List.filter_cons_of_neg (by simp)] at hlt ⊢
          have hn : ¬ n ≥ MAX_ARGS := by omega
          simp only [List.length_nil, gt_iff_lt, lt_self_iff_false, if_false, hn]
          exact ih rest a n (by omega) hlt
        · have hpos : token.length > 0 := List.length_pos.mpr htok
          rw [List.filter_cons_of_pos (by simpa using htok)] at hlt ⊢
          simp only [List.length_cons] at hlt ⊢
          have hn : ¬ n + 1 ≥ MAX_ARGS := by omega
          simp only [hpos, if_true, hn, if_false, List.map_cons, store_from]
          rw [ih rest _ (n + 1) (by omega) (by omega)]
          congr 1
          omega

theorem parse_pipe_command_eq (cmd : String) (hlen : (spec_stages cmd).length < 256) :
    parse_pipe_command cmd =
      { commands := store_from (fun _ => none) 0 (spec_stages cmd)
        num_commands := (spec_stages cmd).length
        out := [] } := by
  have hlen' : 0 + ((cmd.data.splitOnP (fun ch => decide (ch ∈ PIPE_DELIMS))).filter
      (fun t => !t.isEmpty)).length < MAX_ARGS := by
    simpa [spec_stages, MAX_ARGS] using hlen
  have h := pipe_loop_spec (cmd.data.length + 1) cmd.data (fun _ => none) 0
    (by omega) hlen'
  have hnum : 0 + ((cmd.data.splitOnP (fun ch => decide (ch ∈ PIPE_DELIMS))).filter
      (fun t => !t.isEmpty)).length = (spec_stages cmd).length := by
    simp [spec_stages]
  rw [hnum] at h
  exact h

theorem pipe_delims_eq : (fun ch : Char => decide (ch ∈ PIPE_DELIMS)) = (fun ch => ch == '|') := by
  funext ch
  by_cases h : ch = '|' <;> simp [PIPE_DELIMS, h]

/-- C17: pipeline splitting.  For every line with fewer than 256 non-empty
segments, `parse_pipe_command` returns exactly the non-empty segments of the
line between `|` characters (and the line ends), in left-to-right order, prints
nothing, and its count is their number.  The segments are the pieces obtained
by cutting the line at every `|`: joining them with `|` gives the line back and
no piece holds a `|`, so they are maximal.  No returned stage is empty or
contains `|`. -/
theorem parse_pipe_command_stages (cmd : String) (hlen : (spec_stages cmd).length < 256) :
    (parse_pipe_command cmd).stages = (spec_stages cmd).map some ∧
    (parse_pipe_command cmd).num_commands = (spec_stages cmd).length ∧
    (parse_pipe_command cmd).out = [] ∧
    (∀ t ∈ spec_stages cmd, t ≠ "" ∧ ∀ c ∈ t.data, c ≠ '|') ∧
    (∀ piece ∈ cmd.data.splitOnP (fun ch => decide (ch ∈ PIPE_DELIMS)),
      ∀ c ∈ piece, c ≠ '|') ∧
    List.intercalate ['|'] (cmd.data.splitOnP (fun ch => decide (ch ∈ PIPE_DELIMS)))
      = cmd.data := by
  have h := parse_pipe_command_eq cmd hlen
  refine ⟨?_, by rw [h], by rw [h], ?_, ?_, ?_⟩
  · rw [h]
    simp only [STAGES.stages]
    have := view_store_from (fun _ => none) 0 (spec_stages cmd)
    rw [Nat.zero_add] at this
    rw [this]
    simp [view]
  · intro t ht
    obtain ⟨h1, h2⟩ := spec_stages_mem cmd t ht
    exact ⟨h1, fun c hc => (h2 c hc).1⟩
  · intro piece hp c hc
    have := (splitOnP_mem _ cmd.data piece hp c hc).1
    simpa [PIPE_DELIMS] using this
  · rw [pipe_delims_eq]
    exact List.intercalate_splitOn cmd.data '|'

theorem parse_pipe_command_stages_witness :
    (spec_stages "echo hello | tr a-z A-Z\n").length < 256 ∧
    (parse_pipe_command "echo hello | tr a-z A-Z\n").stages
      = [some "echo hello ", some " tr a-z A-Z\n"] ∧
    (spec_stages "|a||b|").length < 256 ∧
    (parse_pipe_command "|a||b|").stages = [some "a", some "b"] :=
  ⟨by decide,
    ((parse_pipe_command_stages "echo hello | tr a-z A-Z\n" (by decide)).1).trans
      (by decide),
    by decide,
    ((parse_pipe_command_stages "|a||b|" (by decide)).1).trans (by decide)⟩

/-! ## Facts about the built-in commands -/

theorem parse_plain (getenv : Getenv) (lv : LOCALVARS) (cmd : String) (toks : List String)
    (htok : spec_tokens cmd = toks) (hlen : toks.length < 256)
    (hplain : ∀ t ∈ toks, t.data.head? ≠ some '$') :
    (parse_single_command getenv lv cmd).num_args = toks.length ∧
    (parse_single_command getenv lv cmd).out = [] ∧
    ∀ i, i < toks.length → (parse_single_command getenv lv cmd).args i = toks[i]? := by
  subst htok
  obtain ⟨h, hout⟩ := parse_single_command_eq getenv lv cmd hlen
  have hid : (spec_tokens cmd).filterMap (spec_substitute getenv lv) = spec_tokens cmd := by
    apply filterMap_eq_self
    intro t ht
    simp [spec_substitute, hplain t ht]
  rw [hid] at h
  have hnum : (parse_single_command getenv lv cmd).num_args = (spec_tokens cmd).length := by
    have := congrArg List.length h
    simpa [ARGS.argv, view_length] using this
  refine ⟨hnum, hout, fun i hi => ?_⟩
  have h2 := ((view_eq_iff _ _ _).1 h).2 i (by omega)
  rw [List.getElem?_map, List.getElem?_eq_getElem hi] at h2
  rw [List.getElem?_eq_getElem hi]
  simpa using h2.symm

theorem span_until {α : Type} (p : α → Bool) (l₁ l₂ : List α) (d : α)
    (h₁ : ∀ c ∈ l₁, p c = true) (hd : p d = false) :
    (l₁ ++ d :: l₂).span p = (l₁, d :: l₂) := by
  rw [List.span_eq_take_drop]
  induction l₁ with
  | nil => simp [List.takeWhile_cons, List.dropWhile_cons, hd]
  | cons a l ih =>
    have ha := h₁ a (List.mem_cons_self _ _)
    have := ih (fun c hc => h₁ c (List.mem_cons_of_mem _ hc))
    simp only [Prod.mk.injEq] at this
    simp [List.takeWhile_cons, List.dropWhile_cons, ha, this.1, this.2]

theorem span_all {α : Type} (p : α → Bool) (l : List α) (h : ∀ c ∈ l, p c = true) :
    l.span p = (l, []) := by
  rw [List.span_eq_take_drop]
  induction l with
  | nil => simp
  | cons a l ih =>
    have ha := h a (List.mem_cons_self _ _)
    have := ih (fun c hc => h c (List.mem_cons_of_mem _ hc))
    simp only [Prod.mk.injEq] at this
    simp [List.takeWhile_cons, List.dropWhile_cons, ha, this.1, this.2]

theorem strtok_first (l₁ l₂ : List Char) (hne : l₁ ≠ []) (h₁ : ∀ c ∈ l₁, c ≠ '=') :
    strtok (l₁ ++ '=' :: l₂) ['='] = (some l₁, l₂) := by
  cases l₁ with
  | nil => exact absurd rfl hne
  | cons a l =>
    have ha : a ≠ '=' := h₁ a (List.mem_cons_self _ _)
    have hdrop : ((a :: l) ++ '=' :: l₂).dropWhile (fun ch => decide (ch ∈ ['=']))
        = a :: (l ++ '=' :: l₂) := by
      simp [List.dropWhile_cons, ha]
    have hspan : (a :: (l ++ '=' :: l₂)).span (fun c => decide (c ∉ ['=']))
        = (a :: l, '=' :: l₂) := by
      have := span_until (fun c => decide (c ∉ ['='])) (a :: l) l₂ '='
        (fun c hc => by simpa using h₁ c hc) (by simp)
      simpa using this
    unfold strtok
    rw [hdrop]
    simp only
    rw [hspan]

theorem strtok_last (l : List Char) (hne : l ≠ []) (h : ∀ c ∈ l, c ≠ '=') :
    strtok l ['='] = (some l, []) := by
  cases l with
  | nil => exact absurd rfl hne
  | cons a l =>
    have ha : a ≠ '=' := h a (List.mem_cons_self _ _)
    have hdrop : (a :: l).dropWhile (fun ch => decide (ch ∈ ['='])) = a :: l := by
      simp [List.dropWhile_cons, ha]
    have hspan : (a :: l).span (fun c => decide (c ∉ ['='])) = (a :: l, []) :=
      span_all _ _ (fun c hc => by simpa using h c hc)
    unfold strtok
    rw [hdrop]
    simp only
    rw [hspan]

/-- The `local` branch of `execute_builtin` on a line whose parse is
`local <token>`: the two `strtok` calls decide between the error message,
`remove_local_var` and `add_local_var`. -/
theorem execute_builtin_local (fuel : Nat) (sh : SHELL) (cmd token : String)
    (htok : spec_tokens cmd = ["local", token])
    (hplain : token.data.head? ≠ some '$') :
    execute_builtin (fuel + 1) sh cmd =
      match (strtok token.data ['=']).1,
          (strtok (strtok token.data ['=']).2 ['=']).1 with
      | none, _ => printf sh "Error: invalid local variable\n"
      | some name, none =>
        { sh with local_vars := remove_local_var sh.local_vars (String.mk name) }
      | some name, some value =>
        { sh with
          local_vars := (add_local_var sh.local_vars (String.mk name) (String.mk value)).1
          out := sh.out ++ (add_local_var sh.local_vars (String.mk name) (String.mk value)).2 } := by
  obtain ⟨hnum, hout, hargs⟩ := parse_plain sh.getenv sh.local_vars cmd ["local", token] htok
    (by simp) (by
      intro t ht
      simp only [List.mem_cons, List.mem_singleton, List.not_mem_nil, or_false] at ht
      rcases ht with rfl | rfl
      · decide
      · exact hplain)
  have h0 : (parse_single_command sh.getenv sh.local_vars cmd).args 0 = some "local" :=
    hargs 0 (by simp)
  have h1 : (parse_single_command sh.getenv sh.local_vars cmd).args 1 = some token :=
    hargs 1 (by simp)
  have hnum' : (parse_single_command sh.getenv sh.local_vars cmd).num_args = 2 := hnum
  have e0 : ¬ ((some "local" : Option String) = none) := by decide
  have e1 : ¬ ((some "local" : Option String) = some "exit") := by decide
  have e2 : ¬ ((some "local" : Option String) = some "cd") := by decide
  have e3 : ¬ ((some "local" : Option String) = some "export") := by decide
  have e4 : ¬ ((2 : Nat) < 2 ∨ (some token : Option String) = none ∨ (2 : Nat) > 2) := by
    simp
  unfold execute_builtin
  simp only [h0, h1, hnum', hout, e0, e1, e2, e3, e4, if_false, if_true, List.append_nil,
    Option.getD_some]

theorem execute_builtin_vars (fuel : Nat) (sh : SHELL) :
    execute_builtin (fuel + 1) sh "vars\n"
      = { sh with out := sh.out ++ (display_local_vars sh.local_vars).map format_var } := by
  obtain ⟨hnum, hout, hargs⟩ := parse_plain sh.getenv sh.local_vars "vars\n" ["vars"]
    (by decide) (by simp) (by decide)
  have h0 : (parse_single_command sh.getenv sh.local_vars "vars\n").args 0 = some "vars" :=
    hargs 0 (by simp)
  have hnum' : (parse_single_command sh.getenv sh.local_vars "vars\n").num_args = 1 := hnum
  have e0 : ¬ ((some "vars" : Option String) = none) := by decide
  have e1 : ¬ ((some "vars" : Option String) = some "exit") := by decide
  have e2 : ¬ ((some "vars" : Option String) = some "cd") := by decide
  have e3 : ¬ ((some "vars" : Option String) = some "export") := by decide
  have e4 : ¬ ((some "vars" : Option String) = some "local") := by decide
  have e5 : ¬ ((1 : Nat) > 1) := by decide
  unfold execute_builtin
  simp only [h0, hnum', hout, e0, e1, e2, e3, e4, e5, if_false, if_true, List.append_nil]

theorem add_local_var_binds (lv : LOCALVARS) (name value : String)
    (hroom : lv.num_vars < 1024) :
    get_local_var (add_local_var lv name value).1 name = some value ∧
    (some name, some value) ∈ display_local_vars (add_local_var lv name value).1 ∧
    (add_local_var lv name value).2 = [] := by
  cases hfind : find_var lv name with
  | some i =>
    obtain ⟨hi, hname⟩ := find_var_lt hfind
    have hfind' : find_var { lv with var_value := write lv.var_value i (some value) } name
        = some i := hfind
    rw [add_local_var_found lv name value i hfind]
    refine ⟨by simp [get_local_var, hfind', write], ?_, rfl⟩
    simp only [display_local_vars, List.mem_map, List.mem_range]
    exact ⟨i, hi, by simp [hname, write]⟩
  | none =>
    have hge : ¬ lv.num_vars ≥ MAX_LOCAL_VARIABLES := by
      simp only [MAX_LOCAL_VARIABLES]; omega
    have hadd : add_local_var lv name value
        = ({ var_name := write lv.var_name lv.num_vars (some name)
             var_value := write lv.var_value lv.num_vars (some value)
             num_vars := lv.num_vars + 1 }, []) := by
      simp only [add_local_var, hfind, hge, if_false]
    have hfind' : find_var { var_name := write lv.var_name lv.num_vars (some name)
                             var_value := write lv.var_value lv.num_vars (some value)
                             num_vars := lv.num_vars + 1 } name = some lv.num_vars := by
      apply find_var_from_first (Nat.zero_le _) (by simp) (by simp [write])
      intro k _ hk
      have hk' : k < lv.num_vars := hk
      have hne : k ≠ lv.num_vars := by omega
      simpa [write, hne] using find_var_from_none hfind k (Nat.zero_le _) (by omega)
    rw [hadd]
    refine ⟨by simp [get_local_var, hfind', write], ?_, rfl⟩
    simp only [display_local_vars, List.mem_map, List.mem_range]
    exact ⟨lv.num_vars, by omega, by simp [write]⟩

theorem data_ne_nil_of_ne_empty (t : String) (h : t ≠ "") : t.data ≠ [] := by
  intro hd
  apply h
  cases t with
  | mk data =>
    simp only at hd
    subst hd
    rfl

theorem spec_tokens_local_line (token : String) (hne : token ≠ "")
    (hws : ∀ c ∈ token.data, c ≠ ' ' ∧ c ≠ '\t' ∧ c ≠ '\n') :
    spec_tokens ("local " ++ token ++ "\n") = ["local", token] := by
  have hdata : ("local " ++ token ++ "\n").data
      = ['l', 'o', 'c', 'a', 'l'] ++ ' ' :: (token.data ++ '\n' :: []) := by
    simp [String.data_append]
  have hne' := data_ne_nil_of_ne_empty token hne
  unfold spec_tokens
  rw [hdata, List.splitOnP_first _ _ (by decide) ' ' (by decide),
    List.splitOnP_first _ _ (by
      intro c hc
      have := hws c hc
      simp [ARG_DELIMS, this.1, this.2.1, this.2.2]) '\n' (by decide)]
  simp [hne']

/-- The effect of `local name=value` on a line with the two tokens `local` and
`name=value`, for a name and a value without `=`. -/
theorem execute_builtin_local_set (fuel : Nat) (sh : SHELL) (cmd name value : String)
    (htok : spec_tokens cmd = ["local", name ++ "=" ++ value])
    (hname : name ≠ "") (hname_eq : ∀ c ∈ name.data, c ≠ '=')
    (hname_dollar : name.data.head? ≠ some '$')
    (hvalue : value ≠ "") (hvalue_eq : ∀ c ∈ value.data, c ≠ '=') :
    execute_builtin (fuel + 1) sh cmd =
      { sh with
        local_vars := (add_local_var sh.local_vars name value).1
        out := sh.out ++ (add_local_var sh.local_vars name value).2 } := by
  have hdata : (name ++ "=" ++ value).data = name.data ++ '=' :: value.data := by
    simp [String.data_append]
  have hn := data_ne_nil_of_ne_empty name hname
  have hv := data_ne_nil_of_ne_empty value hvalue
  have hplain : (name ++ "=" ++ value).data.head? ≠ some '$' := by
    rw [hdata]
    cases hnd : name.data with
    | nil => exact absurd hnd hn
    | cons a l =>
      rw [hnd] at hname_dollar
      simpa using hname_dollar
  rw [execute_builtin_local fuel sh cmd _ htok hplain, hdata,
    strtok_first _ _ hn hname_eq]
  simp only
  rw [strtok_last _ hv hvalue_eq]

/-! ## Claims about the built-in commands and the main loop -/

/-- C14, as stated, fails for a value that contains `=`: `local X=a=b` binds `X`
to `a`, not to `a=b`, and `vars` then prints `X=a`; and `local X==` (value `=`)
removes `X` instead of setting it. -/
theorem local_value_with_equals_not_kept :
    init_shell.local_vars.num_vars < 1024 ∧
    get_local_var (execute_builtin 1 init_shell "local X=a=b\n").local_vars "X"
      = some "a" ∧
    get_local_var (execute_builtin 1 init_shell "local X=a=b\n").local_vars "X"
      ≠ some "a=b" ∧
    (execute_builtin 1 (execute_builtin 1 init_shell "local X=a=b\n") "vars\n").out
      = ["X=a\n"] ∧
    get_local_var
        (execute_builtin 1 (execute_builtin 1 init_shell "local X=1\n") "local X==\n").local_vars
        "X" = none := by
  refine ⟨by decide, by decide, by decide, by decide, by decide⟩

/-- C14, amended: for every non-empty name containing no `=` or whitespace and
not beginning with `$`, and every non-empty value containing no whitespace and
no `=`, executing `local name=value` on a store below capacity prints nothing
and yields a store in which `name` is bound to exactly `value`, so that `vars`
then prints the line `name=value`. -/
theorem local_sets_variable (fuel : Nat) (sh : SHELL) (name value : String)
    (hname : name ≠ "")
    (hname_ok : ∀ c ∈ name.data, c ≠ '=' ∧ c ≠ ' ' ∧ c ≠ '\t' ∧ c ≠ '\n')
    (hname_dollar : name.data.head? ≠ some '$')
    (hvalue : value ≠ "")
    (hvalue_ok : ∀ c ∈ value.data, c ≠ '=' ∧ c ≠ ' ' ∧ c ≠ '\t' ∧ c ≠ '\n')
    (hroom : sh.local_vars.num_vars < 1024) :
    get_local_var
        (execute_builtin (fuel + 1) sh ("local " ++ name ++ "=" ++ value ++ "\n")).local_vars
        name = some value ∧
    (some name, some value) ∈ display_local_vars
        (execute_builtin (fuel + 1) sh ("local " ++ name ++ "=" ++ value ++ "\n")).local_vars ∧
    (execute_builtin (fuel + 1) sh ("local " ++ name ++ "=" ++ value ++ "\n")).out = sh.out ∧
    (name ++ "=" ++ value ++ "\n") ∈
      (execute_builtin (fuel + 1)
        (execute_builtin (fuel + 1) sh ("local " ++ name ++ "=" ++ value ++ "\n"))
        "vars\n").out := by
  have hcmd : "local " ++ name ++ "=" ++ value ++ "\n"
      = "local " ++ (name ++ "=" ++ value) ++ "\n" := by
    simp [String.append_assoc]
  have htokne : name ++ "=" ++ value ≠ "" := by
    intro h
    have := congrArg String.data h
    simp [String.data_append] at this
  have htokws : ∀ c ∈ (name ++ "=" ++ value).data, c ≠ ' ' ∧ c ≠ '\t' ∧ c ≠ '\n' := by
    intro c hc
    simp only [String.data_append, List.mem_append] at hc
    rcases hc with (hc | hc) | hc
    · exact (hname_ok c hc).2
    · have : c = '=' := by simpa using hc
      subst this
      decide
    · exact (hvalue_ok c hc).2
  have htok := spec_tokens_local_line (name ++ "=" ++ value) htokne htokws
  rw [hcmd, execute_builtin_local_set fuel sh _ name value htok hname
    (fun c hc => (hname_ok c hc).1) hname_dollar hvalue (fun c hc => (hvalue_ok c hc).1),
    execute_builtin_vars]
  obtain ⟨h1, h2, h3⟩ := add_local_var_binds sh.local_vars name value hroom
  refine ⟨h1, h2, by simp [h3], ?_⟩
  simp only [List.mem_append, List.mem_map]
  right
  exact ⟨(some name, some value), h2, rfl⟩

theorem local_sets_variable_witness :
    init_shell.local_vars.num_vars < 1024 ∧
    get_local_var (execute_builtin 1 init_shell ("local " ++ "X" ++ "=" ++ "1" ++ "\n")).local_vars
      "X" = some "1" ∧
    ("X" ++ "=" ++ "1" ++ "\n") ∈
      (execute_builtin 1
        (execute_builtin 1 init_shell ("local " ++ "X" ++ "=" ++ "1" ++ "\n")) "vars\n").out ∧
    (execute_builtin 1 (execute_builtin 1 init_shell "local X=1\n") "vars\n").out
      = ["X=1\n"] :=
  ⟨by decide,
    (local_sets_variable 0 init_shell "X" "1" (by decide) (by decide) (by decide)
      (by decide) (by decide) (by decide)).1,
    (local_sets_variable 0 init_shell "X" "1" (by decide) (by decide) (by decide)
      (by decide) (by decide) (by decide)).2.2.2,
    by decide⟩

theorem spec_tokens_blank (cmd : String)
    (hblank : ∀ c ∈ cmd.data, c = ' ' ∨ c = '\t' ∨ c = '\n') : spec_tokens cmd = [] := by
  unfold spec_tokens
  rw [List.map_eq_nil_iff, List.filter_eq_nil_iff]
  intro piece hp
  cases hpiece : piece with
  | nil => simp
  | cons c rest =>
    exfalso
    obtain ⟨h1, h2⟩ := splitOnP_mem _ cmd.data piece hp c (by rw [hpiece]; simp)
    have h3 := hblank c h2
    simp only [ARG_DELIMS, List.mem_cons, List.mem_singleton, List.not_mem_nil, or_false,
      decide_eq_false_iff_not] at h1
    exact h1 h3

theorem check_pipe_loop_zero (l : List Char) (h : ∀ c ∈ l, c ≠ '|') :
    check_pipe_loop l = 0 := by
  induction l with
  | nil => rfl
  | cons a l ih =>
    have ha := h a (List.mem_cons_self _ _)
    simp only [check_pipe_loop, ha, if_false]
    exact ih (fun c hc => h c (List.mem_cons_of_mem _ hc))

/-- C15: for every line consisting only of spaces, tabs and newlines (the empty
line included), `parse_single_command` returns an argument vector of length 0,
and the loop bodies of `interactive_mode` and `batch_mode` treat the line as a
no-op: batch mode leaves the whole shell state as it was, interactive mode only
prints the next prompt; nothing is started and the history, the variables and
the environment are unchanged. -/
theorem blank_line_is_noop (fuel : Nat) (sh : SHELL) (cmd : String)
    (hblank : ∀ c ∈ cmd.data, c = ' ' ∨ c = '\t' ∨ c = '\n') :
    (parse_single_command sh.getenv sh.local_vars cmd).num_args = 0 ∧
    (parse_single_command sh.getenv sh.local_vars cmd).argv = [] ∧
    batch_body fuel sh cmd = sh ∧
    interactive_body fuel sh cmd = printf sh PROMPT ∧
    (interactive_body fuel sh cmd).history = sh.history ∧
    (interactive_body fuel sh cmd).effects = sh.effects ∧
    (interactive_body fuel sh cmd).local_vars = sh.local_vars := by
  have htok := spec_tokens_blank cmd hblank
  obtain ⟨hnum, hout, -⟩ := parse_plain sh.getenv sh.local_vars cmd [] htok (by simp)
    (by simp)
  have hnum' : (parse_single_command sh.getenv sh.local_vars cmd).num_args = 0 := hnum
  have hpipe : check_pipe_command cmd = 0 := by
    apply check_pipe_loop_zero
    intro c hc
    rcases hblank c hc with h | h | h <;> rw [h] <;> decide
  have hbatch : batch_body fuel sh cmd = sh := by
    simp [batch_body, hpipe, hnum', hout]
  have hinter : interactive_body fuel sh cmd = printf sh PROMPT := by
    simp [interactive_body, hpipe, hnum', hout]
  refine ⟨hnum', ?_, hbatch, hinter, by rw [hinter]; rfl, by rw [hinter]; rfl,
    by rw [hinter]; rfl⟩
  simp [ARGS.argv, view, hnum']

theorem blank_line_is_noop_witness :
    (∀ c ∈ (" \t \n" : String).data, c = ' ' ∨ c = '\t' ∨ c = '\n') ∧
    (parse_single_command init_shell.getenv init_shell.local_vars " \t \n").num_args = 0 ∧
    batch_body 1 init_shell " \t \n" = init_shell ∧
    (interactive_body 1 init_shell " \t \n").out = ["wsh> "] :=
  ⟨by decide,
    (blank_line_is_noop 1 init_shell " \t \n" (by decide)).1,
    (blank_line_is_noop 1 init_shell " \t \n" (by decide)).2.2.1,
    by decide⟩

/-! ## Claims about pipelines and child processes -/

/-- C27: pipe wiring indices in `execute_pipeline`.  For every stage count
`N ≥ 2` and every child index `i` with `0 ≤ i < N`: the index `(i-1)*2` used
for standard input (when `i > 0`) and the index `i*2+1` used for standard output
(when `i < N-1`) lie within `[0, 2(N-1))`; child 0 does not redirect its input
and child `N-1` does not redirect its output; and for every `i < N-1` the write
index of child `i` is the write end (odd slot `2i+1`) and the read index of
child `i+1` is the read end (even slot `2i`) of the same pipe `i`. -/
theorem pipe_wiring (N i : Int) (_hN : 2 ≤ N) (h0 : 0 ≤ i) (hi : i < N) :
    (0 < i → ∃ k, child_stdin_index i = some k ∧ k = (i - 1) * 2 ∧
      0 ≤ k ∧ k < pipe_fds_length N) ∧
    (i < N - 1 → ∃ k, child_stdout_index N i = some k ∧ k = i * 2 + 1 ∧
      0 ≤ k ∧ k < pipe_fds_length N) ∧
    (i = 0 → child_stdin_index i = none) ∧
    (i = N - 1 → child_stdout_index N i = none) ∧
    (i < N - 1 →
      child_stdout_index N i = some (pipe_write_end i) ∧
      child_stdin_index (i + 1) = some (pipe_read_end i) ∧
      pipe_write_end i = 2 * i + 1 ∧ pipe_read_end i = 2 * i ∧
      pipe_write_end i < pipe_fds_length N) := by
  refine ⟨fun hpos => ?_, fun hlast => ?_, fun hz => ?_, fun hl => ?_, fun hlast => ?_⟩
  · refine ⟨(i - 1) * 2, by simp [child_stdin_index, hpos], rfl, by omega, ?_⟩
    simp only [pipe_fds_length]; omega
  · refine ⟨i * 2 + 1, by simp [child_stdout_index, hlast], rfl, by omega, ?_⟩
    simp only [pipe_fds_length]; omega
  · simp [child_stdin_index, hz]
  · simp [child_stdout_index, hl]
  · have h1 : i + 1 > 0 := by omega
    refine ⟨by simp [child_stdout_index, hlast, pipe_write_end], ?_, ?_, ?_, ?_⟩
    · simp [child_stdin_index, h1, pipe_read_end]
    · simp only [pipe_write_end]; omega
    · simp only [pipe_read_end]; omega
    · simp only [pipe_write_end, pipe_fds_length]; omega

theorem pipe_wiring_witness :
    (2 : Int) ≤ 2 ∧ (0 : Int) ≤ 0 ∧ (0 : Int) < 2 ∧
    child_stdout_index 2 0 = some (pipe_write_end 0) ∧
    child_stdin_index (0 + 1) = some (pipe_read_end 0) ∧
    child_stdin_index 0 = none ∧ child_stdout_index 2 1 = none :=
  ⟨by decide, by decide, by decide,
    ((pipe_wiring 2 0 (by decide) (by decide) (by decide)).2.2.2.2 (by decide)).1,
    ((pipe_wiring 2 0 (by decide) (by decide) (by decide)).2.2.2.2 (by decide)).2.1,
    by decide, by decide⟩

/-- C24: the code at the failing input.  When `execvp` fails, the child of
`execute_pipeline` prints the message and returns to the caller of
`execute_pipeline` with its copy of the shell state, whereas the child of
`execute_single_command` terminates with status 1; for the line
`nosuchprog | cat` the child of stage 0 then runs the rest of the loop body of
the shell itself: it records the line in its own history and prints a prompt. -/
theorem pipeline_child_returns_to_shell (sh : SHELL) (commands : Slots) (i : Nat)
    (cmd : String) :
    pipeline_child sh commands i (fun _ => false)
      = ChildOutcome.returned
          (printf { sh with out := sh.out ++
              (parse_single_command sh.getenv sh.local_vars ((commands i).getD "")).out }
            "execvp: No such file or directory\n") ∧
    single_command_child sh cmd (fun _ => false)
      = ChildOutcome.terminated 1
          (sh.out ++ (parse_single_command sh.getenv sh.local_vars cmd).out ++
            ["execvp: No such file or directory\n"]) ∧
    (parse_pipe_command "nosuchprog | cat\n").stages
      = [some "nosuchprog ", some " cat\n"] ∧
    (∃ child, pipeline_child init_shell (parse_pipe_command "nosuchprog | cat\n").commands 0
        (fun _ => false) = ChildOutcome.returned child ∧
      child.out = ["execvp: No such file or directory\n"] ∧
      (printf { child with history := add_history child.history "nosuchprog | cat\n" }
          PROMPT).history.entries = [some "nosuchprog | cat\n"]) := by
  refine ⟨by simp [pipeline_child], by simp [single_command_child], by decide, ?_⟩
  refine ⟨_, rfl, by decide, by decide⟩

set_option maxRecDepth 100000 in
theorem parse_line_of_256_tokens :
    (parse_single_command example_getenv example_local_vars line_of_256_tokens).num_args
      = 256 ∧
    (parse_single_command example_getenv example_local_vars line_of_256_tokens).out
      = ["Error: too many arguments\n"] := by
  decide

/-- C28: the code at the failing input.  On a line of 256 tokens
`parse_single_command` stores 256 arguments, prints its error message and
returns 256, which is not below `MAX_ARGS`: the sentinel written at index 256
is one past the `MAX_ARGS` slots allocated, whereas `parse_pipe_command`
allocates `MAX_ARGS + 1` slots for the same loop. -/
theorem sentinel_does_not_fit :
    (parse_single_command example_getenv example_local_vars line_of_256_tokens).num_args
      = 256 ∧
    (parse_single_command example_getenv example_local_vars line_of_256_tokens).out
      = ["Error: too many arguments\n"] ∧
    ¬ (parse_single_command example_getenv example_local_vars line_of_256_tokens).num_args
      < MAX_ARGS := by
  obtain ⟨h, hout⟩ := parse_line_of_256_tokens
  exact ⟨h, hout, by rw [h]; decide⟩

/-! ## The `history` built-in -/

theorem digitChar_spec : ∀ m, m < 10 →
    (Nat.digitChar m).isDigit = true ∧ (Nat.digitChar m).toNat - 48 = m ∧
    isspace (Nat.digitChar m) = false ∧ Nat.digitChar m ≠ '-' ∧ Nat.digitChar m ≠ '+' := by
  decide

theorem digits_loop_toDigitsCore (fuel n : Nat) (ds : List Char) (hfuel : n < fuel) :
    digits_loop (Nat.toDigitsCore 10 fuel n ds) 0 = digits_loop ds n := by
  induction fuel generalizing n ds with
  | zero => omega
  | succ f ih =>
    obtain ⟨h1, h2, -⟩ := digitChar_spec (n % 10) (Nat.mod_lt _ (by decide))
    unfold Nat.toDigitsCore
    by_cases hq : n / 10 = 0
    · have hn : n % 10 = n := by omega
      simp only [hq, if_true]
      rw [digits_loop, if_pos h1, h2, hn]
      simp
    · simp only [hq, if_false]
      rw [ih (n / 10) _ (by omega), digits_loop, if_pos h1, h2]
      congr 1
      omega

theorem toDigitsCore_head (fuel n : Nat) (ds : List Char) (hfuel : n < fuel) :
    ∃ m rest, m < 10 ∧ Nat.toDigitsCore 10 fuel n ds = Nat.digitChar m :: rest := by
  induction fuel generalizing n ds with
  | zero => omega
  | succ f ih =>
    unfold Nat.toDigitsCore
    by_cases hq : n / 10 = 0
    · simp only [hq, if_true]
      exact ⟨n % 10, ds, Nat.mod_lt _ (by decide), rfl⟩
    · simp only [hq, if_false]
      exact ih (n / 10) _ (by omega)

theorem strtol_digits (m : Nat) (rest : List Char) (hm : m < 10) :
    strtol (Nat.digitChar m :: rest)
      = min (2 ^ 63 - 1 : Int) (digits_loop (Nat.digitChar m :: rest) 0 : Int) := by
  obtain ⟨-, -, h3, h4, h5⟩ := digitChar_spec m hm
  unfold strtol
  rw [List.dropWhile_cons_of_neg (by simp [h3])]
  split
  · rename_i heq
    exact absurd (List.cons.inj heq).1 h4
  · rename_i heq
    exact absurd (List.cons.inj heq).1 h5
  · rfl

/-- On the decimal representation of a number below `2 ^ 31`, `atoi` returns
the number. -/
theorem atoi_toString (n : Nat) (hn : n < 2 ^ 31) : atoi (toString n) = (n : Int) := by
  have hdata : (toString n).data = Nat.toDigitsCore 10 (n + 1) n [] := rfl
  obtain ⟨m, rest, hm, hhead⟩ := toDigitsCore_head (n + 1) n [] (by omega)
  have hval := digits_loop_toDigitsCore (n + 1) n [] (by omega)
  unfold atoi
  rw [hdata, hhead, strtol_digits m rest hm, ← hhead, hval]
  simp only [digits_loop]
  omega

theorem toString_plain (n : Nat) : (toString n).data.head? ≠ some '$' := by
  have hdata : (toString n).data = Nat.toDigitsCore 10 (n + 1) n [] := rfl
  obtain ⟨m, rest, hm, hhead⟩ := toDigitsCore_head (n + 1) n [] (by omega)
  rw [hdata, hhead]
  have : ∀ m, m < 10 → Nat.digitChar m ≠ '$' := by decide
  simpa using this m hm

/-- The `history set <arg>` branch of `execute_builtin` on a line whose parse
is `history set <arg>`. -/
theorem execute_builtin_history_set (fuel : Nat) (sh : SHELL) (cmd arg : String)
    (htok : spec_tokens cmd = ["history", "set", arg])
    (hplain : arg.data.head? ≠ some '$') :
    execute_builtin (fuel + 1) sh cmd =
      if atoi arg < 0 then printf sh "Invalid history size\n"
      else { sh with history := resize_history sh.history (atoi arg).toNat } := by
  obtain ⟨hnum, hout, hargs⟩ := parse_plain sh.getenv sh.local_vars cmd
    ["history", "set", arg] htok (by simp) (by
      intro t ht
      simp only [List.mem_cons, List.mem_singleton, List.not_mem_nil, or_false] at ht
      rcases ht with rfl | rfl | rfl
      · decide
      · decide
      · exact hplain)
  have h0 : (parse_single_command sh.getenv sh.local_vars cmd).args 0 = some "history" :=
    hargs 0 (by simp)
  have h1 : (parse_single_command sh.getenv sh.local_vars cmd).args 1 = some "set" :=
    hargs 1 (by simp)
  have h2 : (parse_single_command sh.getenv sh.local_vars cmd).args 2 = some arg :=
    hargs 2 (by simp)
  have hnum' : (parse_single_command sh.getenv sh.local_vars cmd).num_args = 3 := hnum
  have e0 : ¬ ((some "history" : Option String) = none) := by decide
  have e1 : ¬ ((some "history" : Option String) = some "exit") := by decide
  have e2 : ¬ ((some "history" : Option String) = some "cd") := by decide
  have e3 : ¬ ((some "history" : Option String) = some "export") := by decide
  have e4 : ¬ ((some "history" : Option String) = some "local") := by decide
  have e5 : ¬ ((some "history" : Option String) = some "vars") := by decide
  have e6 : ¬ ((3 : Nat) = 1) := by decide
  have e7 : ¬ ((3 : Nat) = 2) := by decide
  unfold execute_builtin
  simp only [h0, h1, h2, hnum', hout, e0, e1, e2, e3, e4, e5, e6, e7, if_false, if_true,
    List.append_nil, Option.getD_some, and_self]

theorem entries_take_self (h : HISTORY) : h.entries = h.entries.take h.size := by
  rw [List.take_of_length_le]
  simp [HISTORY.entries, view_length]

theorem is_cut_of_self (h : HISTORY) (hs : h.size ≤ h.capacity) : is_cut_of h h :=
  ⟨⟨h.size, entries_take_self h⟩, hs⟩

theorem is_cut_of_free (h : HISTORY) : is_cut_of (free_history h) h :=
  ⟨⟨0, by simp [free_history, HISTORY.entries, view]⟩, by simp [free_history]⟩

theorem is_cut_of_resize (h : HISTORY) (k : Nat) (hs : h.size ≤ h.capacity) :
    is_cut_of (resize_history h k) h :=
  ⟨⟨k, resize_history_entries h k hs⟩, resize_history_size_le h k⟩

theorem execute_builtin_no_new_entry (fuel : Nat) :
    ∀ (sh : SHELL) (cmd : String), sh.history.size ≤ sh.history.capacity →
      is_cut_of (execute_builtin fuel sh cmd).history sh.history := by
  induction fuel with
  | zero =>
    intro sh cmd hs
    exact is_cut_of_self _ hs
  | succ f ih =>
    intro sh cmd hs
    have hself := is_cut_of_self sh.history hs
    unfold execute_builtin
    simp only []
    generalize parse_single_command sh.getenv sh.local_vars cmd = p
    by_cases h0 : p.args 0 = none
    · rw [if_pos h0]
      exact hself
    rw [if_neg h0]
    by_cases h1 : p.args 0 = some "exit"
    · rw [if_pos h1]
      exact is_cut_of_free sh.history
    rw [if_neg h1]
    by_cases h2 : p.args 0 = some "cd"
    · rw [if_pos h2]
      split_ifs <;> exact hself
    rw [if_neg h2]
    by_cases h3 : p.args 0 = some "export"
    · rw [if_pos h3]
      split_ifs
      · exact hself
      · split <;> exact hself
    rw [if_neg h3]
    by_cases h4 : p.args 0 = some "local"
    · rw [if_pos h4]
      split_ifs
      · exact hself
      · split <;> exact hself
    rw [if_neg h4]
    by_cases h5 : p.args 0 = some "vars"
    · rw [if_pos h5]
      split_ifs <;> exact hself
    rw [if_neg h5]
    by_cases h6 : p.args 0 = some "history"
    · rw [if_pos h6]
      by_cases h7 : p.num_args = 1
      · rw [if_pos h7]
        exact hself
      rw [if_neg h7]
      by_cases h8 : p.num_args = 2
      · rw [if_pos h8]
        split
        · exact hself
        · split_ifs
          · exact hself
          · exact hself
          · exact ih _ _ hs
          · exact hself
      rw [if_neg h8]
      split_ifs
      · exact hself
      · exact is_cut_of_resize _ _ hs
      · exact hself
    rw [if_neg h6]
    exact hself

theorem check_pipe_loop_one (l : List Char) (h : '|' ∈ l) : check_pipe_loop l = 1 := by
  induction l with
  | nil => simp at h
  | cons a l ih =>
    by_cases ha : a = '|'
    · simp [check_pipe_loop, ha]
    · simp only [check_pipe_loop, ha, if_false]
      rcases List.mem_cons.mp h with h1 | h1
      · exact absurd h1.symm ha
      · exact ih h1

/-- The `history <arg>` branch of `execute_builtin` on a line whose parse is
`history <arg>`. -/
theorem execute_builtin_history_index (fuel : Nat) (sh : SHELL) (cmd arg : String)
    (htok : spec_tokens cmd = ["history", arg])
    (hplain : arg.data.head? ≠ some '$') :
    execute_builtin (fuel + 1) sh cmd =
      match (get_history sh.history (atoi arg)).2 with
      | none => { sh with out := sh.out ++ (get_history sh.history (atoi arg)).1 }
      | some line =>
        if check_pipe_command line = 1 then
          execute_pipeline
            { sh with out := sh.out ++ (get_history sh.history (atoi arg)).1 ++
                (parse_single_command sh.getenv sh.local_vars line).out } line
        else if check_builtin_command
            ((parse_single_command sh.getenv sh.local_vars line).args 0) = none then
          fault
            { sh with out := sh.out ++ (get_history sh.history (atoi arg)).1 ++
                (parse_single_command sh.getenv sh.local_vars line).out }
        else if check_builtin_command
            ((parse_single_command sh.getenv sh.local_vars line).args 0) = some 1 then
          execute_builtin fuel
            { sh with out := sh.out ++ (get_history sh.history (atoi arg)).1 ++
                (parse_single_command sh.getenv sh.local_vars line).out } line
        else
          execute_single_command
            { sh with out := sh.out ++ (get_history sh.history (atoi arg)).1 ++
                (parse_single_command sh.getenv sh.local_vars line).out } line := by
  obtain ⟨hnum, hout, hargs⟩ := parse_plain sh.getenv sh.local_vars cmd
    ["history", arg] htok (by simp) (by
      intro t ht
      simp only [List.mem_cons, List.mem_singleton, List.not_mem_nil, or_false] at ht
      rcases ht with rfl | rfl
      · decide
      · exact hplain)
  have h0 : (parse_single_command sh.getenv sh.local_vars cmd).args 0 = some "history" :=
    hargs 0 (by simp)
  have h1 : (parse_single_command sh.getenv sh.local_vars cmd).args 1 = some arg :=
    hargs 1 (by simp)
  have hnum' : (parse_single_command sh.getenv sh.local_vars cmd).num_args = 2 := hnum
  have e0 : ¬ ((some "history" : Option String) = none) := by decide
  have e1 : ¬ ((some "history" : Option String) = some "exit") := by decide
  have e2 : ¬ ((some "history" : Option String) = some "cd") := by decide
  have e3 : ¬ ((some "history" : Option String) = some "export") := by decide
  have e4 : ¬ ((some "history" : Option String) = some "local") := by decide
  have e5 : ¬ ((some "history" : Option String) = some "vars") := by decide
  have e6 : ¬ ((2 : Nat) = 1) := by decide
  conv_lhs => unfold execute_builtin
  simp only [h0, h1, hnum', hout, e0, e1, e2, e3, e4, e5, e6, if_false, if_true,
    List.append_nil, Option.getD_some]

/-! ## Claims about the `history` built-in and the recording rule -/

/-- C21: the code at the failing inputs.  `history set abc` and
`history set 3x` are not rejected: in a shell whose history holds two lines,
`history set abc` prints nothing and resizes the history to 0, which drops both
entries, and `history set 3x` prints nothing and resizes it to 3; for the valid
number 4294967296 the history is resized to 0.  The guard of the branch rejects
`history set -1` with `Invalid history size`, and the sibling branch rejects
`history abc` with `Invalid history index`. -/
theorem history_set_accepts_non_numbers :
    example_shell.history.entries = [some "ls | wc\n", some "ls\n"] ∧
    example_shell.history.capacity = 5 ∧
    (execute_builtin 1 example_shell "history set abc\n").out = example_shell.out ∧
    (execute_builtin 1 example_shell "history set abc\n").history.capacity = 0 ∧
    (execute_builtin 1 example_shell "history set abc\n").history.entries = [] ∧
    (execute_builtin 1 example_shell "history set 3x\n").out = example_shell.out ∧
    (execute_builtin 1 example_shell "history set 3x\n").history.capacity = 3 ∧
    (execute_builtin 1 example_shell "history set 4294967296\n").history.capacity = 0 ∧
    (execute_builtin 1 example_shell "history set -1\n").out
      = example_shell.out ++ ["Invalid history size\n"] ∧
    (execute_builtin 1 example_shell "history set -1\n").history.entries
      = example_shell.history.entries ∧
    (execute_builtin 1 example_shell "history abc\n").out
      = example_shell.out ++ ["Invalid history index\n"] := by
  refine ⟨by decide, by decide, by decide, by decide, by decide, by decide, by decide,
    by decide, by decide, by decide, by decide⟩

/-- The guard of `history set <arg>` is the sign of `atoi(arg)`.  For every
argument whose `atoi` value is negative (such as `-1`) the command prints
`Invalid history size` and leaves the history (entries, size, capacity) as it
was; for every other argument it prints nothing and resizes the history to the
`atoi` value; that value is `n` when the argument is the decimal representation
of a number `0 ≤ n < 2^31`. -/
theorem history_set_checks_sign (fuel : Nat) (sh : SHELL) (cmd arg : String)
    (htok : spec_tokens cmd = ["history", "set", arg])
    (hplain : arg.data.head? ≠ some '$') :
    (atoi arg < 0 →
      execute_builtin (fuel + 1) sh cmd = printf sh "Invalid history size\n" ∧
      (execute_builtin (fuel + 1) sh cmd).history = sh.history) ∧
    (0 ≤ atoi arg →
      execute_builtin (fuel + 1) sh cmd
        = { sh with history := resize_history sh.history (atoi arg).toNat } ∧
      (execute_builtin (fuel + 1) sh cmd).out = sh.out) ∧
    (∀ n : Nat, n < 2 ^ 31 → arg = toString n →
      (execute_builtin (fuel + 1) sh cmd).history = resize_history sh.history n ∧
      (execute_builtin (fuel + 1) sh cmd).history.capacity = n) := by
  have h := execute_builtin_history_set fuel sh cmd arg htok hplain
  refine ⟨fun hneg => ?_, fun hpos => ?_, fun n hn harg => ?_⟩
  · rw [h, if_pos hneg]
    exact ⟨rfl, rfl⟩
  · have : ¬ atoi arg < 0 := by omega
    rw [h, if_neg this]
    exact ⟨rfl, rfl⟩
  · have hat : atoi arg = (n : Int) := by rw [harg]; exact atoi_toString n hn
    have : ¬ atoi arg < 0 := by omega
    rw [h, if_neg this, hat]
    exact ⟨rfl, rfl⟩

theorem history_set_checks_sign_witness :
    spec_tokens "history set -1\n" = ["history", "set", "-1"] ∧
    atoi "-1" < 0 ∧
    execute_builtin 1 example_shell "history set -1\n"
      = printf example_shell "Invalid history size\n" ∧
    spec_tokens "history set 1\n" = ["history", "set", "1"] ∧
    (execute_builtin 1 example_shell "history set 1\n").history
      = resize_history example_shell.history 1 ∧
    (resize_history example_shell.history 1).entries = [some "ls | wc\n"] :=
  ⟨by decide, by decide,
    ((history_set_checks_sign 0 example_shell "history set -1\n" "-1" (by decide)
      (by decide)).1 (by decide)).1,
    by decide,
    ((history_set_checks_sign 0 example_shell "history set 1\n" "1" (by decide)
      (by decide)).2.2 1 (by decide) (by decide)).1,
    by decide⟩

/-- C22: re-execution is not recorded.  For every shell state and every valid
index whose stored line dispatches to a pipeline or to an external command (it
holds a `|`, or its first argument is a string that is no built-in name),
executing the built-in `history <index>` starts that pipeline or command and
leaves the history (entries, their order, size and capacity) and the variables
as they were: no entry is added for the re-executed line or for the built-in
itself. -/
theorem history_reexecution_not_recorded (fuel : Nat) (sh : SHELL)
    (cmd arg line : String)
    (htok : spec_tokens cmd = ["history", arg])
    (hplain : arg.data.head? ≠ some '$')
    (h1 : 1 ≤ atoi arg) (h2 : atoi arg ≤ (sh.history.size : Int))
    (hline : sh.history.commands (atoi arg - 1).toNat = some line)
    (hdispatch : check_pipe_command line = 1 ∨
      check_builtin_command ((parse_single_command sh.getenv sh.local_vars line).args 0)
        = some 0) :
    (execute_builtin (fuel + 1) sh cmd).history = sh.history ∧
    (execute_builtin (fuel + 1) sh cmd).local_vars = sh.local_vars ∧
    (execute_builtin (fuel + 1) sh cmd).faulted = sh.faulted ∧
    (check_pipe_command line = 1 →
      (execute_builtin (fuel + 1) sh cmd).effects
        = sh.effects ++ [Effect.pipeline (parse_pipe_command line).stages]) ∧
    (check_pipe_command line ≠ 1 →
      (execute_builtin (fuel + 1) sh cmd).effects
        = sh.effects ++
          [Effect.external (parse_single_command sh.getenv sh.local_vars line).argv]) := by
  have hrange : ¬ (atoi arg < 1 ∨ atoi arg > (sh.history.size : Int)) := by omega
  have hget : get_history sh.history (atoi arg) = ([], some line) := by
    rw [get_history_in_range _ _ hrange, hline]
  rw [execute_builtin_history_index fuel sh cmd arg htok hplain, hget]
  simp only
  by_cases hp : check_pipe_command line = 1
  · rw [if_pos hp]
    exact ⟨rfl, rfl, rfl, fun _ => rfl, fun hne => absurd hp hne⟩
  · rw [if_neg hp]
    have hb : check_builtin_command
        ((parse_single_command sh.getenv sh.local_vars line).args 0) = some 0 := by
      rcases hdispatch with h | h
      · exact absurd h hp
      · exact h
    have hb0 : ¬ check_builtin_command
        ((parse_single_command sh.getenv sh.local_vars line).args 0) = none := by
      rw [hb]
      exact fun h => Option.noConfusion h
    have hb1 : ¬ check_builtin_command
        ((parse_single_command sh.getenv sh.local_vars line).args 0) = some 1 := by
      rw [hb]
      decide
    rw [if_neg hb0, if_neg hb1]
    exact ⟨rfl, rfl, rfl, fun h => absurd h hp, fun _ => rfl⟩

theorem history_reexecution_not_recorded_witness :
    spec_tokens "history 2\n" = ["history", "2"] ∧
    example_shell.history.commands ((atoi "2") - 1).toNat = some "ls\n" ∧
    (execute_builtin 1 example_shell "history 2\n").history = example_shell.history ∧
    (execute_builtin 1 example_shell "history 1\n").history = example_shell.history ∧
    (execute_builtin 1 example_shell "history 1\n").effects
      = example_shell.effects
        ++ [Effect.pipeline (parse_pipe_command "ls | wc\n").stages] :=
  ⟨by decide, by decide,
    (history_reexecution_not_recorded 0 example_shell "history 2\n" "2" "ls\n"
      (by decide) (by decide) (by decide) (by decide) (by decide) (by decide)).1,
    (history_reexecution_not_recorded 0 example_shell "history 1\n" "1" "ls | wc\n"
      (by decide) (by decide) (by decide) (by decide) (by decide) (by decide)).1,
    (history_reexecution_not_recorded 0 example_shell "history 1\n" "1" "ls | wc\n"
      (by decide) (by decide) (by decide) (by decide) (by decide) (by decide)).2.2.2.1
      (by decide)⟩

/-- A stored line can stop being a command: after `local X=true`, the line `$X`
is run and recorded; after `local X=`, it parses to no argument, `args[0]` is
NULL, and `history 1` passes it to `check_builtin_command`: the process faults,
having started nothing and recorded nothing. -/
theorem history_reexecution_of_vanished_command :
    (batch_body 1 (batch_body 1 (batch_body 1 init_shell "local X=true\n") "$X\n")
      "local X=\n").history.entries = [some "$X\n"] ∧
    (parse_single_command
      (batch_body 1 (batch_body 1 (batch_body 1 init_shell "local X=true\n") "$X\n")
        "local X=\n").getenv
      (batch_body 1 (batch_body 1 (batch_body 1 init_shell "local X=true\n") "$X\n")
        "local X=\n").local_vars "$X\n").num_args = 0 ∧
    (execute_builtin 1
      (batch_body 1 (batch_body 1 (batch_body 1 init_shell "local X=true\n") "$X\n")
        "local X=\n") "history 1\n").faulted = true ∧
    (execute_builtin 1
      (batch_body 1 (batch_body 1 (batch_body 1 init_shell "local X=true\n") "$X\n")
        "local X=\n") "history 1\n").effects = [Effect.external [some "true"]] ∧
    (execute_builtin 1
      (batch_body 1 (batch_body 1 (batch_body 1 init_shell "local X=true\n") "$X\n")
        "local X=\n") "history 1\n").history.entries = [some "$X\n"] := by
  decide

/-- C23: recording rule of the main loop, for the loop bodies of
`interactive_mode` and of `batch_mode`.  If the line contains `|`, or if it
parses to a non-empty vector whose first argument is not a built-in name, the
history after the iteration is `add_history` of the prior history with the line
as read (trailing newline included).  If the line parses to a non-empty vector
whose first argument is a built-in name, the loop makes no `add_history` call:
the history is the one left by `execute_builtin`, whose entries are the first
`k` of the prior entries for some `k`, so the line is not among anything
added. -/
theorem recording_rule (fuel : Nat) (sh : SHELL) (cmd : String)
    (hs : sh.history.size ≤ sh.history.capacity) :
    ('|' ∈ cmd.data →
      (interactive_body fuel sh cmd).history = add_history sh.history cmd ∧
      (batch_body fuel sh cmd).history = add_history sh.history cmd) ∧
    ('|' ∉ cmd.data →
      (parse_single_command sh.getenv sh.local_vars cmd).num_args ≠ 0 →
      check_builtin_command ((parse_single_command sh.getenv sh.local_vars cmd).args 0)
        = some 0 →
      (interactive_body fuel sh cmd).history = add_history sh.history cmd ∧
      (batch_body fuel sh cmd).history = add_history sh.history cmd) ∧
    ('|' ∉ cmd.data →
      (parse_single_command sh.getenv sh.local_vars cmd).num_args ≠ 0 →
      check_builtin_command ((parse_single_command sh.getenv sh.local_vars cmd).args 0)
        = some 1 →
      (interactive_body fuel sh cmd).history
        = (execute_builtin fuel
            { sh with out := sh.out ++ (parse_single_command sh.getenv sh.local_vars cmd).out }
            cmd).history ∧
      (batch_body fuel sh cmd).history = (interactive_body fuel sh cmd).history ∧
      (∃ k, (interactive_body fuel sh cmd).history.entries = sh.history.entries.take k) ∧
      (∃ k, (batch_body fuel sh cmd).history.entries = sh.history.entries.take k)) := by
  refine ⟨fun hp => ?_, fun hp hn hb => ?_, fun hp hn hb => ?_⟩
  · have h1 : check_pipe_command cmd = 1 := check_pipe_loop_one _ hp
    simp only [interactive_body, batch_body, h1, if_true]
    exact ⟨rfl, rfl⟩
  · have h1 : ¬ check_pipe_command cmd = 1 := by
      rw [show check_pipe_command cmd = 0 from
        check_pipe_loop_zero _ (fun c hc hcp => hp (hcp ▸ hc))]
      decide
    have hb0 : ¬ ((some 0 : Option Nat) = none) := by decide
    have hb1 : ¬ ((some 0 : Option Nat) = some 1) := by decide
    simp only [interactive_body, batch_body, h1, hn, hb, hb0, hb1, if_false]
    exact ⟨rfl, rfl⟩
  · have h1 : ¬ check_pipe_command cmd = 1 := by
      rw [show check_pipe_command cmd = 0 from
        check_pipe_loop_zero _ (fun c hc hcp => hp (hcp ▸ hc))]
      decide
    have hcut := execute_builtin_no_new_entry fuel
      { sh with out := sh.out ++ (parse_single_command sh.getenv sh.local_vars cmd).out }
      cmd hs
    have hinter : (interactive_body fuel sh cmd).history
        = (execute_builtin fuel
            { sh with out := sh.out ++ (parse_single_command sh.getenv sh.local_vars cmd).out }
            cmd).history := by
      have hb0 : ¬ ((some 1 : Option Nat) = none) := by decide
      simp only [interactive_body, h1, hn, hb, hb0, if_false, if_true]
      split <;> rfl
    have hbatch : (batch_body fuel sh cmd).history
        = (execute_builtin fuel
            { sh with out := sh.out ++ (parse_single_command sh.getenv sh.local_vars cmd).out }
            cmd).history := by
      have hb0 : ¬ ((some 1 : Option Nat) = none) := by decide
      simp only [batch_body, h1, hn, hb, hb0, if_false, if_true]
    refine ⟨hinter, by rw [hbatch, hinter], ?_, ?_⟩
    · rw [hinter]; exact hcut.1
    · rw [hbatch]; exact hcut.1

theorem recording_rule_witness :
    example_shell.history.size ≤ example_shell.history.capacity ∧
    (interactive_body 1 example_shell "cat f | wc\n").history.entries
      = [some "cat f | wc\n", some "ls | wc\n", some "ls\n"] ∧
    (batch_body 1 example_shell "pwd\n").history.entries
      = [some "pwd\n", some "ls | wc\n", some "ls\n"] ∧
    (batch_body 1 example_shell "vars\n").history.entries
      = [some "ls | wc\n", some "ls\n"] :=
  ⟨by decide,
    (congrArg HISTORY.entries
      ((recording_rule 1 example_shell "cat f | wc\n" (by decide)).1 (by decide)).1).trans
      (by decide),
    (congrArg HISTORY.entries
      ((recording_rule 1 example_shell "pwd\n" (by decide)).2.1 (by decide) (by decide)
        (by decide)).2).trans (by decide),
    by decide⟩

theorem strtok_empty_name (l : List Char) (hne : l ≠ []) (h : ∀ c ∈ l, c ≠ '=') :
    strtok ('=' :: l) ['='] = (some l, []) := by
  have hl := strtok_last l hne h
  unfold strtok at hl ⊢
  rw [List.dropWhile_cons_of_pos (by simp)]
  exact hl

theorem strtok_nil : strtok [] ['='] = (none, []) := by
  simp [strtok]

/-- The effect of `local =v` for a non-empty `v` without `=`: the first
`strtok` call skips the leading `=` and returns `v` as the name, the second
returns NULL, so `remove_local_var(v)` is called and nothing is printed. -/
theorem execute_builtin_local_empty_name (fuel : Nat) (sh : SHELL) (cmd v : String)
    (htok : spec_tokens cmd = ["local", "=" ++ v])
    (hv : v ≠ "") (hv_eq : ∀ c ∈ v.data, c ≠ '=') :
    execute_builtin (fuel + 1) sh cmd
      = { sh with local_vars := remove_local_var sh.local_vars v } := by
  have hdata : ("=" ++ v).data = '=' :: v.data := by
    simp [String.data_append]
  have hplain : ("=" ++ v).data.head? ≠ some '$' := by
    rw [hdata, List.head?_cons]
    intro h
    exact absurd (Option.some.inj h) (by decide)
  rw [execute_builtin_local fuel sh cmd _ htok hplain, hdata,
    strtok_empty_name _ (data_ne_nil_of_ne_empty v hv) hv_eq]
  simp only
  rw [strtok_nil]

/-- C25: the code at the failing input.  After `local v=1`, the command
`local =v` prints nothing and removes the variable `v`; in general, for every
non-empty `v` without `=`, `local =v` is executed as `remove_local_var(v)`. -/
theorem local_empty_name_removes_variable :
    display_local_vars (execute_builtin 1 init_shell "local v=1\n").local_vars
      = [(some "v", some "1")] ∧
    (execute_builtin 1 (execute_builtin 1 init_shell "local v=1\n") "local =v\n").out = [] ∧
    display_local_vars
        (execute_builtin 1 (execute_builtin 1 init_shell "local v=1\n")
          "local =v\n").local_vars = [] ∧
    (∀ (fuel : Nat) (sh : SHELL) (cmd v : String),
      spec_tokens cmd = ["local", "=" ++ v] → v ≠ "" → (∀ c ∈ v.data, c ≠ '=') →
      execute_builtin (fuel + 1) sh cmd
        = { sh with local_vars := remove_local_var sh.local_vars v }) := by
  refine ⟨by decide, by decide, by decide, ?_⟩
  intro fuel sh cmd v htok hv hveq
  exact execute_builtin_local_empty_name fuel sh cmd v htok hv hveq

theorem mem_display_history (h : HISTORY) (i : Nat) (line : Option String)
    (h1 : 1 ≤ i) (h2 : i ≤ h.size) :
    (i, line) ∈ display_history h ↔ line = h.commands (i - 1) := by
  simp only [display_history, List.mem_map, List.mem_range, Prod.mk.injEq]
  constructor
  · rintro ⟨a, _, ha1, ha2⟩
    have : a = i - 1 := by omega
    rw [← ha2, this]
  · intro hl
    exact ⟨i - 1, by omega, by omega, hl.symm⟩

/-- C31: listing and lookup agree on indices.  For every history and every `i`
with `1 ≤ i ≤ size`, the line that `display_history` prints with index `i` (its
`i`-th `printf`, the only one with that index) is the line that
`get_history(i)` stores in `*cmd`, and `get_history` prints nothing; so the
command `history i` dispatches the line that `history` lists as `i)`: through
`execute_pipeline` if it holds a `|`, through `execute_builtin` if its first
argument is a built-in name, else through `execute_single_command` (and the
process faults in `check_builtin_command` if the line has no first argument). -/
theorem listing_and_lookup_agree (h : HISTORY) (i : Nat) (h1 : 1 ≤ i) (h2 : i ≤ h.size) :
    (display_history h)[i - 1]? = some (i, (get_history h (i : Int)).2) ∧
    (∀ line, (i, line) ∈ display_history h ↔ line = (get_history h (i : Int)).2) ∧
    (get_history h (i : Int)).1 = [] ∧
    (∀ (fuel : Nat) (sh : SHELL) (cmd line : String),
      sh.history = h → i < 2 ^ 31 → spec_tokens cmd = ["history", toString i] →
      (i, some line) ∈ display_history h →
      execute_builtin (fuel + 1) sh cmd =
        if check_pipe_command line = 1 then
          execute_pipeline
            { sh with out := sh.out ++
                (parse_single_command sh.getenv sh.local_vars line).out } line
        else if check_builtin_command
            ((parse_single_command sh.getenv sh.local_vars line).args 0) = none then
          fault
            { sh with out := sh.out ++
                (parse_single_command sh.getenv sh.local_vars line).out }
        else if check_builtin_command
            ((parse_single_command sh.getenv sh.local_vars line).args 0) = some 1 then
          execute_builtin fuel
            { sh with out := sh.out ++
                (parse_single_command sh.getenv sh.local_vars line).out } line
        else
          execute_single_command
            { sh with out := sh.out ++
                (parse_single_command sh.getenv sh.local_vars line).out } line) := by
  have hrange : ¬ ((i : Int) < 1 ∨ (i : Int) > (h.size : Int)) := by omega
  have hget : get_history h (i : Int) = ([], h.commands (i - 1)) := by
    rw [get_history_in_range h _ hrange]
    congr 2
    omega
  refine ⟨?_, ?_, ?_, ?_⟩
  · rw [hget, display_history_at h (i - 1) (by omega)]
    congr 2
    omega
  · intro line
    rw [hget]
    exact mem_display_history h i line h1 h2
  · rw [hget]
  · intro fuel sh cmd line hsh hi htok hmem
    have hline : h.commands (i - 1) = some line :=
      ((mem_display_history h i (some line) h1 h2).1 hmem).symm
    rw [execute_builtin_history_index fuel sh cmd (toString i) htok (toString_plain i),
      atoi_toString i hi, hsh, hget, hline]
    simp only [List.append_nil]

theorem listing_and_lookup_agree_witness :
    display_history example_shell.history = [(1, some "ls | wc\n"), (2, some "ls\n")] ∧
    (get_history example_shell.history 2).2 = some "ls\n" ∧
    (display_history example_shell.history)[2 - 1]?
      = some (2, (get_history example_shell.history ((2 : Nat) : Int)).2) :=
  ⟨by decide, by decide,
    (listing_and_lookup_agree example_shell.history 2 (by decide) (by decide)).1⟩

theorem memmove_zero (a : Slots) (dst src : Nat) : memmove a dst src 0 = a := by
  funext j
  simp only [memmove]
  rw [if_neg (by omega)]

theorem add_local_var_new (lv : LOCALVARS) (name value : String)
    (hun : find_var lv name = none) (hroom : lv.num_vars < MAX_LOCAL_VARIABLES) :
    add_local_var lv name value =
      ({ var_name := write lv.var_name lv.num_vars (some name)
         var_value := write lv.var_value lv.num_vars (some value)
         num_vars := lv.num_vars + 1 }, []) := by
  unfold add_local_var
  rw [hun]
  simp only
  rw [if_neg (by omega)]

theorem find_var_after_add (lv : LOCALVARS) (name value : String)
    (hun : find_var lv name = none) :
    find_var
      { var_name := write lv.var_name lv.num_vars (some name)
        var_value := write lv.var_value lv.num_vars (some value)
        num_vars := lv.num_vars + 1 } name = some lv.num_vars := by
  unfold find_var at hun ⊢
  have hbefore := find_var_from_none hun
  apply find_var_from_first (Nat.zero_le _) (by simp)
  · simp [write]
  · intro k hk0 hk
    have := hbefore k hk0 (by omega)
    simp only [write]
    rw [if_neg (by omega)]
    exact this

theorem remove_after_add (lv : LOCALVARS) (name value : String)
    (hun : find_var lv name = none) (hroom : lv.num_vars < MAX_LOCAL_VARIABLES) :
    remove_local_var (add_local_var lv name value).1 name =
      { var_name := write lv.var_name lv.num_vars (some name)
        var_value := write lv.var_value lv.num_vars (some value)
        num_vars := lv.num_vars } := by
  rw [add_local_var_new lv name value hun hroom]
  rw [remove_local_var_found _ name lv.num_vars (find_var_after_add lv name value hun)]
  have hz : lv.num_vars + 1 - lv.num_vars - 1 = 0 := by omega
  simp only [hz, memmove_zero, Nat.add_sub_cancel]

theorem view_write_beyond (a : Slots) (n i : Nat) (v : Option String) (hi : n ≤ i) :
    view (write a i v) n = view a n := by
  apply view_congr
  intro j hj
  simp only [write]
  rw [if_neg (by omega)]

theorem remove_local_var_twice (lv : LOCALVARS) (name : String)
    (hd : (view lv.var_name lv.num_vars).Nodup) :
    remove_local_var (remove_local_var lv name) name = remove_local_var lv name := by
  cases hf : find_var lv name with
  | none =>
    rw [remove_local_var_absent lv name hf, remove_local_var_absent lv name hf]
  | some i =>
    obtain ⟨hi, hname⟩ := find_var_lt hf
    rw [remove_local_var_found lv name i hf]
    apply remove_local_var_absent
    apply find_var_unbound
    intro k hk
    simp only at hk ⊢
    simp only [memmove]
    by_cases hki : i ≤ k ∧ k < i + (lv.num_vars - i - 1)
    · rw [if_pos hki]
      intro hk1
      have := view_nodup_inj hd (show i + 1 + (k - i) < lv.num_vars by omega) hi
        (hk1.trans hname.symm)
      omega
    · rw [if_neg hki]
      intro hk1
      have := view_nodup_inj hd (show k < lv.num_vars by omega) hi (hk1.trans hname.symm)
      omega

/-- Without distinct names a second `remove_local_var` removes the next
occurrence: on the store holding `x` twice, one call leaves one variable and two
calls leave none. -/
theorem remove_local_var_twice_duplicates :
    display_local_vars (remove_local_var duplicate_local_vars "x") = [(some "x", some "2")] ∧
    display_local_vars (remove_local_var (remove_local_var duplicate_local_vars "x") "x")
      = [] := by
  decide

/-- C33: set-then-unset round trip.  For every store with pairwise distinct
names that holds fewer than 1024 entries, every name not bound in it and every
value: `add_local_var(name, value)` appends the binding and prints nothing, and
`remove_local_var(name)` applied after it yields a store with the original
count and the original names and values in the original order (the listing of
`display_local_vars` and every `get_local_var` lookup are those of the
original); and `remove_local_var` is idempotent on such a store: applying it
twice with the same name equals applying it once. -/
theorem set_then_unset_round_trip (lv : LOCALVARS) (name value : String)
    (hd : (view lv.var_name lv.num_vars).Nodup)
    (hroom : lv.num_vars < MAX_LOCAL_VARIABLES)
    (hun : ∀ i, i < lv.num_vars → lv.var_name i ≠ some name) :
    (add_local_var lv name value).1.num_vars = lv.num_vars + 1 ∧
    (add_local_var lv name value).2 = [] ∧
    display_local_vars (add_local_var lv name value).1
      = display_local_vars lv ++ [(some name, some value)] ∧
    (remove_local_var (add_local_var lv name value).1 name).num_vars = lv.num_vars ∧
    view (remove_local_var (add_local_var lv name value).1 name).var_name lv.num_vars
      = view lv.var_name lv.num_vars ∧
    view (remove_local_var (add_local_var lv name value).1 name).var_value lv.num_vars
      = view lv.var_value lv.num_vars ∧
    display_local_vars (remove_local_var (add_local_var lv name value).1 name)
      = display_local_vars lv ∧
    (∀ other, get_local_var (remove_local_var (add_local_var lv name value).1 name) other
      = get_local_var lv other) ∧
    (∀ other, remove_local_var (remove_local_var lv other) other
      = remove_local_var lv other) := by
  have hf : find_var lv name = none := find_var_unbound hun
  have hrem := remove_after_add lv name value hf hroom
  have hadd := add_local_var_new lv name value hf hroom
  refine ⟨by rw [hadd], by rw [hadd], ?_, by rw [hrem], ?_, ?_, ?_, ?_, ?_⟩
  · rw [hadd]
    simp only [display_local_vars, List.range_succ, List.map_append, List.map_cons,
      List.map_nil, write, if_true]
    congr 1
    apply List.map_congr_left
    intro j hj
    have hj' : j ≠ lv.num_vars := by
      have := List.mem_range.1 hj
      omega
    rw [if_neg hj', if_neg hj']
  · rw [hrem]
    exact view_write_beyond _ _ _ _ (le_refl _)
  · rw [hrem]
    exact view_write_beyond _ _ _ _ (le_refl _)
  · rw [hrem]
    simp only [display_local_vars]
    apply List.map_congr_left
    intro j hj
    have hj' : j ≠ lv.num_vars := by
      have := List.mem_range.1 hj
      omega
    simp only [write]
    rw [if_neg hj', if_neg hj']
  · intro other
    rw [hrem]
    have hsame : ∀ k, k < lv.num_vars →
        write lv.var_name lv.num_vars (some name) k = lv.var_name k := by
      intro k hk
      simp only [write]
      rw [if_neg (by omega)]
    have hfind : find_var
        { var_name := write lv.var_name lv.num_vars (some name)
          var_value := write lv.var_value lv.num_vars (some value)
          num_vars := lv.num_vars } other = find_var lv other := by
      cases hfo : find_var lv other with
      | none =>
        apply find_var_unbound
        intro k hk
        simp only at hk ⊢
        rw [hsame k hk]
        exact find_var_from_none hfo k (Nat.zero_le _) (by omega)
      | some i =>
        obtain ⟨h1, h2, h3, h4⟩ := find_var_from_some hfo
        unfold find_var
        apply find_var_from_first (Nat.zero_le _) (by simpa using h2)
        · simp only
          rw [hsame i (by omega)]
          exact h3
        · intro k hk0 hk
          simp only
          rw [hsame k (by omega)]
          exact h4 k hk0 hk
    unfold get_local_var
    rw [hfind]
    cases hfo : find_var lv other with
    | none => rfl
    | some i =>
      have hi := (find_var_lt hfo).1
      simp only [write]
      rw [if_neg (by omega)]
  · intro other
    exact remove_local_var_twice lv other hd

theorem set_then_unset_round_trip_witness :
    display_local_vars example_local_vars
      = display_local_vars
          (remove_local_var (add_local_var example_local_vars "fresh" "1").1 "fresh") ∧
    display_local_vars (add_local_var example_local_vars "fresh" "1").1
      = display_local_vars example_local_vars ++ [(some "fresh", some "1")] :=
  ⟨((set_then_unset_round_trip example_local_vars "fresh" "1" (by decide) (by decide)
      (by decide)).2.2.2.2.2.2.1).symm,
    (set_then_unset_round_trip example_local_vars "fresh" "1" (by decide) (by decide)
      (by decide)).2.2.1⟩

theorem pipe_loop_le (fuel : Nat) (s : Option (List Char)) (a : Slots) (n : Nat) :
    n ≤ (pipe_loop fuel s a n).num_commands := by
  induction fuel generalizing s a n with
  | zero => simp [pipe_loop]
  | succ f ih =>
    unfold pipe_loop
    cases hsep : strsep s PIPE_DELIMS with
    | mk tok rest =>
      cases tok with
      | none => simp
      | some token =>
        simp only
        by_cases htok : token.length > 0
        · simp only [htok, if_true]
          by_cases hn : n + 1 ≥ MAX_ARGS
          · rw [if_pos hn]
            simp
          · rw [if_neg hn]
            exact le_trans (Nat.le_succ n) (ih _ _ _)
        · simp only [htok, if_false]
          by_cases hn : n ≥ MAX_ARGS
          · rw [if_pos hn]
          · rw [if_neg hn]
            exact ih _ _ _

theorem span_split (s : List Char) (q : Char → Bool) (token rest : List Char)
    (h : s.span q = (token, rest)) : s = token ++ rest := by
  rw [List.span_eq_take_drop] at h
  simp only [Prod.mk.injEq] at h
  rw [← h.1, ← h.2, List.takeWhile_append_dropWhile]

/-- A line that holds a character other than `|` has at least one stage. -/
theorem pipe_loop_pos (fuel : Nat) (s : List Char) (a : Slots) (n : Nat)
    (hfuel : s.length < fuel) (hn : n < MAX_ARGS) (hs : ∃ c ∈ s, c ≠ '|') :
    n + 1 ≤ (pipe_loop fuel (some s) a n).num_commands := by
  induction fuel generalizing s a n with
  | zero => omega
  | succ f ih =>
    unfold pipe_loop
    simp only [strsep]
    cases hspan : s.span (fun ch => decide (ch ∉ PIPE_DELIMS)) with
    | mk token rest =>
      have hsplit := span_split s _ token rest hspan
      cases rest with
      | nil =>
        simp only
        have htok : token.length > 0 := by
          obtain ⟨c, hc, _⟩ := hs
          rw [hsplit, List.append_nil] at hc
          exact List.length_pos_of_mem hc
        simp only [htok, if_true]
        by_cases hn1 : n + 1 ≥ MAX_ARGS
        · rw [if_pos hn1]
        · rw [if_neg hn1, pipe_loop_none]
      | cons d rest =>
        simp only
        have hlen := span_length s _ token rest d hspan
        by_cases htok : token.length > 0
        · simp only [htok, if_true]
          by_cases hn1 : n + 1 ≥ MAX_ARGS
          · rw [if_pos hn1]
          · rw [if_neg hn1]
            exact pipe_loop_le _ _ _ _
        · simp only [htok, if_false]
          rw [if_neg (by omega)]
          have htnil : token = [] := List.length_eq_zero.1 (by omega)
          rw [htnil, List.nil_append] at hsplit
          have hd : d = '|' := by
            have h1 := List.head_dropWhile_not (fun ch => decide (ch ∉ PIPE_DELIMS)) s
            rw [List.span_eq_take_drop] at hspan
            simp only [Prod.mk.injEq] at hspan
            have h2 := h1 (by rw [hspan.2]; simp)
            simp only [hspan.2, List.head_cons] at h2
            simpa [PIPE_DELIMS] using h2
          apply ih rest a n (by omega) hn
          obtain ⟨c, hc, hne⟩ := hs
          rw [hsplit] at hc
          rcases List.mem_cons.1 hc with h | h
          · exact absurd (h.trans hd) hne
          · exact ⟨c, h, hne⟩

/-- A line made only of `|` characters has no stage. -/
theorem pipe_loop_only_pipes (s : List Char) (fuel : Nat) (a : Slots) (n : Nat)
    (hn : n < MAX_ARGS) (hs : ∀ c ∈ s, c = '|') :
    (pipe_loop fuel (some s) a n).num_commands = n := by
  induction s generalizing fuel with
  | nil =>
    cases fuel with
    | zero => simp [pipe_loop]
    | succ f =>
      unfold pipe_loop
      have hspan : ([] : List Char).span (fun ch => decide (ch ∉ PIPE_DELIMS))
          = ([], []) := rfl
      have hn0 : ¬ n ≥ MAX_ARGS := by omega
      simp only [strsep, hspan, List.length_nil, gt_iff_lt, lt_self_iff_false, if_false]
      rw [if_neg hn0, pipe_loop_none]
  | cons d rest ih =>
    have hd : d = '|' := hs d (List.mem_cons_self _ _)
    subst hd
    cases fuel with
    | zero => simp [pipe_loop]
    | succ f =>
      unfold pipe_loop
      have hspan : ('|' :: rest).span (fun ch => decide (ch ∉ PIPE_DELIMS))
          = ([], '|' :: rest) := by
        rw [List.span_eq_take_drop]
        simp [List.takeWhile_cons, List.dropWhile_cons, PIPE_DELIMS]
      have hn0 : ¬ n ≥ MAX_ARGS := by omega
      simp only [strsep, hspan, List.length_nil, gt_iff_lt, lt_self_iff_false, if_false]
      rw [if_neg hn0]
      exact ih f (fun c hc => hs c (List.mem_cons_of_mem _ hc))

/-- The stage count of `parse_pipe_command` is 0 exactly on the lines made only
of `|` characters (the empty line included). -/
theorem parse_pipe_command_zero_iff (cmd : String) :
    (parse_pipe_command cmd).num_commands = 0 ↔ ∀ c ∈ cmd.data, c = '|' := by
  unfold parse_pipe_command
  constructor
  · intro h0
    by_contra hne
    push_neg at hne
    have := pipe_loop_pos (cmd.data.length + 1) cmd.data (fun _ => none) 0 (by omega)
      (by decide) hne
    omega
  · intro hs
    exact pipe_loop_only_pipes cmd.data _ _ 0 (by decide) hs

/-- C32: the code at the failing input.  The line `|` (as `getline` returns it
for a last line without a newline) passes `check_pipe_command`, and
`parse_pipe_command` returns 0 stages for it, so the length
`2 * (num_commands - 1)` of `pipe_fds` is -2; the loop body of `batch_mode`
calls `execute_pipeline` on it.  In general a line with a `|` has no stage
exactly if all its characters are `|`, and at least one stage otherwise. -/
theorem pipeline_without_stages :
    check_pipe_command "|" = 1 ∧
    (parse_pipe_command "|").num_commands = 0 ∧
    pipe_fds_length ((parse_pipe_command "|").num_commands : Int) = -2 ∧
    (batch_body 1 init_shell "|").effects = [Effect.pipeline []] ∧
    (parse_pipe_command "|\n").num_commands = 1 ∧
    (∀ cmd : String, check_pipe_command cmd = 1 →
      ((parse_pipe_command cmd).num_commands = 0 ↔ ∀ c ∈ cmd.data, c = '|') ∧
      ((∃ c ∈ cmd.data, c ≠ '|') → 1 ≤ (parse_pipe_command cmd).num_commands)) := by
  refine ⟨by decide, by decide, by decide, by decide, by decide, ?_⟩
  intro cmd _
  refine ⟨parse_pipe_command_zero_iff cmd, fun hne => ?_⟩
  have h0 : ¬ (parse_pipe_command cmd).num_commands = 0 := by
    rw [parse_pipe_command_zero_iff]
    push_neg
    exact hne
  omega

end Wsh

namespace MADCounter

/-! ## Facts about `strcmp` -/

theorem char_eq_of_toNat_eq {a b : Char} (h : a.toNat = b.toNat) : a = b := by
  rw [← Char.ofNat_toNat a, ← Char.ofNat_toNat b, h]

theorem strcmp_chars_eq_zero (a b : List Char) : strcmp_chars a b = 0 ↔ a = b := by
  induction a generalizing b with
  | nil => cases b <;> simp [strcmp_chars]
  | cons x xs ih =>
    cases b with
    | nil => simp [strcmp_chars]
    | cons y ys =>
      simp only [strcmp_chars]
      by_cases h1 : x.toNat < y.toNat
      · have : x ≠ y := fun h => by rw [h] at h1; omega
        simp [h1, this]
      · by_cases h2 : y.toNat < x.toNat
        · have : x ≠ y := fun h => by rw [h] at h2; omega
          simp [h1, h2, this]
        · have hxy : x = y := char_eq_of_toNat_eq (by omega)
          simp [h1, h2, hxy, ih]

theorem strcmp_chars_swap (a b : List Char) : strcmp_chars b a = - strcmp_chars a b := by
  induction a generalizing b with
  | nil => cases b <;> simp [strcmp_chars]
  | cons x xs ih =>
    cases b with
    | nil => simp [strcmp_chars]
    | cons y ys =>
      simp only [strcmp_chars]
      by_cases h1 : x.toNat < y.toNat
      · have h2 : ¬ y.toNat < x.toNat := by omega
        simp [h1, h2]
      · by_cases h2 : y.toNat < x.toNat
        · simp [h1, h2]
        · simp [h1, h2, ih]

theorem strcmp_chars_trans (a b c : List Char)
    (h1 : strcmp_chars a b < 0) (h2 : strcmp_chars b c < 0) : strcmp_chars a c < 0 := by
  induction a generalizing b c with
  | nil =>
    cases c with
    | nil => cases b <;> simp [strcmp_chars] at h1 h2
    | cons z zs => simp [strcmp_chars]
  | cons x xs ih =>
    cases b with
    | nil => simp [strcmp_chars] at h1
    | cons y ys =>
      cases c with
      | nil => simp [strcmp_chars] at h2
      | cons z zs =>
        simp only [strcmp_chars] at h1 h2 ⊢
        by_cases hxy : x.toNat < y.toNat
        · by_cases hyz : y.toNat < z.toNat
          · have : x.toNat < z.toNat := by omega
            simp [this]
          · by_cases hzy : z.toNat < y.toNat
            · simp [hyz, hzy] at h2
            · have : x.toNat < z.toNat := by omega
              simp [this]
        · by_cases hyx : y.toNat < x.toNat
          · simp [hxy, hyx] at h1
          · simp only [hxy, hyx, if_false] at h1
            by_cases hyz : y.toNat < z.toNat
            · have : x.toNat < z.toNat := by omega
              simp [this]
            · by_cases hzy : z.toNat < y.toNat
              · simp [hyz, hzy] at h2
              · simp only [hyz, hzy, if_false] at h2
                have e1 : ¬ x.toNat < z.toNat := by omega
                have e2 : ¬ z.toNat < x.toNat := by omega
                simp only [e1, e2, if_false]
                exact ih ys zs h1 h2

theorem strcmp_eq_zero (a b : String) : strcmp a b = 0 ↔ a = b := by
  unfold strcmp
  rw [strcmp_chars_eq_zero]
  constructor
  · intro h
    cases a; cases b
    simp only at h
    rw [h]
  · intro h
    rw [h]

theorem strcmp_swap (a b : String) : strcmp b a = - strcmp a b :=
  strcmp_chars_swap a.data b.data

theorem strcmp_trans {a b c : String} (h1 : strcmp a b < 0) (h2 : strcmp b c < 0) :
    strcmp a c < 0 :=
  strcmp_chars_trans a.data b.data c.data h1 h2

theorem strcmp_self (a : String) : strcmp a a = 0 := (strcmp_eq_zero a a).2 rfl

theorem max_eq (a b : Int) : max a b = Max.max a b := by
  unfold max
  split <;> omega

/-! ## In-order listing, rotations and the sorted listing -/

theorem inOrder_rightRotate (y : WORD) : inOrder (rightRotate y) = inOrder y := by
  unfold rightRotate
  split
  · simp [inOrder]
  · rfl

theorem inOrder_leftRotate (x : WORD) : inOrder (leftRotate x) = inOrder x := by
  unfold leftRotate
  split
  · simp [inOrder]
  · rfl

theorem inOrder_rebalance (c : String) (n f p h : Int) (l r : WORD) (word : String) :
    inOrder (rebalance (WORD.node c n f p h l r) word)
      = inOrder l ++ (c, f, p) :: inOrder r := by
  unfold rebalance
  simp only
  split_ifs
  · rw [inOrder_rightRotate]; simp [inOrder]
  · rw [inOrder_leftRotate]; simp [inOrder]
  · rw [inOrder_rightRotate]; simp [inOrder, inOrder_leftRotate]
  · rw [inOrder_leftRotate]; simp [inOrder, inOrder_rightRotate]
  · simp [inOrder]

theorem strcmp_pos_iff (a b : String) : strcmp a b > 0 ↔ strcmp b a < 0 := by
  rw [strcmp_swap a b]
  omega

theorem upsert_append_lt (L R : List (String × Int × Int)) (c : String) (f p : Int)
    (w : String) (n : Int) (h : strcmp w c < 0) :
    upsert (L ++ (c, f, p) :: R) w n = upsert L w n ++ (c, f, p) :: R := by
  induction L with
  | nil => simp [upsert, h]
  | cons e L ih =>
    obtain ⟨ec, ef, ep⟩ := e
    simp only [List.cons_append, upsert]
    split_ifs
    · rfl
    · exact congrArg (List.cons (ec, ef, ep)) ih
    · rfl

theorem upsert_append_gt (L R : List (String × Int × Int)) (c : String) (f p : Int)
    (w : String) (n : Int) (hL : ∀ e ∈ L, strcmp e.1 w < 0) (h : strcmp w c > 0) :
    upsert (L ++ (c, f, p) :: R) w n = L ++ (c, f, p) :: upsert R w n := by
  induction L with
  | nil =>
    have : ¬ strcmp w c < 0 := by omega
    simp [upsert, this, h]
  | cons e L ih =>
    obtain ⟨ec, ef, ep⟩ := e
    have he : strcmp ec w < 0 := hL (ec, ef, ep) (List.mem_cons_self _ _)
    have h1 : strcmp w ec > 0 := (strcmp_pos_iff w ec).2 he
    have h2 : ¬ strcmp w ec < 0 := by omega
    simp only [List.cons_append, upsert, h1, h2, if_true, if_false]
    exact congrArg (List.cons (ec, ef, ep))
      (ih (fun e he => hL e (List.mem_cons_of_mem _ he)))

theorem upsert_append_eq (L R : List (String × Int × Int)) (c : String) (f p : Int)
    (w : String) (n : Int) (hL : ∀ e ∈ L, strcmp e.1 w < 0)
    (h1 : ¬ strcmp w c < 0) (h2 : ¬ strcmp w c > 0) :
    upsert (L ++ (c, f, p) :: R) w n = L ++ (c, f + 1, p) :: R := by
  induction L with
  | nil => simp [upsert, h1, h2]
  | cons e L ih =>
    obtain ⟨ec, ef, ep⟩ := e
    have he : strcmp ec w < 0 := hL (ec, ef, ep) (List.mem_cons_self _ _)
    have h3 : strcmp w ec > 0 := (strcmp_pos_iff w ec).2 he
    have h4 : ¬ strcmp w ec < 0 := by omega
    simp only [List.cons_append, upsert, h3, h4, if_true, if_false]
    exact congrArg (List.cons (ec, ef, ep))
      (ih (fun e he => hL e (List.mem_cons_of_mem _ he)))

theorem ascending_node {c : String} {n f p h : Int} {l r : WORD}
    (hasc : ascending (words_of (WORD.node c n f p h l r))) :
    ascending (words_of l) ∧ ascending (words_of r) ∧
    (∀ e ∈ inOrder l, strcmp e.1 c < 0) ∧ (∀ e ∈ inOrder r, strcmp c e.1 < 0) ∧
    (∀ a ∈ inOrder l, ∀ b ∈ inOrder r, strcmp a.1 b.1 < 0) := by
  simp only [ascending, words_of, inOrder, List.map_append, List.map_cons] at hasc ⊢
  rw [List.pairwise_append] at hasc
  obtain ⟨h1, h2, h3⟩ := hasc
  rw [List.pairwise_cons] at h2
  refine ⟨h1, h2.2, ?_, ?_, ?_⟩
  · intro e he
    exact h3 e.1 (List.mem_map_of_mem _ he) c (List.mem_cons_self _ _)
  · intro e he
    exact h2.1 e.1 (List.mem_map_of_mem _ he)
  · intro a ha b hb
    exact h3 a.1 (List.mem_map_of_mem _ ha) b.1
      (List.mem_cons_of_mem _ (List.mem_map_of_mem _ hb))

theorem mem_words_of {t : WORD} {w : String} :
    w ∈ words_of t ↔ ∃ e ∈ inOrder t, e.1 = w := by
  simp [words_of]

/-- On a tree with ascending in-order listing, `insert` acts on the listing as
`upsert`, and increments the counter exactly when the word is not yet listed. -/
theorem insert_spec (t : WORD) (w : String) (pos u : Int)
    (hasc : ascending (words_of t)) :
    inOrder (insert t w pos u).1 = upsert (inOrder t) w pos ∧
    (insert t w pos u).2 = u + (if w ∈ words_of t then 0 else 1) := by
  induction t with
  | null => simp [insert, newNode, inOrder, upsert, words_of]
  | node c n f p h l r ihl ihr =>
    obtain ⟨hl, hr, hlc, hcr, -⟩ := ascending_node hasc
    have hwords : ∀ x, x ∈ words_of (WORD.node c n f p h l r)
        ↔ x ∈ words_of l ∨ x = c ∨ x ∈ words_of r := by
      intro x
      simp only [words_of, inOrder, List.map_append, List.map_cons, List.mem_append,
        List.mem_cons]
    unfold insert
    by_cases h1 : strcmp w c < 0
    · simp only [h1, if_true]
      obtain ⟨ih1, ih2⟩ := ihl hl
      rw [inOrder_rebalance, ih1, ih2]
      refine ⟨by simp only [inOrder]; rw [upsert_append_lt _ _ _ _ _ _ _ h1], ?_⟩
      have hne : w ≠ c := fun h => by rw [h, strcmp_self] at h1; omega
      have hnr : w ∉ words_of r := by
        intro hm
        obtain ⟨e, he, hew⟩ := mem_words_of.1 hm
        have := strcmp_trans h1 (hcr e he)
        rw [hew, strcmp_self] at this
        omega
      have : (w ∈ words_of (WORD.node c n f p h l r)) ↔ (w ∈ words_of l) := by
        rw [hwords]
        constructor
        · rintro (h | h | h)
          · exact h
          · exact absurd h hne
          · exact absurd h hnr
        · exact Or.inl
      simp only [this]
    · simp only [h1, if_false]
      by_cases h2 : strcmp w c > 0
      · simp only [h2, if_true]
        obtain ⟨ih1, ih2⟩ := ihr hr
        have hcw : strcmp c w < 0 := (strcmp_pos_iff w c).1 h2
        have hL : ∀ e ∈ inOrder l, strcmp e.1 w < 0 := fun e he =>
          strcmp_trans (hlc e he) hcw
        rw [inOrder_rebalance, ih1, ih2]
        refine ⟨by simp only [inOrder]; rw [upsert_append_gt _ _ _ _ _ _ _ hL h2], ?_⟩
        have hne : w ≠ c := fun h => by rw [h, strcmp_self] at h2; omega
        have hnl : w ∉ words_of l := by
          intro hm
          obtain ⟨e, he, hew⟩ := mem_words_of.1 hm
          have := hL e he
          rw [hew, strcmp_self] at this
          omega
        have : (w ∈ words_of (WORD.node c n f p h l r)) ↔ (w ∈ words_of r) := by
          rw [hwords]
          constructor
          · rintro (h | h | h)
            · exact absurd h hnl
            · exact absurd h hne
            · exact h
          · exact fun h => Or.inr (Or.inr h)
        simp only [this]
      · simp only [h2, if_false]
        have hwc : w = c := (strcmp_eq_zero w c).1 (by omega)
        have hL : ∀ e ∈ inOrder l, strcmp e.1 w < 0 := fun e he => by
          rw [hwc]; exact hlc e he
        refine ⟨by simp only [inOrder]; rw [upsert_append_eq _ _ _ _ _ _ _ hL h1 h2], ?_⟩
        have : w ∈ words_of (WORD.node c n f p h l r) := (hwords w).2 (Or.inr (Or.inl hwc))
        simp [this]

theorem mem_upsert_words (L : List (String × Int × Int)) (w : String) (n : Int)
    (x : String) :
    x ∈ (upsert L w n).map (fun e => e.1) ↔ x ∈ L.map (fun e => e.1) ∨ x = w := by
  induction L with
  | nil => simp [upsert]
  | cons e L ih =>
    obtain ⟨c, f, p⟩ := e
    simp only [upsert]
    split_ifs with h1 h2
    · simp only [List.map_cons, List.mem_cons]
      tauto
    · simp only [List.map_cons, List.mem_cons, ih]
      tauto
    · have hwc : w = c := (strcmp_eq_zero w c).1 (by omega)
      simp only [List.map_cons, List.mem_cons, hwc]
      tauto

theorem upsert_ascending (L : List (String × Int × Int)) (w : String) (n : Int)
    (hasc : ascending (L.map (fun e => e.1))) :
    ascending ((upsert L w n).map (fun e => e.1)) := by
  induction L with
  | nil => simp [upsert, ascending]
  | cons e L ih =>
    obtain ⟨c, f, p⟩ := e
    simp only [ascending, List.map_cons, List.pairwise_cons] at hasc
    obtain ⟨hc, hL⟩ := hasc
    simp only [upsert]
    split_ifs with h1 h2
    · simp only [ascending, List.map_cons, List.pairwise_cons, List.mem_cons]
      refine ⟨?_, hc, hL⟩
      rintro x (hx | hx)
      · rw [hx]; exact h1
      · exact strcmp_trans h1 (hc x hx)
    · simp only [ascending, List.map_cons, List.pairwise_cons]
      refine ⟨?_, ih hL⟩
      intro x hx
      rcases (mem_upsert_words L w n x).1 hx with hx | hx
      · exact hc x hx
      · rw [hx]; exact (strcmp_pos_iff w c).1 h2
    · simp only [ascending, List.map_cons, List.pairwise_cons]
      exact ⟨hc, hL⟩

theorem mem_upsert (L : List (String × Int × Int)) (w : String) (n : Int)
    (hasc : ascending (L.map (fun e => e.1))) (e : String × Int × Int)
    (he : e ∈ upsert L w n) :
    (e ∈ L ∧ e.1 ≠ w) ∨ (e = (w, 1, n) ∧ w ∉ L.map (fun e => e.1)) ∨
    (∃ f p, (w, f, p) ∈ L ∧ e = (w, f + 1, p)) := by
  induction L with
  | nil =>
    simp only [upsert, List.mem_singleton] at he
    exact Or.inr (Or.inl ⟨he, by simp⟩)
  | cons e0 L ih =>
    obtain ⟨c, f, p⟩ := e0
    simp only [ascending, List.map_cons, List.pairwise_cons] at hasc
    obtain ⟨hc, hL⟩ := hasc
    have hne_of_lt : ∀ a b : String, strcmp a b < 0 → a ≠ b := by
      intro a b hab h
      rw [h, strcmp_self] at hab
      omega
    simp only [upsert] at he
    split_ifs at he with h1 h2
    · rcases List.mem_cons.mp he with he | he
      · refine Or.inr (Or.inl ⟨he, ?_⟩)
        simp only [List.map_cons, List.mem_cons, not_or]
        refine ⟨hne_of_lt w c h1, fun hm => ?_⟩
        exact hne_of_lt w w (strcmp_trans h1 (hc w hm)) rfl
      · refine Or.inl ⟨he, ?_⟩
        rcases List.mem_cons.mp he with he | he
        · rw [he]; exact (hne_of_lt w c h1).symm
        · intro hew
          have := hc e.1 (List.mem_map_of_mem _ he)
          rw [hew] at this
          exact hne_of_lt w w (strcmp_trans h1 this) rfl
    · have hcw : strcmp c w < 0 := (strcmp_pos_iff w c).1 h2
      rcases List.mem_cons.mp he with he | he
      · refine Or.inl ⟨by rw [he]; exact List.mem_cons_self _ _, ?_⟩
        rw [he]; exact hne_of_lt c w hcw
      · rcases ih hL he with h | h | h
        · exact Or.inl ⟨List.mem_cons_of_mem _ h.1, h.2⟩
        · refine Or.inr (Or.inl ⟨h.1, ?_⟩)
          simp only [List.map_cons, List.mem_cons, not_or]
          exact ⟨(hne_of_lt c w hcw).symm, h.2⟩
        · obtain ⟨f', p', hm, heq⟩ := h
          exact Or.inr (Or.inr ⟨f', p', List.mem_cons_of_mem _ hm, heq⟩)
    · have hwc : w = c := (strcmp_eq_zero w c).1 (by omega)
      rcases List.mem_cons.mp he with he | he
      · refine Or.inr (Or.inr ⟨f, p, ?_, ?_⟩)
        · rw [hwc]; exact List.mem_cons_self _ _
        · rw [he, hwc]
      · refine Or.inl ⟨List.mem_cons_of_mem _ he, ?_⟩
        intro hew
        have := hc e.1 (List.mem_map_of_mem _ he)
        rw [hew, hwc, strcmp_self] at this
        omega

theorem length_upsert (L : List (String × Int × Int)) (w : String) (n : Int)
    (hasc : ascending (L.map (fun e => e.1))) :
    ((upsert L w n).length : Int)
      = L.length + (if w ∈ L.map (fun e => e.1) then 0 else 1) := by
  induction L with
  | nil => simp [upsert]
  | cons e L ih =>
    obtain ⟨c, f, p⟩ := e
    simp only [ascending, List.map_cons, List.pairwise_cons] at hasc
    obtain ⟨hc, hL⟩ := hasc
    have hne_of_lt : ∀ a b : String, strcmp a b < 0 → a ≠ b := by
      intro a b hab h
      rw [h, strcmp_self] at hab
      omega
    simp only [upsert]
    by_cases h1 : strcmp w c < 0
    · have hnot : w ∉ List.map (fun e => e.1) ((c, f, p) :: L) := by
        simp only [List.map_cons, List.mem_cons, not_or]
        exact ⟨hne_of_lt w c h1, fun hm =>
          hne_of_lt w w (strcmp_trans h1 (hc w hm)) rfl⟩
      rw [if_pos h1, if_neg hnot]
      simp only [List.length_cons]
      omega
    · rw [if_neg h1]
      by_cases h2 : strcmp w c > 0
      · have hcw : strcmp c w < 0 := (strcmp_pos_iff w c).1 h2
        have ih' := ih hL
        rw [if_pos h2]
        by_cases hm : w ∈ List.map (fun e => e.1) L
        · have hm' : w ∈ List.map (fun e => e.1) ((c, f, p) :: L) := by
            simp only [List.map_cons, List.mem_cons]
            exact Or.inr hm
          rw [if_pos hm] at ih'
          rw [if_pos hm']
          simp only [List.length_cons]
          omega
        · have hm' : w ∉ List.map (fun e => e.1) ((c, f, p) :: L) := by
            simp only [List.map_cons, List.mem_cons, not_or]
            exact ⟨(hne_of_lt c w hcw).symm, hm⟩
          rw [if_neg hm] at ih'
          rw [if_neg hm']
          simp only [List.length_cons]
          omega
      · have hwc : w = c := (strcmp_eq_zero w c).1 (by omega)
        have hmem : w ∈ List.map (fun e => e.1) ((c, f, p) :: L) := by
          simp [hwc]
        rw [if_neg h2, if_pos hmem]
        simp

/-! ## Claims about the word store: order and statistics -/

/-- C29: search-tree order is preserved by `insert`.  For every tree whose
in-order traversal is strictly ascending under `strcmp` and every word, the
tree returned by `insert` (rotations included) has a strictly ascending
in-order traversal whose words are the old words plus the inserted word; and
`rightRotate` and `leftRotate` leave the in-order sequence of every tree
unchanged. -/
theorem insert_keeps_order (t : WORD) (w : String) (pos u : Int)
    (hasc : ascending (words_of t)) :
    ascending (words_of (insert t w pos u).1) ∧
    (∀ x, x ∈ words_of (insert t w pos u).1 ↔ x ∈ words_of t ∨ x = w) ∧
    (∀ y, inOrder (rightRotate y) = inOrder y) ∧
    (∀ x, inOrder (leftRotate x) = inOrder x) := by
  have h := (insert_spec t w pos u hasc).1
  refine ⟨?_, ?_, inOrder_rightRotate, inOrder_leftRotate⟩
  · unfold words_of
    rw [h]
    exact upsert_ascending _ _ _ hasc
  · intro x
    unfold words_of
    rw [h]
    exact mem_upsert_words _ _ _ x

theorem insert_keeps_order_witness :
    ascending (words_of (trackWords ["c", "b", "a"]).root) ∧
    words_of (trackWords ["c", "b", "a"]).root = ["a", "b", "c"] ∧
    ascending (words_of (insert (trackWords ["c", "b", "a"]).root "ab" 3 3).1) ∧
    words_of (insert (trackWords ["c", "b", "a"]).root "ab" 3 3).1
      = ["a", "ab", "b", "c"] :=
  ⟨by unfold ascending; decide, by decide,
    (insert_keeps_order (trackWords ["c", "b", "a"]).root "ab" 3 3
      (by unfold ascending; decide)).1,
    by decide⟩

theorem trackWords_snoc (ws : List String) (w : String) :
    trackWords (ws ++ [w]) = track_word (trackWords ws) w := by
  simp [trackWords, List.foldl_append]

theorem ascending_ne {l : List String} (h : ascending l) : l.Nodup := by
  unfold ascending at h
  exact h.imp (fun {a b} hab heq => by rw [heq, strcmp_self] at hab; omega)

/-- The loop invariant of `trackWords`. -/
theorem trackWords_invariant (ws : List String) :
    ascending (words_of (trackWords ws).root) ∧
    (trackWords ws).position = ws.length ∧
    (trackWords ws).uniqueWords = (inOrder (trackWords ws).root).length ∧
    (∀ e ∈ inOrder (trackWords ws).root,
      e.1 ∈ ws ∧ e.2.1 = (ws.count e.1 : Int) ∧ e.2.2 = (ws.indexOf e.1 : Int)) ∧
    (∀ w ∈ ws, w ∈ words_of (trackWords ws).root) := by
  induction ws using List.reverseRecOn with
  | nil =>
    simp [trackWords, words_of, inOrder, ascending]
  | append_singleton ws w ih =>
    obtain ⟨h1, h2, h3, h4, h5⟩ := ih
    obtain ⟨hin, hu⟩ := insert_spec (trackWords ws).root w (trackWords ws).position
      (trackWords ws).uniqueWords h1
    rw [trackWords_snoc]
    simp only [track_word]
    have hlen := length_upsert (inOrder (trackWords ws).root) w (trackWords ws).position h1
    refine ⟨?_, ?_, ?_, ?_, ?_⟩
    · unfold words_of
      rw [hin]
      exact upsert_ascending _ _ _ h1
    · rw [h2]; simp
    · rw [hu, hin, hlen, h3]
      rfl
    · intro e he
      rw [hin] at he
      rcases mem_upsert _ _ _ h1 e he with ⟨hm, hne⟩ | ⟨heq, hnot⟩ | ⟨f, p, hm, heq⟩
      · obtain ⟨a, b, c⟩ := h4 e hm
        have hne' : ¬ w = e.1 := fun h => hne h.symm
        refine ⟨List.mem_append_left _ a, ?_, ?_⟩
        · rw [List.count_append, List.count_singleton]
          simp [hne', b]
        · rw [List.indexOf_append_of_mem a]
          exact c
      · have hw : w ∉ ws := fun hm => hnot (h5 w hm)
        rw [heq]
        refine ⟨by simp, ?_, ?_⟩
        · simp only
          rw [List.count_append, List.count_eq_zero_of_not_mem hw]
          simp
        · simp only
          rw [List.indexOf_append_of_not_mem hw, List.indexOf_cons_self, h2]
          simp
      · obtain ⟨a, b, c⟩ := h4 (w, f, p) hm
        simp only at a b c
        rw [heq]
        refine ⟨List.mem_append_left _ a, ?_, ?_⟩
        · simp only
          rw [List.count_append, b]
          simp
        · simp only
          rw [List.indexOf_append_of_mem a]
          exact c
    · intro x hx
      unfold words_of
      rw [hin]
      rw [mem_upsert_words]
      rcases List.mem_append.mp hx with hx | hx
      · exact Or.inl (h5 x hx)
      · exact Or.inr (by simpa using hx)

/-- C26: word statistics of the AVL store.  For every list of words, inserting
`(w_i, i)` for `i = 0 .. n-1` in order into the empty tree with counter 0 (the
loop of `trackWords`) yields a tree whose in-order listing holds each distinct
word of the list exactly once (the listed words are strictly ascending and are
exactly the words of the list), with frequency equal to the number of
occurrences of the word and initial position equal to the least index at which
it occurs; the `uniqueWords` counter is the number of distinct words and the
total (`position`) is `n`. -/
theorem trackWords_statistics (ws : List String) :
    (words_of (trackWords ws).root).Nodup ∧
    ascending (words_of (trackWords ws).root) ∧
    (∀ w, w ∈ words_of (trackWords ws).root ↔ w ∈ ws) ∧
    (∀ e ∈ inOrder (trackWords ws).root,
      e.2.1 = (ws.count e.1 : Int) ∧ e.2.2 = (ws.indexOf e.1 : Int)) ∧
    (trackWords ws).uniqueWords = (ws.dedup.length : Int) ∧
    (trackWords ws).uniqueWords = ((words_of (trackWords ws).root).length : Int) ∧
    (trackWords ws).position = (ws.length : Int) := by
  obtain ⟨h1, h2, h3, h4, h5⟩ := trackWords_invariant ws
  have hnodup := ascending_ne h1
  have hmem : ∀ w, w ∈ words_of (trackWords ws).root ↔ w ∈ ws := by
    intro w
    constructor
    · intro hw
      obtain ⟨e, he, hew⟩ := mem_words_of.1 hw
      rw [← hew]
      exact (h4 e he).1
    · exact h5 w
  have hcard : (words_of (trackWords ws).root).length = ws.dedup.length := by
    rw [← List.toFinset_card_of_nodup hnodup, ← List.card_toFinset,
      List.toFinset.ext hmem]
  have hlen : (words_of (trackWords ws).root).length
      = (inOrder (trackWords ws).root).length := by
    simp [words_of]
  refine ⟨hnodup, h1, hmem, fun e he => (h4 e he).2, ?_, ?_, h2⟩
  · rw [h3, ← hcard, hlen]
  · rw [h3, hlen]

/-! ## Balance -/

theorem is_avl_node (c : String) (n f p h : Int) (l r : WORD) :
    is_avl (WORD.node c n f p h l r) = true ↔
      is_avl l = true ∧ is_avl r = true ∧ h = 1 + Max.max (height l) (height r) ∧
      -1 ≤ height l - height r ∧ height l - height r ≤ 1 := by
  simp only [is_avl, Bool.and_eq_true, decide_eq_true_eq]
  tauto

theorem height_nonneg (t : WORD) (h : is_avl t = true) : 0 ≤ height t := by
  induction t with
  | null => simp [height]
  | node c n f p h' l r ihl ihr =>
    obtain ⟨hl, hr, hh, -, -⟩ := (is_avl_node c n f p h' l r).1 h
    have := ihl hl
    have := ihr hr
    simp only [height]
    omega

theorem height_node (c : String) (n f p h : Int) (l r : WORD) :
    height (WORD.node c n f p h l r) = h := rfl

theorem height_null : height WORD.null = 0 := rfl

/-- Steps 2 and 3 of `insert` after the word went to the left child. -/
theorem rebalance_left (c : String) (n f p h : Int) (l r : WORD) (w : String)
    (hl0 : Int) (hl : is_avl l = true) (hr : is_avl r = true)
    (hb1 : -1 ≤ hl0 - height r) (hb2 : hl0 - height r ≤ 1)
    (hgrow : height l = hl0 ∨ (height l = hl0 + 1 ∧ grew l w))
    (hwc : strcmp w c < 0) :
    is_avl (rebalance (WORD.node c n f p h l r) w) = true ∧
    (height (rebalance (WORD.node c n f p h l r) w) = 1 + Max.max hl0 (height r) ∨
      (height (rebalance (WORD.node c n f p h l r) w) = 2 + Max.max hl0 (height r) ∧
        grew (rebalance (WORD.node c n f p h l r) w) w)) := by
  have hrnn := height_nonneg r hr
  by_cases hb : height l - height r > 1
  · have hg : height l = hl0 + 1 ∧ grew l w := by
      rcases hgrow with h1 | h1
      · omega
      · exact h1
    obtain ⟨hh, hgr⟩ := hg
    cases l with
    | null => exact absurd hgr (by simp [grew])
    | node lc ln lf lp lh ll lr =>
      obtain ⟨hll, hlr, hlh, hlb1, hlb2⟩ := (is_avl_node lc ln lf lp lh ll lr).1 hl
      have hllnn := height_nonneg ll hll
      have hlrnn := height_nonneg lr hlr
      simp only [height_node] at hb hh
      simp only [grew] at hgr
      rcases hgr with ⟨e1, e2⟩ | ⟨hw1, hside⟩ | ⟨hw1, hside⟩
      · rw [e1, e2, height_null] at hlh
        simp only [max_self] at hlh
        omega
      · have hcond : getBalance (WORD.node c n f p
            (1 + max (height (WORD.node lc ln lf lp lh ll lr)) (height r))
            (WORD.node lc ln lf lp lh ll lr) r) > 1
            ∧ strcmp w (contents (WORD.node lc ln lf lp lh ll lr)) < 0 := by
          simp only [getBalance, height_node, contents]
          exact ⟨hb, hw1⟩
        have hreb : rebalance (WORD.node c n f p h (WORD.node lc ln lf lp lh ll lr) r) w
            = WORD.node lc ln lf lp
                (max (height ll)
                  (height (WORD.node c n f p (max (height lr) (height r) + 1) lr r)) + 1)
                ll (WORD.node c n f p (max (height lr) (height r) + 1) lr r) := by
          simp only [rebalance]
          rw [if_pos hcond]
          rfl
        rw [hreb]
        refine ⟨?_, Or.inl ?_⟩
        · rw [is_avl_node, is_avl_node]
          simp only [height_node, max_eq]
          refine ⟨hll, ⟨hlr, hr, ?_, ?_, ?_⟩, ?_, ?_, ?_⟩ <;> omega
        · simp only [height_node, max_eq]
          omega
      · cases lr with
        | null =>
          rw [height_null] at hside
          omega
        | node rc rn rf rp rh rl rr =>
          obtain ⟨hrl, hrr, hrh, hrb1, hrb2⟩ := (is_avl_node rc rn rf rp rh rl rr).1 hlr
          have hrlnn := height_nonneg rl hrl
          have hrrnn := height_nonneg rr hrr
          simp only [height_node] at hside hlh hlb1 hlb2
          have hc1 : ¬ (getBalance (WORD.node c n f p
              (1 + max (height (WORD.node lc ln lf lp lh ll
                (WORD.node rc rn rf rp rh rl rr))) (height r))
              (WORD.node lc ln lf lp lh ll (WORD.node rc rn rf rp rh rl rr)) r) > 1
              ∧ strcmp w (contents (WORD.node lc ln lf lp lh ll
                (WORD.node rc rn rf rp rh rl rr))) < 0) := by
            simp only [contents]
            omega
          have hc2 : ¬ (getBalance (WORD.node c n f p
              (1 + max (height (WORD.node lc ln lf lp lh ll
                (WORD.node rc rn rf rp rh rl rr))) (height r))
              (WORD.node lc ln lf lp lh ll (WORD.node rc rn rf rp rh rl rr)) r) < -1
              ∧ strcmp w (contents r) > 0) := by
            simp only [getBalance, height_node]
            omega
          have hc3 : getBalance (WORD.node c n f p
              (1 + max (height (WORD.node lc ln lf lp lh ll
                (WORD.node rc rn rf rp rh rl rr))) (height r))
              (WORD.node lc ln lf lp lh ll (WORD.node rc rn rf rp rh rl rr)) r) > 1
              ∧ strcmp w (contents (WORD.node lc ln lf lp lh ll
                (WORD.node rc rn rf rp rh rl rr))) > 0 := by
            simp only [getBalance, height_node, contents]
            exact ⟨hb, hw1⟩
          have hreb : rebalance (WORD.node c n f p h
              (WORD.node lc ln lf lp lh ll (WORD.node rc rn rf rp rh rl rr)) r) w
              = rightRotate (WORD.node c n f p
                  (1 + max (height (WORD.node lc ln lf lp lh ll
                    (WORD.node rc rn rf rp rh rl rr))) (height r))
                  (leftRotate (WORD.node lc ln lf lp lh ll
                    (WORD.node rc rn rf rp rh rl rr))) r) := by
            simp only [rebalance]
            rw [if_neg hc1, if_neg hc2, if_pos hc3]
          rw [hreb]
          simp only [leftRotate, rightRotate, height_node, max_eq]
          refine ⟨?_, Or.inl ?_⟩
          · rw [is_avl_node, is_avl_node, is_avl_node]
            simp only [height_node]
            refine ⟨⟨hll, hrl, ?_, ?_, ?_⟩, ⟨hrr, hr, ?_, ?_, ?_⟩, ?_, ?_, ?_⟩ <;> omega
          · omega
  · have hb' : height l - height r ≤ 1 := by omega
    have hlow : -1 ≤ height l - height r := by
      rcases hgrow with h1 | h1 <;> omega
    have hc1 : ¬ (getBalance (WORD.node c n f p (1 + max (height l) (height r)) l r) > 1
        ∧ strcmp w (contents l) < 0) := by
      simp only [getBalance]; omega
    have hc2 : ¬ (getBalance (WORD.node c n f p (1 + max (height l) (height r)) l r) < -1
        ∧ strcmp w (contents r) > 0) := by
      simp only [getBalance]; omega
    have hc3 : ¬ (getBalance (WORD.node c n f p (1 + max (height l) (height r)) l r) > 1
        ∧ strcmp w (contents l) > 0) := by
      simp only [getBalance]; omega
    have hc4 : ¬ (getBalance (WORD.node c n f p (1 + max (height l) (height r)) l r) < -1
        ∧ strcmp w (contents r) < 0) := by
      simp only [getBalance]; omega
    have hreb : rebalance (WORD.node c n f p h l r) w
        = WORD.node c n f p (1 + max (height l) (height r)) l r := by
      simp only [rebalance]
      rw [if_neg hc1, if_neg hc2, if_neg hc3, if_neg hc4]
    rw [hreb]
    refine ⟨?_, ?_⟩
    · rw [is_avl_node]
      exact ⟨hl, hr, by rw [max_eq], hlow, hb'⟩
    · simp only [height_node, max_eq, grew]
      rcases hgrow with h1 | ⟨h1, -⟩
      · left; rw [h1]
      · by_cases hsame : Max.max (height l) (height r) = Max.max hl0 (height r)
        · left; omega
        · right
          refine ⟨by omega, Or.inr (Or.inl ⟨hwc, by omega⟩)⟩

/-- Steps 2 and 3 of `insert` after the word went to the right child. -/
theorem rebalance_right (c : String) (n f p h : Int) (l r : WORD) (w : String)
    (hr0 : Int) (hl : is_avl l = true) (hr : is_avl r = true)
    (hb1 : -1 ≤ height l - hr0) (hb2 : height l - hr0 ≤ 1)
    (hgrow : height r = hr0 ∨ (height r = hr0 + 1 ∧ grew r w))
    (hwc : strcmp w c > 0) :
    is_avl (rebalance (WORD.node c n f p h l r) w) = true ∧
    (height (rebalance (WORD.node c n f p h l r) w) = 1 + Max.max (height l) hr0 ∨
      (height (rebalance (WORD.node c n f p h l r) w) = 2 + Max.max (height l) hr0 ∧
        grew (rebalance (WORD.node c n f p h l r) w) w)) := by
  have hlnn := height_nonneg l hl
  by_cases hb : height l - height r < -1
  · have hg : height r = hr0 + 1 ∧ grew r w := by
      rcases hgrow with h1 | h1
      · omega
      · exact h1
    obtain ⟨hh, hgr⟩ := hg
    cases r with
    | null => exact absurd hgr (by simp [grew])
    | node rc rn rf rp rh rl rr =>
      obtain ⟨hrl, hrr, hrh, hrb1, hrb2⟩ := (is_avl_node rc rn rf rp rh rl rr).1 hr
      have hrlnn := height_nonneg rl hrl
      have hrrnn := height_nonneg rr hrr
      simp only [height_node] at hb hh
      simp only [grew] at hgr
      rcases hgr with ⟨e1, e2⟩ | ⟨hw1, hside⟩ | ⟨hw1, hside⟩
      · rw [e1, e2, height_null] at hrh
        simp only [max_self] at hrh
        omega
      · cases rl with
        | null =>
          rw [height_null] at hside
          omega
        | node ac an af ap ah al ar =>
          obtain ⟨hal, har, hah, hab1, hab2⟩ := (is_avl_node ac an af ap ah al ar).1 hrl
          have halnn := height_nonneg al hal
          have harnn := height_nonneg ar har
          simp only [height_node] at hside hrh hrb1 hrb2
          have hc1 : ¬ (getBalance (WORD.node c n f p
              (1 + max (height l) (height (WORD.node rc rn rf rp rh
                (WORD.node ac an af ap ah al ar) rr)))
              l (WORD.node rc rn rf rp rh (WORD.node ac an af ap ah al ar) rr)) > 1
              ∧ strcmp w (contents l) < 0) := by
            simp only [getBalance, height_node]
            omega
          have hc2 : ¬ (getBalance (WORD.node c n f p
              (1 + max (height l) (height (WORD.node rc rn rf rp rh
                (WORD.node ac an af ap ah al ar) rr)))
              l (WORD.node rc rn rf rp rh (WORD.node ac an af ap ah al ar) rr)) < -1
              ∧ strcmp w (contents (WORD.node rc rn rf rp rh
                (WORD.node ac an af ap ah al ar) rr)) > 0) := by
            simp only [contents]
            omega
          have hc3 : ¬ (getBalance (WORD.node c n f p
              (1 + max (height l) (height (WORD.node rc rn rf rp rh
                (WORD.node ac an af ap ah al ar) rr)))
              l (WORD.node rc rn rf rp rh (WORD.node ac an af ap ah al ar) rr)) > 1
              ∧ strcmp w (contents l) > 0) := by
            simp only [getBalance, height_node]
            omega
          have hc4 : getBalance (WORD.node c n f p
              (1 + max (height l) (height (WORD.node rc rn rf rp rh
                (WORD.node ac an af ap ah al ar) rr)))
              l (WORD.node rc rn rf rp rh (WORD.node ac an af ap ah al ar) rr)) < -1
              ∧ strcmp w (contents (WORD.node rc rn rf rp rh
                (WORD.node ac an af ap ah al ar) rr)) < 0 := by
            simp only [getBalance, height_node, contents]
            exact ⟨hb, hw1⟩
          have hreb : rebalance (WORD.node c n f p h l
              (WORD.node rc rn rf rp rh (WORD.node ac an af ap ah al ar) rr)) w
              = leftRotate (WORD.node c n f p
                  (1 + max (height l) (height (WORD.node rc rn rf rp rh
                    (WORD.node ac an af ap ah al ar) rr)))
                  l (rightRotate (WORD.node rc rn rf rp rh
                    (WORD.node ac an af ap ah al ar) rr))) := by
            simp only [rebalance]
            rw [if_neg hc1, if_neg hc2, if_neg hc3, if_pos hc4]
          rw [hreb]
          simp only [leftRotate, rightRotate, height_node, max_eq]
          refine ⟨?_, Or.inl ?_⟩
          · rw [is_avl_node, is_avl_node, is_avl_node]
            simp only [height_node]
            refine ⟨⟨hl, hal, ?_, ?_, ?_⟩, ⟨har, hrr, ?_, ?_, ?_⟩, ?_, ?_, ?_⟩ <;> omega
          · omega
      · have hc1 : ¬ (getBalance (WORD.node c n f p
            (1 + max (height l) (height (WORD.node rc rn rf rp rh rl rr)))
            l (WORD.node rc rn rf rp rh rl rr)) > 1
            ∧ strcmp w (contents l) < 0) := by
          simp only [getBalance, height_node]
          omega
        have hc2 : getBalance (WORD.node c n f p
            (1 + max (height l) (height (WORD.node rc rn rf rp rh rl rr)))
            l (WORD.node rc rn rf rp rh rl rr)) < -1
            ∧ strcmp w (contents (WORD.node rc rn rf rp rh rl rr)) > 0 := by
          simp only [getBalance, height_node, contents]
          exact ⟨hb, hw1⟩
        have hreb : rebalance (WORD.node c n f p h l (WORD.node rc rn rf rp rh rl rr)) w
            = WORD.node rc rn rf rp
                (max (height (WORD.node c n f p (max (height l) (height rl) + 1) l rl))
                  (height rr) + 1)
                (WORD.node c n f p (max (height l) (height rl) + 1) l rl) rr := by
          simp only [rebalance]
          rw [if_neg hc1, if_pos hc2]
          rfl
        rw [hreb]
        refine ⟨?_, Or.inl ?_⟩
        · rw [is_avl_node, is_avl_node]
          simp only [height_node, max_eq]
          refine ⟨⟨hl, hrl, ?_, ?_, ?_⟩, hrr, ?_, ?_, ?_⟩ <;> omega
        · simp only [height_node, max_eq]
          omega
  · have hb' : -1 ≤ height l - height r := by omega
    have hhigh : height l - height r ≤ 1 := by
      rcases hgrow with h1 | h1 <;> omega
    have hc1 : ¬ (getBalance (WORD.node c n f p (1 + max (height l) (height r)) l r) > 1
        ∧ strcmp w (contents l) < 0) := by
      simp only [getBalance]; omega
    have hc2 : ¬ (getBalance (WORD.node c n f p (1 + max (height l) (height r)) l r) < -1
        ∧ strcmp w (contents r) > 0) := by
      simp only [getBalance]; omega
    have hc3 : ¬ (getBalance (WORD.node c n f p (1 + max (height l) (height r)) l r) > 1
        ∧ strcmp w (contents l) > 0) := by
      simp only [getBalance]; omega
    have hc4 : ¬ (getBalance (WORD.node c n f p (1 + max (height l) (height r)) l r) < -1
        ∧ strcmp w (contents r) < 0) := by
      simp only [getBalance]; omega
    have hreb : rebalance (WORD.node c n f p h l r) w
        = WORD.node c n f p (1 + max (height l) (height r)) l r := by
      simp only [rebalance]
      rw [if_neg hc1, if_neg hc2, if_neg hc3, if_neg hc4]
    rw [hreb]
    refine ⟨?_, ?_⟩
    · rw [is_avl_node]
      exact ⟨hl, hr, by rw [max_eq], hb', hhigh⟩
    · simp only [height_node, max_eq, grew]
      rcases hgrow with h1 | ⟨h1, -⟩
      · left; rw [h1]
      · by_cases hsame : Max.max (height l) (height r) = Max.max (height l) hr0
        · left; omega
        · right
          refine ⟨by omega, Or.inr (Or.inr ⟨hwc, by omega⟩)⟩

/-- The induction behind C30: `insert` keeps the tree balanced, and the height
either stays or grows by one on the side the word went to. -/
theorem insert_balanced (t : WORD) (w : String) (pos u : Int) (h : is_avl t = true) :
    is_avl (insert t w pos u).1 = true ∧
    (height (insert t w pos u).1 = height t ∨
      (height (insert t w pos u).1 = height t + 1 ∧ grew (insert t w pos u).1 w)) := by
  induction t with
  | null =>
    simp only [insert, newNode]
    refine ⟨?_, Or.inr ⟨rfl, ?_⟩⟩
    · rw [is_avl_node]
      refine ⟨rfl, rfl, ?_, ?_, ?_⟩ <;> simp [height_null]
    · simp [grew]
  | node c n f p h' l r ihl ihr =>
    obtain ⟨hl, hr, hh, hb1, hb2⟩ := (is_avl_node c n f p h' l r).1 h
    unfold insert
    by_cases h1 : strcmp w c < 0
    · simp only [h1, if_true, height_node]
      obtain ⟨ha, hg⟩ := ihl hl
      have key := rebalance_left c n f p h' (insert l w pos u).1 r w (height l) ha hr hb1 hb2
        hg h1
      refine ⟨key.1, ?_⟩
      rcases key.2 with h2 | h2
      · exact Or.inl (by omega)
      · exact Or.inr ⟨by omega, h2.2⟩
    · simp only [h1, if_false]
      by_cases h2 : strcmp w c > 0
      · simp only [h2, if_true, height_node]
        obtain ⟨ha, hg⟩ := ihr hr
        have key := rebalance_right c n f p h' l (insert r w pos u).1 w (height r) hl ha hb1
          hb2 hg h2
        refine ⟨key.1, ?_⟩
        rcases key.2 with h3 | h3
        · exact Or.inl (by omega)
        · exact Or.inr ⟨by omega, h3.2⟩
      · simp only [h2, if_false, height_node]
        refine ⟨?_, Or.inl trivial⟩
        rw [is_avl_node]
        exact ⟨hl, hr, hh, hb1, hb2⟩

theorem foldl_insert_balanced (calls : List (String × Int × Int)) (t : WORD)
    (h : is_avl t = true) :
    is_avl (calls.foldl (fun t c => (insert t c.1 c.2.1 c.2.2).1) t) = true := by
  induction calls generalizing t with
  | nil => exact h
  | cons c rest ih =>
    rw [List.foldl_cons]
    exact ih _ (insert_balanced t c.1 c.2.1 c.2.2 h).1

theorem foldl_track_word_balanced (ws : List String) (s : TRACK)
    (h : is_avl s.root = true) :
    is_avl (ws.foldl track_word s).root = true := by
  induction ws generalizing s with
  | nil => exact h
  | cons w rest ih =>
    rw [List.foldl_cons]
    exact ih _ (insert_balanced s.root w s.position s.uniqueWords h).1

/-- C30: AVL balance is preserved by `insert`.  For every tree in which each
node's height field is 1 + the larger of its children's heights (0 for the
empty tree) and each balance factor is -1, 0 or 1, and every word, the tree
returned by `insert` again has correct height fields and balance factors in
that range; hence every tree built from the empty tree by `insert` calls, with
any positions and counters, and in particular the tree of `trackWords`, is
height-balanced. -/
theorem insert_keeps_balance (t : WORD) (w : String) (pos u : Int)
    (h : is_avl t = true) :
    is_avl (insert t w pos u).1 = true ∧
    (∀ calls : List (String × Int × Int),
      is_avl (calls.foldl (fun t c => (insert t c.1 c.2.1 c.2.2).1) WORD.null) = true) ∧
    (∀ ws : List String, is_avl (trackWords ws).root = true) :=
  ⟨(insert_balanced t w pos u h).1,
    fun calls => foldl_insert_balanced calls WORD.null rfl,
    fun ws => foldl_track_word_balanced ws _ rfl⟩

theorem insert_keeps_balance_witness :
    is_avl (trackWords ["a", "b", "c", "d", "e"]).root = true ∧
    height (trackWords ["a", "b", "c", "d", "e"]).root = 3 ∧
    is_avl (insert (trackWords ["a", "b", "c", "d", "e"]).root "f" 5 5).1 = true ∧
    height (insert (trackWords ["a", "b", "c", "d", "e"]).root "f" 5 5).1 = 3 :=
  ⟨by decide, by decide,
    (insert_keeps_balance (trackWords ["a", "b", "c", "d", "e"]).root "f" 5 5
      (by decide)).1,
    by decide⟩

end MADCounter
